import Mathlib

/-! # Nysa: a simulator of combinational circuits

A shallow embedding of `nysa.cc` and the properties of its graph engine:
cycle detection, evaluation levels, gate evaluation and the enumeration of
the input assignments.

Conventions of the embedding.

* `signal_id`, `eval_lvl` are `uint32_t`: they are natural numbers here, and
  the one arithmetic operation on them, `currentEvaluationLevel + 1`, is
  taken modulo `2 ^ 32`.
* `std::map<signal_id, Signal>` is an association list kept in ascending key
  order; `signals[id]` inserts a fresh signal when `id` is absent, which is
  why every function that indexes the map returns the map as well.
* `std::unordered_map<output_id, Gate>` is an association list in iteration
  order, looked up by first match.
* `std::unordered_map<signal_id, bool>` (the two mark tables of the cycle
  finder) is only ever read and written through `operator[]`, whose default
  is `false`; it is a function `Nat → Bool`.
* `std::set<signal_id>` is a list in ascending order.
* `std::sort` is a parameter: any function that returns a rearrangement of
  its input in which no element compares less than an earlier one.
* The standard output is the list of its rows, each the list of its digits.
* Out-of-range vector indexing and the exceptions of `at` are `none`.
* Loops and recursions that the type checker cannot see terminate take a
  fuel argument and return `none` when it runs out.
-/

namespace Nysa

/-! ## Signals -/

/-- The size of the `uint32_t` range. -/
def UINT32_SIZE : Nat := 4294967296

/-- A signal `tuple<user_ids, bool, eval_lvl>`. -/
structure Signal where
  users : List Nat
  value : Bool
  level : Nat
deriving DecidableEq

/-- A fresh signal: `getNewSignal`. -/
def getNewSignal : Signal := ⟨[], false, 0⟩

/-- The signal map `std::map<signal_id, Signal>`, ascending in the keys. -/
abbrev signal_map := List (Nat × Signal)

/-- The result of `signals.find(id)`. -/
def lookup : signal_map → Nat → Option Signal
  | [], _ => none
  | (k, s) :: rest, id => if id = k then some s else lookup rest id

/-- The test `signals.contains(id)`. -/
def contains (signals : signal_map) (id : Nat) : Bool := (lookup signals id).isSome

/-- Insertion or assignment at a key, keeping the keys ascending. -/
def assign : signal_map → Nat → Signal → signal_map
  | [], id, s => [(id, s)]
  | (k, s0) :: rest, id, s =>
    if id < k then (id, s) :: (k, s0) :: rest
    else if id = k then (k, s) :: rest
    else (k, s0) :: assign rest id s

/-- The keys of the map in iteration order. -/
def keys (signals : signal_map) : List Nat := signals.map Prod.fst

/-- The signal that `signals[id]` refers to. -/
def sigAt (signals : signal_map) (id : Nat) : Signal :=
  (lookup signals id).getD getNewSignal

/-- The map after the expression `signals[id]` was evaluated. -/
def touch (signals : signal_map) (id : Nat) : signal_map :=
  if contains signals id then signals else assign signals id getNewSignal

/-! ## Gates -/

/-- The kinds of gates. -/
inductive GateType where
  | AND | NAND | OR | NOR | XOR | NOT
deriving DecidableEq

/-- A gate `tuple<input_ids, GateType>`. -/
abbrev Gate := List Nat × GateType

/-- The gate map `std::unordered_map<output_id, Gate>`. -/
abbrev gate_map := List (Nat × Gate)

/-- The result of `gates.find(id)`; `gates.at(id)` throws when it is `none`. -/
def gateAt : gate_map → Nat → Option Gate
  | [], _ => none
  | (k, g) :: rest, id => if id = k then some g else gateAt rest id

/-- The test `gates.contains(id)`. -/
def gatesContains (gates : gate_map) (id : Nat) : Bool := (gateAt gates id).isSome

/-! ## Parser: gate lines

A line is the list of its characters. The three regular expressions of the parser are
full matches of `[[:space:]]*NAME([[:space:]]+ID){n}[[:space:]]*`; they are read here on
the words of the line, its maximal runs of non-space characters, which are also what
`linestream >> x` extracts one after the other. -/

/-- The character class `[[:space:]]`: the space and the control characters 9 to 13. -/
def isSpace (c : Char) : Bool := c.toNat == 32 || (9 ≤ c.toNat && c.toNat ≤ 13)

/-- The character class `[[:digit:]]`. -/
def isDigit (c : Char) : Bool := 48 ≤ c.toNat && c.toNat ≤ 57

/-- The words of a line. -/
def tokens (line : List Char) : List (List Char) :=
  (line.splitOnP isSpace).filter (fun t => !t.isEmpty)

/-- The pattern `[1-9][[:digit:]]{0,8}` on a whole word. -/
def isIdToken : List Char → Bool
  | [] => false
  | c :: rest =>
    49 ≤ c.toNat && c.toNat ≤ 57 && rest.all isDigit && decide (rest.length ≤ 8)

/-- A full match of `[[:space:]]*(NAME|...)([[:space:]]+ID){n}[[:space:]]*` with the
names of `names` and a number `n` of ids that `count` accepts. -/
def matchesGate (names : List (List Char)) (count : Nat → Bool) (line : List Char) : Bool :=
  match tokens line with
  | [] => false
  | name :: ids => names.contains name && ids.all isIdToken && count ids.length

/-- The pattern `xor_gate_regex`. -/
def xor_gate_regex (line : List Char) : Bool :=
  matchesGate [String.toList "XOR"] (fun n => n == 3) line

/-- The pattern `not_gate_regex`. -/
def not_gate_regex (line : List Char) : Bool :=
  matchesGate [String.toList "NOT"] (fun n => n == 2) line

/-- The pattern `casual_gate_regex`. -/
def casual_gate_regex (line : List Char) : Bool :=
  matchesGate [String.toList "AND", String.toList "NAND", String.toList "OR",
    String.toList "NOR"] (fun n => decide (3 ≤ n)) line

/-- The function `Parser::isLineValid`. -/
def isLineValid (line : List Char) : Bool :=
  xor_gate_regex line || not_gate_regex line || casual_gate_regex line

/-- The function `getGateType`; `none` is the exception it throws. -/
def getGateType (gateName : List Char) : Option GateType :=
  if gateName = String.toList "AND" then some GateType.AND
  else if gateName = String.toList "NAND" then some GateType.NAND
  else if gateName = String.toList "OR" then some GateType.OR
  else if gateName = String.toList "NOR" then some GateType.NOR
  else if gateName = String.toList "XOR" then some GateType.XOR
  else if gateName = String.toList "NOT" then some GateType.NOT
  else none

/-- The number a run of decimal digits denotes. -/
def readNat (tok : List Char) : Nat :=
  tok.foldl (fun acc c => 10 * acc + (c.toNat - 48)) 0

/-- The extraction `linestream >> id` of a `uint32_t` from a word; it fails on a word
that is not a run of digits or does not fit. Every word after the name of a line that
`isLineValid` accepts is a run of at most nine digits. -/
def extractId (tok : List Char) : Option Nat :=
  if !tok.isEmpty && tok.all isDigit && decide (readNat tok < UINT32_SIZE) then
    some (readNat tok)
  else none

/-- The function `Parser::parseGateType` on the words still in the stream. -/
def parseGateType (toks : List (List Char)) : Option GateType :=
  getGateType (toks.headD [])

/-- The function `Parser::parseGateOutputId` on the words still in the stream; a
failed extraction leaves 0. -/
def parseGateOutputId (toks : List (List Char)) : Nat :=
  ((toks.head?).bind extractId).getD 0

/-- The function `Parser::parseGateInputIds` on the words still in the stream: it
reads ids until an extraction fails. -/
def parseGateInputIds : List (List Char) → List Nat
  | [] => []
  | tok :: rest =>
    match extractId tok with
    | none => []
    | some id => id :: parseGateInputIds rest

/-- The assignment `gates[output_id] = gate`. -/
def gatesAssign : gate_map → Nat → Gate → gate_map
  | [], id, gate => [(id, gate)]
  | (k, g0) :: rest, id, gate =>
    if id = k then (k, gate) :: rest else (k, g0) :: gatesAssign rest id gate

/-- The function `Parser::parseGate`: whether the line was parsed without error, the
gate map and the lines written to the error stream. -/
def parseGate (line : List Char) (line_id : Nat) (gates : gate_map) :
    Option (Bool × gate_map × List String) :=
  if !isLineValid line then
    some (false, gates, ["Error in line " ++ toString line_id ++ ": " ++ String.mk line])
  else
    match parseGateType (tokens line) with
    | none => none
    | some gateType =>
      if gatesContains gates (parseGateOutputId (tokens line).tail) then
        some (false, gates,
          ["Error in line " ++ toString line_id ++ ": signal " ++
            toString (parseGateOutputId (tokens line).tail) ++
            " is assigned to multiple outputs."])
      else
        some (true,
          gatesAssign gates (parseGateOutputId (tokens line).tail)
            (parseGateInputIds (tokens line).tail.tail, gateType), [])

/-! ## Parser: graph construction -/

/-- One step of `addAllSignals`: `if (!signals.contains(id)) signals[id] = getNewSignal()`. -/
def addSignal (signals : signal_map) (id : Nat) : signal_map :=
  if contains signals id then signals else assign signals id getNewSignal

/-- The function `Parser::addAllSignals`. -/
def addAllSignals (signals : signal_map) (gates : gate_map) : signal_map :=
  gates.foldl (fun m gateData => gateData.2.1.foldl addSignal (addSignal m gateData.1)) signals

/-- The statement `get<USER_IDS>(signals[id]).push_back(output_id)`. -/
def addUser (output_id : Nat) (signals : signal_map) (id : Nat) : signal_map :=
  assign signals id { sigAt signals id with users := (sigAt signals id).users ++ [output_id] }

/-- The function `Parser::setAllSignalsUsers`. -/
def setAllSignalsUsers (signals : signal_map) (gates : gate_map) : signal_map :=
  gates.foldl (fun m gateData => gateData.2.1.foldl (addUser gateData.1) m) signals

/-- The graph construction of `Parser::parseData` on parsed gates, from an empty signal map. -/
def buildSignals (gates : gate_map) : signal_map :=
  setAllSignalsUsers (addAllSignals [] gates) gates

/-! ## GateExecutor -/

/-- The function `GateExecutor::gateAND`. -/
def gateAND (inputIds : List Nat) (signals : signal_map) : Bool × signal_map :=
  inputIds.foldl (fun st id => (st.1 && (sigAt st.2 id).value, touch st.2 id)) (true, signals)

/-- The function `GateExecutor::gateNAND`. -/
def gateNAND (inputIds : List Nat) (signals : signal_map) : Bool × signal_map :=
  (!(gateAND inputIds signals).1, (gateAND inputIds signals).2)

/-- The function `GateExecutor::gateOR`. -/
def gateOR (inputIds : List Nat) (signals : signal_map) : Bool × signal_map :=
  inputIds.foldl (fun st id => (st.1 || (sigAt st.2 id).value, touch st.2 id)) (false, signals)

/-- The function `GateExecutor::gateNOR`. -/
def gateNOR (inputIds : List Nat) (signals : signal_map) : Bool × signal_map :=
  (!(gateOR inputIds signals).1, (gateOR inputIds signals).2)

/-- The function `GateExecutor::gateNOT`; `inputIds[0]` must exist. -/
def gateNOT (inputIds : List Nat) (signals : signal_map) : Option (Bool × signal_map) :=
  match inputIds with
  | [] => none
  | i0 :: _ => some (!(sigAt signals i0).value, touch signals i0)

/-- The function `GateExecutor::gateXOR`; `inputIds[0]` and `inputIds[1]` must exist. -/
def gateXOR (inputIds : List Nat) (signals : signal_map) : Option (Bool × signal_map) :=
  match inputIds with
  | i0 :: i1 :: _ =>
    let a := (sigAt signals i0).value
    let b := (sigAt (touch signals i0) i1).value
    some ((a && !b) || (!a && b), touch (touch signals i0) i1)
  | _ => none

/-- The function `GateExecutor::evaluate`. -/
def evaluate (gate : Gate) (signals : signal_map) : Option (Bool × signal_map) :=
  match gate.2 with
  | GateType.AND => some (gateAND gate.1 signals)
  | GateType.OR => some (gateOR gate.1 signals)
  | GateType.NAND => some (gateNAND gate.1 signals)
  | GateType.NOR => some (gateNOR gate.1 signals)
  | GateType.NOT => gateNOT gate.1 signals
  | GateType.XOR => gateXOR gate.1 signals

/-! ## CycleFinder -/

/-- A mark table `unordered_map<signal_id, bool>`, read and written through `operator[]`. -/
abbrev visited_map := Nat → Bool

/-- The function `CycleFinder::getVisitedMap`: every signal is unmarked. -/
def getVisitedMap (_signals : signal_map) : visited_map := fun _ => false

/-- The state the traversal threads: the signal map, `visited` and
`visitedInCurrentTraversal`. -/
structure TraversalState where
  signals : signal_map
  visited : visited_map
  visitedInCurrentTraversal : visited_map

/-- The loop `for (id : ids) res |= call(id, ...)` of the cycle finder. -/
def orAll (call : Nat → TraversalState → Option (Bool × TraversalState)) :
    List Nat → Bool → TraversalState → Option (Bool × TraversalState)
  | [], res, st => some (res, st)
  | id :: rest, res, st =>
    match call id st with
    | none => none
    | some (r, st1) => orAll call rest (res || r) st1

/-- The function `CycleFinder::existsCycle`; the fuel bounds the recursion depth. -/
def existsCycle : Nat → Nat → TraversalState → Option (Bool × TraversalState)
  | 0, _, _ => none
  | fuel + 1, currentId, st =>
    if st.visitedInCurrentTraversal currentId then some (true, st)
    else if st.visited currentId then some (false, st)
    else
      match orAll (existsCycle fuel) (sigAt st.signals currentId).users false
          { signals := touch st.signals currentId
            visited := Function.update st.visited currentId true
            visitedInCurrentTraversal :=
              Function.update st.visitedInCurrentTraversal currentId true } with
      | none => none
      | some (res, st1) =>
        some (res, { st1 with
          visitedInCurrentTraversal :=
            Function.update st1.visitedInCurrentTraversal currentId false })

/-- The function `CycleFinder::hasCircuitCycle`; it returns the signal map as well,
which it receives by non-const reference. -/
def hasCircuitCycle (fuel : Nat) (inputSignalsIDs : List Nat) (signals : signal_map) :
    Option (Bool × signal_map) :=
  if !signals.isEmpty && inputSignalsIDs.isEmpty then some (true, signals)
  else
    match orAll (existsCycle fuel) inputSignalsIDs false
        { signals := signals
          visited := getVisitedMap signals
          visitedInCurrentTraversal := getVisitedMap signals } with
    | none => none
    | some (res, st) => some (res, st.signals)

/-! ## EvaluationOrderProvider -/

/-- The function `EvaluationOrderProvider::setEvaluationLevel`. -/
def setEvaluationLevel (currentId evaluationLevel : Nat) (signals : signal_map) : signal_map :=
  assign signals currentId
    { sigAt signals currentId with
      level := max (sigAt signals currentId).level evaluationLevel }

/-- The inner loop of `setEvaluationLevels` over the users of the current signal. -/
def relaxUsers (users : List Nat) (currentEvaluationLevel : Nat) (signals : signal_map) :
    signal_map :=
  users.foldl
    (fun m id => setEvaluationLevel id ((currentEvaluationLevel + 1) % UINT32_SIZE) m) signals

/-- The `while (!signalsQueue.empty())` loop of `setEvaluationLevels`; one unit of
fuel per dequeued signal. -/
def levelsLoop : Nat → List Nat → signal_map → Option signal_map
  | _, [], signals => some signals
  | 0, _ :: _, _ => none
  | fuel + 1, currentId :: queue, signals =>
    levelsLoop fuel (queue ++ (sigAt signals currentId).users)
      (relaxUsers (sigAt signals currentId).users (sigAt signals currentId).level
        (touch signals currentId))

/-- The function `EvaluationOrderProvider::setEvaluationLevels`. -/
def setEvaluationLevels (fuel : Nat) (signals : signal_map) (inputSignalsIDs : List Nat) :
    Option signal_map :=
  levelsLoop fuel inputSignalsIDs signals

/-- The function `EvaluationOrderProvider::evaluationLevelComparator`. -/
def evaluationLevelComparator (a b : Nat × Nat) : Bool := decide (a.2 < b.2)

/-- The function `EvaluationOrderProvider::getEvaluationLevels`. -/
def getEvaluationLevels (signals : signal_map) : List (Nat × Nat) :=
  (signals.filter (fun signal => decide (signal.2.level > 0))).map
    (fun signal => (signal.1, signal.2.level))

/-- The type of `std::sort` on level pairs: a comparator and a sequence. -/
abbrev sort_fn := (Nat × Nat → Nat × Nat → Bool) → List (Nat × Nat) → List (Nat × Nat)

/-- What `std::sort` guarantees for the level comparator: the result is a
rearrangement of the input in which no element compares less than an earlier one.
The order among equal levels is left open. -/
def SortContract (sort : sort_fn) : Prop :=
  ∀ l : List (Nat × Nat),
    (sort evaluationLevelComparator l).Perm l ∧
    (sort evaluationLevelComparator l).Pairwise
      (fun a b => evaluationLevelComparator b a = false)

/-- One sort that meets the contract: insertion sort. -/
def insertionSortBy : sort_fn :=
  fun comp l => l.insertionSort (fun a b => comp b a = false)

/-- The function `EvaluationOrderProvider::getEvaluationOrder`, with `std::sort` as a
parameter. -/
def getEvaluationOrder (sort : sort_fn) (fuel : Nat) (signals : signal_map)
    (inputSignalsIDs : List Nat) : Option (List Nat × signal_map) :=
  match setEvaluationLevels fuel signals inputSignalsIDs with
  | none => none
  | some signals1 =>
    some ((sort evaluationLevelComparator (getEvaluationLevels signals1)).map Prod.fst,
      signals1)

/-! ## Nysa -/

/-- The function `Nysa::getInputIds`: the keys of the signal map, in ascending
order, that are not keys of the gate map. -/
def getInputIds (signals : signal_map) (gates : gate_map) : List Nat :=
  (keys signals).filter (fun id => !gatesContains gates id)

/-- The function `Nysa::calculateSignalValue`; `gates.at` and `signals.at` throw on
a missing key. -/
def calculateSignalValue (id : Nat) (signals : signal_map) (gates : gate_map) :
    Option signal_map :=
  match gateAt gates id with
  | none => none
  | some gate =>
    match evaluate gate signals with
    | none => none
    | some (b, signals1) =>
      match lookup signals1 id with
      | none => none
      | some s => some (assign signals1 id { s with value := b })

/-- The loop of `Nysa::prepareNextCombination` over the ids still to scan. -/
def nextCombinationLoop : List Nat → signal_map → Bool × signal_map
  | [], signals => (false, signals)
  | currentId :: rest, signals =>
    if (sigAt signals currentId).value then
      nextCombinationLoop rest
        (assign signals currentId { sigAt signals currentId with value := false })
    else
      (true, assign signals currentId { sigAt signals currentId with value := true })

/-- The function `Nysa::prepareNextCombination`: the scan runs from the largest id down. -/
def prepareNextCombination (signals : signal_map) (inputIds : List Nat) :
    Bool × signal_map :=
  nextCombinationLoop inputIds.reverse signals

/-- The digits written by `Nysa::printCurrentSignalValues`, without the newline that
ends the row. -/
def printCurrentSignalValues (signals : signal_map) : List Char :=
  signals.map (fun signal => if signal.2.value then '1' else '0')

/-- The loop of `Nysa::evaluateSignals` over the evaluation order. -/
def evaluateAll (gates : gate_map) : List Nat → signal_map → Option signal_map
  | [], signals => some signals
  | id :: rest, signals =>
    match calculateSignalValue id signals gates with
    | none => none
    | some signals1 => evaluateAll gates rest signals1

/-- The function `Nysa::evaluateSignals`: the row written and the signal map. -/
def evaluateSignals (gates : gate_map) (evaluationOrder : List Nat) (signals : signal_map) :
    Option (List Char × signal_map) :=
  match evaluateAll gates evaluationOrder signals with
  | none => none
  | some signals1 => some (printCurrentSignalValues signals1, signals1)

/-- The `do ... while (prepareNextCombination(...))` loop of `Nysa::execute`; one unit
of fuel per evaluation pass. It returns the rows written and the signal map. -/
def executeLoop (gates : gate_map) (evaluationOrder inputIds : List Nat) :
    Nat → signal_map → Option (List (List Char) × signal_map)
  | 0, _ => none
  | fuel + 1, signals =>
    match evaluateSignals gates evaluationOrder signals with
    | none => none
    | some (row, signals1) =>
      if (prepareNextCombination signals1 inputIds).1 then
        match executeLoop gates evaluationOrder inputIds fuel
            (prepareNextCombination signals1 inputIds).2 with
        | none => none
        | some (rows, signals2) => some (row :: rows, signals2)
      else some ([row], (prepareNextCombination signals1 inputIds).2)

/-- What a run leaves behind: the rows on the standard output, the lines on the
error stream and the signal map. -/
structure Output where
  rows : List (List Char)
  diagnostics : List String
  signals : signal_map

/-- The function `Nysa::execute`. -/
def execute (sort : sort_fn) (fuel : Nat) (gates : gate_map) (signals : signal_map) :
    Option Output :=
  match hasCircuitCycle fuel (getInputIds signals gates) signals with
  | none => none
  | some (true, signals1) =>
    some { rows := []
           diagnostics := ["Error: sequential logic analysis has not yet been implemented."]
           signals := signals1 }
  | some (false, signals1) =>
    match getEvaluationOrder sort fuel signals1 (getInputIds signals gates) with
    | none => none
    | some (evaluationOrder, signals2) =>
      match executeLoop gates evaluationOrder (getInputIds signals gates) fuel signals2 with
      | none => none
      | some (rows, signals3) => some { rows := rows, diagnostics := [], signals := signals3 }

/-- Three NOT gates: `1` and `2` feed each other, `3` reads the primary input `4`. -/
def feedbackGates : gate_map :=
  [(1, ([2], GateType.NOT)), (2, ([1], GateType.NOT)), (3, ([4], GateType.NOT))]

/-! ## The signal dependency graph -/

/-- An edge of the signal dependency graph: `s` is an input of the gate whose output
is `o`. -/
def GateEdge (gates : gate_map) (s o : Nat) : Prop :=
  ∃ gate, (o, gate) ∈ gates ∧ s ∈ gate.1

/-- The dependency graph has a feedback path: a directed cycle. -/
def HasFeedback (gates : gate_map) : Prop :=
  ∃ s, Relation.TransGen (GateEdge gates) s s

/-- The representation invariant of the signal map: the keys ascend strictly. -/
def KeysSorted (signals : signal_map) : Prop := (keys signals).Pairwise (fun a b => a < b)

/-- The fan-out that graph construction gives a signal: the output of every gate, in
iteration order, once per occurrence of the signal among the inputs of the gate. -/
def fanOut : gate_map → Nat → List Nat
  | [], _ => []
  | gateData :: rest, id => List.replicate (gateData.2.1.count id) gateData.1 ++ fanOut rest id

/-- The fan-out relation stored in a signal map, read backwards: `c` is a user of `b`. -/
def IsUserOf (signals : signal_map) (c b : Nat) : Prop := c ∈ (sigAt signals b).users

/-- The relation `IsUserOf` below accessible signals only. -/
def IsUserOfAcc (signals : signal_map) (c b : Nat) : Prop :=
  IsUserOf signals c b ∧ Acc (IsUserOf signals) b

/-- What the relaxation loop keeps of the signal map `m0` it started from, in a state
with queue `q` and map `m`: fan-out lists, values and keys, and the level of every
signal that is nobody's user. -/
structure LevelsFrame (m0 : signal_map) (q : List Nat) (m : signal_map) : Prop where
  users : ∀ j, (sigAt m j).users = (sigAt m0 j).users
  value : ∀ j, (sigAt m j).value = (sigAt m0 j).value
  sorted : KeysSorted m
  keys_eq : keys m = keys m0
  queue : ∀ v ∈ q, v ∈ keys m0
  fresh : ∀ j, (∀ u, j ∉ (sigAt m0 u).users) → (sigAt m j).level = (sigAt m0 j).level

/-- The invariant of the relaxation loop on a graph ranked by `rk`: levels stay below
the rank, and every edge `u → v` is relaxed unless `u` is still queued or was not yet
reached. -/
structure LevelsInv (m0 : signal_map) (inputs : List Nat) (rk : Nat → Nat)
    (q : List Nat) (m : signal_map) : Prop where
  frame : LevelsFrame m0 q m
  bound : ∀ j, (sigAt m j).level ≤ rk j
  edge : ∀ u v, v ∈ (sigAt m0 u).users →
    u ∈ q ∨ (sigAt m u).level + 1 ≤ (sigAt m v).level ∨
      ((sigAt m u).level = 0 ∧ u ∉ inputs)

/-- The circuit is acyclic: its dependency graph has no directed cycle. -/
def Acyclic (gates : gate_map) : Prop := ¬ HasFeedback gates

/-- Every signal id of the circuit fits `signal_id`, a `uint32_t`. -/
def IdsInRange (gates : gate_map) : Prop :=
  ∀ gateData ∈ gates, gateData.1 < UINT32_SIZE ∧ ∀ id ∈ gateData.2.1, id < UINT32_SIZE

/-- A circuit with a diamond: `4` is reached from the primary input `1` directly and
through `3`. -/
def diamondGates : gate_map :=
  [(4, ([3, 1], GateType.XOR)), (3, ([1, 2], GateType.AND)), (5, ([4, 4], GateType.NOR))]

/-- An edge of the fan-out graph stored in a signal map: `b` is a user of `a`. -/
def UserEdge (signals : signal_map) (a b : Nat) : Prop := b ∈ (sigAt signals a).users

/-- The number of ids of `U` not yet marked visited. -/
def unvisited (U : List Nat) (visited : visited_map) : Nat :=
  U.countP (fun x => !visited x)

/-- What a traversal relies on: the fan-out lists are those of `m0` and every signal
on the current path is marked visited. -/
structure TravPre (m0 : signal_map) (st : TraversalState) : Prop where
  users : ∀ j, (sigAt st.signals j).users = (sigAt m0 j).users
  sub : ∀ x, st.visitedInCurrentTraversal x = true → st.visited x = true

/-- What a traversal keeps between the states `st` and `st1`: the fan-out lists, the
current path, the marks already set, and the whole signal map when it holds every id
of `U`. -/
structure TravFrame (m0 : signal_map) (U : List Nat) (st st1 : TraversalState) : Prop where
  users : ∀ j, (sigAt st1.signals j).users = (sigAt m0 j).users
  path : st1.visitedInCurrentTraversal = st.visitedInCurrentTraversal
  mono : ∀ x, st.visited x = true → st1.visited x = true
  sig : (∀ x ∈ U, x ∈ keys st.signals) → st1.signals = st.signals

/-- Every signal that is visited and off the current path starts no infinite chain of
users. -/
def Finished (m0 : signal_map) (st : TraversalState) : Prop :=
  ∀ x, st.visited x = true → st.visitedInCurrentTraversal x = false → Acc (IsUserOf m0) x

/-- The fan-out graph of a signal map has a directed cycle. -/
def HasUserCycle (m0 : signal_map) : Prop := ∃ y, Relation.TransGen (UserEdge m0) y y

/-- The contract of one call of the traversal with budget `n`, on ids of `U`. -/
def CallSpec (m0 : signal_map) (U : List Nat) (n : Nat)
    (call : Nat → TraversalState → Option (Bool × TraversalState)) : Prop :=
  ∀ cur st, cur ∈ U → TravPre m0 st → unvisited U st.visited < n →
    ∃ res st1, call cur st = some (res, st1) ∧ TravFrame m0 U st st1 ∧
      st1.visited cur = true ∧
      (res = false → st.visitedInCurrentTraversal cur = false) ∧
      ((∀ x, st.visitedInCurrentTraversal x = true → Relation.TransGen (UserEdge m0) x cur) →
        res = true → HasUserCycle m0) ∧
      (Finished m0 st → res = false → Finished m0 st1)

/-- The arities of the accepted grammar: NOT has one input, XOR two, the other kinds at
least two. -/
def validArity (gate : Gate) : Bool :=
  match gate.2 with
  | GateType.NOT => gate.1.length == 1
  | GateType.XOR => gate.1.length == 2
  | _ => decide (2 ≤ gate.1.length)

/-- An order fit for one evaluation pass: no id occurs twice, and no input of the gate
of an id is that id or occurs after it. -/
def EvalOrdered (gates : gate_map) : List Nat → Prop
  | [] => True
  | id :: rest =>
    (∀ gate, gateAt gates id = some gate → ∀ s ∈ gate.1, s ≠ id ∧ s ∉ rest) ∧
      id ∉ rest ∧ EvalOrdered gates rest

/-- The number a list of bits denotes, least significant bit first. -/
def lsbValue : List Bool → Nat
  | [] => 0
  | b :: rest => b.toNat + 2 * lsbValue rest

/-- The number a list of bits denotes, most significant bit first. -/
def binaryValue (bits : List Bool) : Nat := lsbValue bits.reverse

/-- The `k` low bits of `i`, least significant first. -/
def lowBits : Nat → Nat → List Bool
  | 0, _ => []
  | k + 1, i => decide (i % 2 = 1) :: lowBits k (i / 2)

/-- The `k`-bit binary representation of `i`, most significant bit first. -/
def toBits (k i : Nat) : List Bool := (lowBits k i).reverse

/-- The current values of a list of signals. -/
def valuesOf (signals : signal_map) (ids : List Nat) : List Bool :=
  ids.map (fun id => (sigAt signals id).value)

/-- The digit of a row that belongs to the signal `id`: a row lists the signals of the
map in ascending id order. -/
def rowDigit (signals : signal_map) (row : List Char) (id : Nat) : Option Char :=
  row[(keys signals).indexOf id]?

/-- The character `cout` writes for a boolean. -/
def digit (b : Bool) : Char := if b then '1' else '0'

/-- The circuit of the sample run: an AND, an XOR and a NOT over the primary inputs
`1` and `2`. -/
def sampleGates : gate_map :=
  [(3, ([1, 2], GateType.AND)), (4, ([3, 1], GateType.XOR)), (5, ([4], GateType.NOT))]

/-- Two AND gates that feed each other and share the primary input `3`. -/
def loopGates : gate_map :=
  [(1, ([2, 3], GateType.AND)), (2, ([1, 3], GateType.AND))]

/-- Every level above 0 was reached through an edge: the signal is a user of a signal
at most one level below. -/
def LevelsTight (m0 m : signal_map) : Prop :=
  ∀ v, (sigAt m v).level = 0 ∨
    ∃ u, v ∈ (sigAt m0 u).users ∧ (sigAt m v).level ≤ (sigAt m u).level + 1

/-- A path with `n` edges of the dependency graph leads from a primary input to a
signal. -/
inductive PathFromInput (gates : gate_map) : Nat → Nat → Prop
  | input (v : Nat) : gatesContains gates v = false → PathFromInput gates v 0
  | step (u v n : Nat) : GateEdge gates u v → PathFromInput gates u n →
      PathFromInput gates v (n + 1)

/-! ## The words of a gate line and the numbers they denote -/

/-- The line is the words `ws`, in order: each word is a non-empty run of non-space
characters, a run of spaces that may be empty stands before the first word and after
the last, and a non-empty run of spaces between two words. -/
inductive Words : List Char → List (List Char) → Prop
  | nil (sp : List Char) : (∀ c ∈ sp, isSpace c = true) → Words sp []
  | cons (sp w rest : List Char) (ws : List (List Char)) :
      (∀ c ∈ sp, isSpace c = true) → w ≠ [] → (∀ c ∈ w, isSpace c = false) →
      (rest = [] ∨ ∃ c r, rest = c :: r ∧ isSpace c = true) → Words rest ws →
      Words (sp ++ w ++ rest) (w :: ws)

/-- The number a word of decimal digits denotes, most significant digit first. -/
def wordValue (w : List Char) : Nat :=
  Nat.ofDigits 10 ((w.map (fun c => c.toNat - 48)).reverse)

/-! # Properties -/

/-! ## The signal map -/

theorem lookup_assign_self (m : signal_map) (k : Nat) (s : Signal) :
    lookup (assign m k s) k = some s := by
  induction m with
  | nil => simp [assign, lookup]
  | cons p rest ih =>
    obtain ⟨k0, s0⟩ := p
    unfold assign
    by_cases h1 : k < k0
    · simp [h1, lookup]
    · by_cases h2 : k = k0
      · simp [h2, lookup]
      · simp [h1, h2, lookup, ih]

theorem lookup_assign_ne (m : signal_map) (k j : Nat) (s : Signal) (h : j ≠ k) :
    lookup (assign m k s) j = lookup m j := by
  induction m with
  | nil => simp [assign, lookup, h]
  | cons p rest ih =>
    obtain ⟨k0, s0⟩ := p
    unfold assign
    by_cases h1 : k < k0
    · simp [h1, lookup, h]
    · by_cases h2 : k = k0
      · subst h2; simp [lookup, h]
      · simp [h1, h2, lookup, ih]

theorem sigAt_assign_self (m : signal_map) (k : Nat) (s : Signal) :
    sigAt (assign m k s) k = s := by
  simp [sigAt, lookup_assign_self]

theorem sigAt_assign_ne (m : signal_map) (k j : Nat) (s : Signal) (h : j ≠ k) :
    sigAt (assign m k s) j = sigAt m j := by
  simp [sigAt, lookup_assign_ne m k j s h]

theorem sigAt_touch (m : signal_map) (j i : Nat) : sigAt (touch m j) i = sigAt m i := by
  unfold touch
  by_cases hc : contains m j = true
  · simp [hc]
  · simp only [hc, Bool.false_eq_true, if_false]
    by_cases hij : i = j
    · subst hij
      have : lookup m i = none := by
        simpa [contains] using hc
      rw [sigAt_assign_self]; simp [sigAt, this]
    · simp [sigAt_assign_ne m j i _ hij]

theorem gateAND_fst_aux (ids : List Nat) (b : Bool) (m : signal_map) :
    (ids.foldl (fun st id => (st.1 && (sigAt st.2 id).value, touch st.2 id)) (b, m)).1
      = (b && ids.all (fun id => (sigAt m id).value)) := by
  induction ids generalizing b m with
  | nil => simp
  | cons i rest ih =>
    simp only [List.foldl_cons, ih, List.all_cons, sigAt_touch, Bool.and_assoc]

theorem gateOR_fst_aux (ids : List Nat) (b : Bool) (m : signal_map) :
    (ids.foldl (fun st id => (st.1 || (sigAt st.2 id).value, touch st.2 id)) (b, m)).1
      = (b || ids.any (fun id => (sigAt m id).value)) := by
  induction ids generalizing b m with
  | nil => simp
  | cons i rest ih =>
    simp only [List.foldl_cons, ih, List.any_cons, sigAt_touch, Bool.or_assoc]

theorem gateAND_fst (ids : List Nat) (m : signal_map) :
    (gateAND ids m).1 = ids.all (fun id => (sigAt m id).value) := by
  simp [gateAND, gateAND_fst_aux]

theorem gateOR_fst (ids : List Nat) (m : signal_map) :
    (gateOR ids m).1 = ids.any (fun id => (sigAt m id).value) := by
  simp [gateOR, gateOR_fst_aux]

/-- C7: `GateExecutor::evaluate` of an AND gate is the conjunction of the current
values of all listed inputs, and of an OR gate their disjunction, for every list of
input ids and every signal map. The current value of an id is the one `signals[id]`
holds, `false` for an id the map creates on that access. -/
theorem evaluate_and_or (inputIds : List Nat) (signals : signal_map) :
    (evaluate (inputIds, GateType.AND) signals).map Prod.fst
        = some (inputIds.all (fun id => (sigAt signals id).value)) ∧
    (evaluate (inputIds, GateType.OR) signals).map Prod.fst
        = some (inputIds.any (fun id => (sigAt signals id).value)) := by
  simp [evaluate, gateAND_fst, gateOR_fst]

/-- C8: `GateExecutor::evaluate` of a NAND gate is the negation of `evaluate` of an AND
gate with the same inputs on the same signal map, and NOR is the negation of OR. -/
theorem evaluate_nand_nor (inputIds : List Nat) (signals : signal_map) :
    (evaluate (inputIds, GateType.NAND) signals).map Prod.fst
        = (evaluate (inputIds, GateType.AND) signals).map (fun r => !r.1) ∧
    (evaluate (inputIds, GateType.NOR) signals).map Prod.fst
        = (evaluate (inputIds, GateType.OR) signals).map (fun r => !r.1) := by
  simp [evaluate, gateNAND, gateNOR]

/-- C9: on an input list with at least two ids `evaluate` of an XOR gate is the
exclusive-or of the current values of the first two listed inputs, whatever ids
follow them; on an input list with at least one id `evaluate` of a NOT gate is the
negation of the current value of the first listed input. -/
theorem evaluate_xor_not (i0 i1 : Nat) (rest : List Nat) (signals : signal_map) :
    (evaluate (i0 :: i1 :: rest, GateType.XOR) signals).map Prod.fst
        = some (xor (sigAt signals i0).value (sigAt signals i1).value) ∧
    (evaluate (i0 :: rest, GateType.NOT) signals).map Prod.fst
        = some (!(sigAt signals i0).value) := by
  simp [evaluate, gateXOR, gateNOT, sigAt_touch]
  cases (sigAt signals i0).value <;> cases (sigAt signals i1).value <;> rfl

/-- C6: for every non-empty signal map and an empty primary-input set
`CycleFinder::hasCircuitCycle` returns true, whatever the fan-out lists are. -/
theorem hasCircuitCycle_no_inputs (fuel : Nat) (signals : signal_map) (h : signals ≠ []) :
    hasCircuitCycle fuel [] signals = some (true, signals) := by
  cases signals with
  | nil => exact absurd rfl h
  | cons p rest => simp [hasCircuitCycle]

/-- C6 at a map with one signal. -/
theorem hasCircuitCycle_no_inputs_witness :
    hasCircuitCycle 0 [] [(1, getNewSignal)] = some (true, [(1, getNewSignal)]) :=
  hasCircuitCycle_no_inputs 0 [(1, getNewSignal)] (by simp)

/-- C4, the code at the failing input: the gates `NOT 1 2`, `NOT 2 1`, `NOT 3 4` have
the feedback path `1 → 2 → 1`, their only primary input is `4`, and
`CycleFinder::hasCircuitCycle` returns false on them with any fuel from 3 on. -/
theorem feedback_missed :
    HasFeedback feedbackGates ∧
    getInputIds (buildSignals feedbackGates) feedbackGates = [4] ∧
    ∀ fuel,
      (hasCircuitCycle (fuel + 3) (getInputIds (buildSignals feedbackGates) feedbackGates)
        (buildSignals feedbackGates)).map Prod.fst = some false := by
  refine ⟨⟨1, ?_⟩, by decide, ?_⟩
  · refine Relation.TransGen.tail (b := 2) (Relation.TransGen.single ?_) ?_
    · exact ⟨([1], GateType.NOT), by simp [feedbackGates], by simp⟩
    · exact ⟨([2], GateType.NOT), by simp [feedbackGates], by simp⟩
  · intro fuel
    have h1 : getInputIds (buildSignals feedbackGates) feedbackGates = [4] := by decide
    have h2 : buildSignals feedbackGates =
        [(1, ⟨[2], false, 0⟩), (2, ⟨[1], false, 0⟩), (3, ⟨[], false, 0⟩),
          (4, ⟨[3], false, 0⟩)] := by decide
    rw [h1, h2]
    simp [hasCircuitCycle, orAll, existsCycle, getVisitedMap, sigAt, lookup, touch, contains,
      Function.update]

theorem lookup_isSome_iff_mem_keys (m : signal_map) (id : Nat) :
    (lookup m id).isSome = true ↔ id ∈ keys m := by
  induction m with
  | nil => simp [lookup, keys]
  | cons p rest ih =>
    obtain ⟨k, s⟩ := p
    by_cases h : id = k
    · simp [lookup, keys, h]
    · simp only [lookup, h, if_false, ih]
      simp [keys, h]

theorem contains_iff_mem_keys (m : signal_map) (id : Nat) :
    contains m id = true ↔ id ∈ keys m := lookup_isSome_iff_mem_keys m id

theorem lookup_eq_none_iff (m : signal_map) (id : Nat) :
    lookup m id = none ↔ id ∉ keys m := by
  rw [← lookup_isSome_iff_mem_keys]
  cases lookup m id <;> simp

theorem mem_of_lookup_eq_some (m : signal_map) (id : Nat) (s : Signal)
    (h : lookup m id = some s) : (id, s) ∈ m := by
  induction m with
  | nil => simp [lookup] at h
  | cons p rest ih =>
    obtain ⟨k, s0⟩ := p
    by_cases hk : id = k
    · subst hk
      simp [lookup] at h
      simp [h]
    · simp only [lookup, hk, if_false] at h
      exact List.mem_cons_of_mem _ (ih h)

theorem lookup_eq_some_of_mem (m : signal_map) (hs : KeysSorted m) (id : Nat) (s : Signal)
    (h : (id, s) ∈ m) : lookup m id = some s := by
  induction m with
  | nil => simp at h
  | cons p rest ih =>
    obtain ⟨k, s0⟩ := p
    have hs' : (∀ a ∈ keys rest, k < a) ∧ KeysSorted rest := by
      simpa [KeysSorted, keys] using hs
    rcases List.mem_cons.1 h with heq | hmem
    · cases heq
      simp [lookup]
    · have hk : id ∈ keys rest := List.mem_map.2 ⟨(id, s), hmem, rfl⟩
      have hlt := hs'.1 id hk
      have hne : id ≠ k := by omega
      simp only [lookup, hne, if_false]
      exact ih hs'.2 hmem

theorem mem_keys_assign (m : signal_map) (k j : Nat) (s : Signal) :
    j ∈ keys (assign m k s) ↔ j = k ∨ j ∈ keys m := by
  rw [← lookup_isSome_iff_mem_keys, ← lookup_isSome_iff_mem_keys]
  by_cases h : j = k
  · subst h
    simp [lookup_assign_self]
  · simp [lookup_assign_ne m k j s h, h]

theorem keysSorted_assign (m : signal_map) (hs : KeysSorted m) (k : Nat) (s : Signal) :
    KeysSorted (assign m k s) := by
  induction m with
  | nil => simp [assign, KeysSorted, keys]
  | cons p rest ih =>
    obtain ⟨k0, s0⟩ := p
    have hs' : (∀ a ∈ keys rest, k0 < a) ∧ KeysSorted rest := by
      simpa [KeysSorted, keys] using hs
    unfold assign
    by_cases h1 : k < k0
    · simp only [h1, if_true]
      have : KeysSorted ((k0, s0) :: rest) := hs
      simp only [KeysSorted, keys, List.map_cons, List.pairwise_cons] at this ⊢
      refine ⟨?_, this⟩
      intro a ha
      rcases List.mem_cons.1 ha with rfl | ha
      · exact h1
      · exact lt_trans h1 (this.1 a ha)
    · by_cases h2 : k = k0
      · subst h2
        simpa [KeysSorted, keys] using hs
      · simp only [h1, h2, if_false]
        have ih' := ih hs'.2
        simp only [KeysSorted, keys, List.map_cons, List.pairwise_cons]
        refine ⟨?_, ih'⟩
        intro a ha
        have ha' : a ∈ keys (assign rest k s) := ha
        rcases (mem_keys_assign rest k a s).1 ha' with rfl | ha''
        · omega
        · exact hs'.1 a ha''

theorem keys_assign_of_mem (m : signal_map) (hs : KeysSorted m) (k : Nat) (s : Signal)
    (hk : k ∈ keys m) : keys (assign m k s) = keys m := by
  induction m with
  | nil => simp [keys] at hk
  | cons p rest ih =>
    obtain ⟨k0, s0⟩ := p
    have hs' : (∀ a ∈ keys rest, k0 < a) ∧ KeysSorted rest := by
      simpa [KeysSorted, keys] using hs
    have hk' : k = k0 ∨ k ∈ keys rest := by simpa [keys] using hk
    unfold assign
    by_cases h2 : k = k0
    · subst h2
      simp [keys]
    · have hkr : k ∈ keys rest := hk'.resolve_left h2
      have hlt := hs'.1 k hkr
      have h1 : ¬ k < k0 := by omega
      simp only [h1, h2, if_false]
      have := ih hs'.2 hkr
      simp only [keys, List.map_cons] at this ⊢
      rw [this]

theorem touch_of_mem (m : signal_map) (id : Nat) (h : id ∈ keys m) : touch m id = m := by
  simp [touch, (contains_iff_mem_keys m id).2 h]

theorem mem_keys_touch (m : signal_map) (id j : Nat) :
    j ∈ keys (touch m id) ↔ j = id ∨ j ∈ keys m := by
  unfold touch
  by_cases h : contains m id = true
  · simp only [h, if_true]
    constructor
    · exact Or.inr
    · rintro (rfl | h')
      · exact (contains_iff_mem_keys m j).1 h
      · exact h'
  · simp only [h, Bool.false_eq_true, if_false]
    exact mem_keys_assign m id j _

theorem keysSorted_touch (m : signal_map) (hs : KeysSorted m) (id : Nat) :
    KeysSorted (touch m id) := by
  unfold touch
  by_cases h : contains m id = true
  · simpa [h] using hs
  · simpa [h] using keysSorted_assign m hs id _

/-! ## Graph construction -/

theorem mem_keys_addSignal (m : signal_map) (id j : Nat) :
    j ∈ keys (addSignal m id) ↔ j = id ∨ j ∈ keys m := mem_keys_touch m id j

theorem foldl_addSignal (ins : List Nat) (m : signal_map) (hs : KeysSorted m) :
    KeysSorted (ins.foldl addSignal m) ∧
    (∀ id, sigAt (ins.foldl addSignal m) id = sigAt m id) ∧
    (∀ id, id ∈ keys (ins.foldl addSignal m) ↔ id ∈ keys m ∨ id ∈ ins) := by
  induction ins generalizing m with
  | nil => simp [hs]
  | cons i rest ih =>
    have h1 : KeysSorted (addSignal m i) := keysSorted_touch m hs i
    obtain ⟨a, b, c⟩ := ih (addSignal m i) h1
    refine ⟨a, ?_, ?_⟩
    · intro id
      rw [List.foldl_cons, b id]
      exact sigAt_touch m i id
    · intro id
      rw [List.foldl_cons, c id, mem_keys_addSignal]
      simp only [List.mem_cons]
      tauto

theorem addAllSignals_spec (gates : gate_map) (m : signal_map) (hs : KeysSorted m) :
    KeysSorted (addAllSignals m gates) ∧
    (∀ id, sigAt (addAllSignals m gates) id = sigAt m id) ∧
    (∀ id, id ∈ keys (addAllSignals m gates) ↔
      id ∈ keys m ∨ ∃ gateData ∈ gates, id = gateData.1 ∨ id ∈ gateData.2.1) := by
  induction gates generalizing m with
  | nil => simp [addAllSignals, hs]
  | cons g rest ih =>
    have h1 : KeysSorted (addSignal m g.1) := keysSorted_touch m hs g.1
    obtain ⟨a1, b1, c1⟩ := foldl_addSignal g.2.1 (addSignal m g.1) h1
    obtain ⟨a, b, c⟩ := ih (g.2.1.foldl addSignal (addSignal m g.1)) a1
    simp only [addAllSignals, List.foldl_cons] at a b c ⊢
    refine ⟨a, ?_, ?_⟩
    · intro id
      rw [b id, b1 id]
      exact sigAt_touch m g.1 id
    · intro id
      rw [c id, c1 id, mem_keys_addSignal]
      constructor
      · rintro (((h | h) | h) | ⟨gd, hgd, h⟩)
        · exact Or.inr ⟨g, List.mem_cons_self _ _, Or.inl h⟩
        · exact Or.inl h
        · exact Or.inr ⟨g, List.mem_cons_self _ _, Or.inr h⟩
        · exact Or.inr ⟨gd, List.mem_cons_of_mem _ hgd, h⟩
      · rintro (h | ⟨gd, hgd, h⟩)
        · exact Or.inl (Or.inl (Or.inr h))
        · rcases List.mem_cons.1 hgd with rfl | hgd
          · rcases h with h | h
            · exact Or.inl (Or.inl (Or.inl h))
            · exact Or.inl (Or.inr h)
          · exact Or.inr ⟨gd, hgd, h⟩

theorem sigAt_addUser (o : Nat) (m : signal_map) (id j : Nat) :
    sigAt (addUser o m id) j =
      if j = id then { sigAt m id with users := (sigAt m id).users ++ [o] } else sigAt m j := by
  unfold addUser
  by_cases h : j = id
  · subst h
    simp [sigAt_assign_self]
  · simp [h, sigAt_assign_ne m id j _ h]

theorem foldl_addUser (o : Nat) (ins : List Nat) (m : signal_map) (hs : KeysSorted m) :
    KeysSorted (ins.foldl (addUser o) m) ∧
    (∀ j, sigAt (ins.foldl (addUser o) m) j =
      { sigAt m j with users := (sigAt m j).users ++ List.replicate (ins.count j) o }) ∧
    (∀ id, id ∈ keys (ins.foldl (addUser o) m) ↔ id ∈ keys m ∨ id ∈ ins) := by
  induction ins generalizing m with
  | nil => simp [hs]
  | cons i rest ih =>
    have h1 : KeysSorted (addUser o m i) := keysSorted_assign m hs i _
    obtain ⟨a, b, c⟩ := ih (addUser o m i) h1
    refine ⟨a, ?_, ?_⟩
    · intro j
      rw [List.foldl_cons, b j, sigAt_addUser]
      by_cases h : j = i
      · subst h
        simp [List.replicate_succ]
      · have h' : ¬ (i == j) = true := by simpa using fun e => h e.symm
        simp [h, List.count_cons, h']
    · intro id
      rw [List.foldl_cons, c id]
      have := mem_keys_assign m i id
        { sigAt m i with users := (sigAt m i).users ++ [o] }
      simp only [addUser]
      rw [this]
      simp only [List.mem_cons]
      tauto

theorem setAllSignalsUsers_spec (gates : gate_map) (m : signal_map) (hs : KeysSorted m) :
    KeysSorted (setAllSignalsUsers m gates) ∧
    (∀ j, sigAt (setAllSignalsUsers m gates) j =
      { sigAt m j with users := (sigAt m j).users ++ fanOut gates j }) ∧
    (∀ id, id ∈ keys (setAllSignalsUsers m gates) ↔
      id ∈ keys m ∨ ∃ gateData ∈ gates, id ∈ gateData.2.1) := by
  induction gates generalizing m with
  | nil => simp [setAllSignalsUsers, hs, fanOut]
  | cons g rest ih =>
    obtain ⟨a1, b1, c1⟩ := foldl_addUser g.1 g.2.1 m hs
    obtain ⟨a, b, c⟩ := ih (g.2.1.foldl (addUser g.1) m) a1
    simp only [setAllSignalsUsers, List.foldl_cons] at a b c ⊢
    refine ⟨a, ?_, ?_⟩
    · intro j
      rw [b j, b1 j]
      simp [fanOut, List.append_assoc]
    · intro id
      rw [c id, c1 id]
      constructor
      · rintro ((h | h) | ⟨gd, hgd, h⟩)
        · exact Or.inl h
        · exact Or.inr ⟨g, List.mem_cons_self _ _, h⟩
        · exact Or.inr ⟨gd, List.mem_cons_of_mem _ hgd, h⟩
      · rintro (h | ⟨gd, hgd, h⟩)
        · exact Or.inl (Or.inl h)
        · rcases List.mem_cons.1 hgd with rfl | hgd
          · exact Or.inl (Or.inr h)
          · exact Or.inr ⟨gd, hgd, h⟩

theorem mem_fanOut (gates : gate_map) (s o : Nat) :
    o ∈ fanOut gates s ↔ GateEdge gates s o := by
  induction gates with
  | nil => simp [fanOut, GateEdge]
  | cons g rest ih =>
    simp only [fanOut, List.mem_append, ih, GateEdge, List.mem_cons]
    constructor
    · rintro (h | ⟨gate, hm, hin⟩)
      · rw [List.mem_replicate] at h
        refine ⟨g.2, Or.inl ?_, ?_⟩
        · rw [h.2]
        · exact List.count_pos_iff.1 (Nat.pos_of_ne_zero h.1)
      · exact ⟨gate, Or.inr hm, hin⟩
    · rintro ⟨gate, hm | hm, hin⟩
      · left
        rw [List.mem_replicate]
        have : g = (o, gate) := hm.symm
        subst this
        exact ⟨Nat.pos_iff_ne_zero.1 (List.count_pos_iff.2 hin), rfl⟩
      · exact Or.inr ⟨gate, hm, hin⟩

theorem keysSorted_buildSignals (gates : gate_map) : KeysSorted (buildSignals gates) :=
  (setAllSignalsUsers_spec gates _
    (addAllSignals_spec gates [] (by simp [KeysSorted, keys])).1).1

theorem sigAt_buildSignals (gates : gate_map) (id : Nat) :
    sigAt (buildSignals gates) id = ⟨fanOut gates id, false, 0⟩ := by
  have h1 := addAllSignals_spec gates [] (by simp [KeysSorted, keys])
  have h2 := setAllSignalsUsers_spec gates _ h1.1
  unfold buildSignals
  rw [h2.2.1 id, h1.2.1 id]
  simp [sigAt, lookup, getNewSignal]

theorem mem_keys_buildSignals (gates : gate_map) (id : Nat) :
    id ∈ keys (buildSignals gates) ↔
      ∃ gateData ∈ gates, id = gateData.1 ∨ id ∈ gateData.2.1 := by
  have h1 := addAllSignals_spec gates [] (by simp [KeysSorted, keys])
  have h2 := setAllSignalsUsers_spec gates _ h1.1
  unfold buildSignals
  rw [h2.2.2 id, h1.2.2 id]
  simp only [keys, List.map_nil, List.not_mem_nil, false_or]
  constructor
  · rintro (h | ⟨g, hg, hi⟩)
    · exact h
    · exact ⟨g, hg, Or.inr hi⟩
  · exact Or.inl

/-! ## Evaluation levels: the relaxation loop -/

theorem sigAt_setEvaluationLevel (id L : Nat) (m : signal_map) (j : Nat) :
    sigAt (setEvaluationLevel id L m) j =
      if j = id then { sigAt m id with level := max (sigAt m id).level L } else sigAt m j := by
  unfold setEvaluationLevel
  by_cases h : j = id
  · subst h
    simp [sigAt_assign_self]
  · simp [h, sigAt_assign_ne m id j _ h]

theorem sigAt_relaxUsers (us : List Nat) (cl : Nat) (m : signal_map) (j : Nat) :
    sigAt (relaxUsers us cl m) j =
      { sigAt m j with
        level := if j ∈ us then max (sigAt m j).level ((cl + 1) % UINT32_SIZE)
                 else (sigAt m j).level } := by
  unfold relaxUsers
  induction us generalizing m with
  | nil => simp
  | cons i rest ih =>
    rw [List.foldl_cons, ih, sigAt_setEvaluationLevel]
    by_cases h : j = i
    · subst h
      by_cases hr : j ∈ rest
      · simp [hr, max_assoc]
      · simp [hr]
    · by_cases hr : j ∈ rest
      · simp [h, hr]
      · simp [h, hr]

theorem keys_relaxUsers (us : List Nat) (cl : Nat) (m : signal_map) (hs : KeysSorted m)
    (hus : ∀ u ∈ us, u ∈ keys m) :
    KeysSorted (relaxUsers us cl m) ∧ keys (relaxUsers us cl m) = keys m := by
  unfold relaxUsers
  induction us generalizing m with
  | nil => simp [hs]
  | cons i rest ih =>
    have hi : i ∈ keys m := hus i (List.mem_cons_self _ _)
    have hk : keys (setEvaluationLevel i ((cl + 1) % UINT32_SIZE) m) = keys m :=
      keys_assign_of_mem m hs i _ hi
    have hs1 : KeysSorted (setEvaluationLevel i ((cl + 1) % UINT32_SIZE) m) :=
      keysSorted_assign m hs i _
    have := ih (setEvaluationLevel i ((cl + 1) % UINT32_SIZE) m) hs1
      (fun u hu => by rw [hk]; exact hus u (List.mem_cons_of_mem _ hu))
    rw [List.foldl_cons]
    exact ⟨this.1, by rw [this.2, hk]⟩

theorem levelsLoop_succ (fuel : Nat) (q : List Nat) (m m1 : signal_map)
    (h : levelsLoop fuel q m = some m1) : levelsLoop (fuel + 1) q m = some m1 := by
  induction fuel generalizing q m with
  | zero =>
    cases q with
    | nil => simpa [levelsLoop] using h
    | cons v q => simp [levelsLoop] at h
  | succ n ih =>
    cases q with
    | nil => simpa [levelsLoop] using h
    | cons v q =>
      simp only [levelsLoop] at h ⊢
      exact ih _ _ h

theorem levelsLoop_mono (fuel fuel1 : Nat) (hle : fuel ≤ fuel1) (q : List Nat)
    (m m1 : signal_map) (h : levelsLoop fuel q m = some m1) :
    levelsLoop fuel1 q m = some m1 := by
  induction hle with
  | refl => exact h
  | step _ ih => exact levelsLoop_succ _ _ _ _ ih

theorem not_rel_self_of_acc {α : Type} (r : α → α → Prop) (a : α) (h : Acc r a) : ¬ r a a := by
  induction h with
  | intro x _ ih => exact fun hx => ih x hx hx

theorem acc_isUserOfAcc (m0 : signal_map) (a : Nat) (h : Acc (IsUserOf m0) a) :
    Acc (IsUserOfAcc m0) a :=
  Subrelation.accessible (fun {_ _} hxy => hxy.1) h

theorem isIrrefl_isUserOfAcc (m0 : signal_map) : IsIrrefl Nat (IsUserOfAcc m0) :=
  ⟨fun a h => not_rel_self_of_acc _ a h.2 h.1⟩

/-- The loop runs to an empty queue from every state that satisfies an invariant
which keeps the fan-out lists and only queues accessible signals. -/
theorem levelsLoop_invariant (m0 : signal_map) (P : List Nat → signal_map → Prop)
    (hacc : ∀ q m, P q m → ∀ v ∈ q, Acc (IsUserOf m0) v)
    (husers : ∀ q m, P q m → ∀ j, (sigAt m j).users = (sigAt m0 j).users)
    (hstep : ∀ v q m, P (v :: q) m →
      P (q ++ (sigAt m v).users)
        (relaxUsers (sigAt m v).users (sigAt m v).level (touch m v)))
    (q : List Nat) (m : signal_map) (h : P q m) :
    ∃ fuel m1, levelsLoop fuel q m = some m1 ∧ P [] m1 := by
  haveI := isIrrefl_isUserOfAcc m0
  have hA : Acc (Relation.CutExpand (IsUserOfAcc m0)) (q : Multiset Nat) := by
    apply Relation.acc_of_singleton
    intro a ha
    exact (acc_isUserOfAcc m0 a (hacc q m h a (by simpa using ha))).cutExpand
  generalize hs : (q : Multiset Nat) = s at hA
  induction hA generalizing q m with
  | intro s _ ih =>
    cases q with
    | nil => exact ⟨0, m, by simp [levelsLoop], h⟩
    | cons v q =>
      have hP := hstep v q m h
      have hcut : Relation.CutExpand (IsUserOfAcc m0)
          ((q ++ (sigAt m v).users : List Nat) : Multiset Nat) s := by
        refine ⟨((sigAt m v).users : Multiset Nat), v, ?_, ?_⟩
        · intro a ha
          refine ⟨?_, hacc _ _ h v (List.mem_cons_self _ _)⟩
          have : a ∈ (sigAt m v).users := by simpa using ha
          rw [husers _ _ h v] at this
          exact this
        · rw [← hs]
          simp only [← Multiset.coe_add, ← Multiset.cons_coe]
          rw [Multiset.cons_add, ← Multiset.singleton_add, add_comm]
      obtain ⟨fuel, m1, h1, h2⟩ := ih _ hcut _ _ hP rfl
      exact ⟨fuel + 1, m1, by simpa [levelsLoop] using h1, h2⟩

theorem levelsFrame_step (m0 : signal_map)
    (hclosed : ∀ u, ∀ v ∈ (sigAt m0 u).users, v ∈ keys m0)
    (v : Nat) (q : List Nat) (m : signal_map) (h : LevelsFrame m0 (v :: q) m) :
    LevelsFrame m0 (q ++ (sigAt m v).users)
      (relaxUsers (sigAt m v).users (sigAt m v).level (touch m v)) := by
  have hv : v ∈ keys m := by
    rw [h.keys_eq]; exact h.queue v (List.mem_cons_self _ _)
  have ht : touch m v = m := touch_of_mem m v hv
  have hus : ∀ u ∈ (sigAt m v).users, u ∈ keys m := by
    intro u hu
    rw [h.users v] at hu
    rw [h.keys_eq]
    exact hclosed v u hu
  have hk := keys_relaxUsers (sigAt m v).users (sigAt m v).level m h.sorted hus
  rw [ht]
  refine ⟨?_, ?_, hk.1, by rw [hk.2, h.keys_eq], ?_, ?_⟩
  · intro j
    rw [sigAt_relaxUsers]
    exact h.users j
  · intro j
    rw [sigAt_relaxUsers]
    exact h.value j
  · intro w hw
    rcases List.mem_append.1 hw with hw | hw
    · exact h.queue w (List.mem_cons_of_mem _ hw)
    · rw [h.users v] at hw
      exact hclosed v w hw
  · intro j hj
    rw [sigAt_relaxUsers]
    have : j ∉ (sigAt m v).users := by
      rw [h.users v]; exact hj v
    simp only [this, if_false]
    exact h.fresh j hj

theorem levelsInv_step (m0 : signal_map) (inputs : List Nat) (rk : Nat → Nat)
    (hclosed : ∀ u, ∀ v ∈ (sigAt m0 u).users, v ∈ keys m0)
    (hrk : ∀ u v, v ∈ (sigAt m0 u).users → rk u < rk v)
    (hN : ∀ j, rk j < UINT32_SIZE)
    (v : Nat) (q : List Nat) (m : signal_map) (h : LevelsInv m0 inputs rk (v :: q) m) :
    LevelsInv m0 inputs rk (q ++ (sigAt m v).users)
      (relaxUsers (sigAt m v).users (sigAt m v).level (touch m v)) := by
  have hf := levelsFrame_step m0 hclosed v q m h.frame
  have hv : v ∈ keys m := by
    rw [h.frame.keys_eq]; exact h.frame.queue v (List.mem_cons_self _ _)
  have ht : touch m v = m := touch_of_mem m v hv
  rw [ht] at hf ⊢
  have hmod : ∀ j ∈ (sigAt m v).users,
      ((sigAt m v).level + 1) % UINT32_SIZE = (sigAt m v).level + 1 ∧
      (sigAt m v).level + 1 ≤ rk j := by
    intro j hj
    rw [h.frame.users v] at hj
    have h1 := hrk v j hj
    have h2 := h.bound v
    have h3 := hN j
    exact ⟨Nat.mod_eq_of_lt (by omega), by omega⟩
  have hlev : ∀ j, (sigAt (relaxUsers (sigAt m v).users (sigAt m v).level m) j).level =
      if j ∈ (sigAt m v).users then max (sigAt m j).level ((sigAt m v).level + 1)
      else (sigAt m j).level := by
    intro j
    rw [sigAt_relaxUsers]
    by_cases hj : j ∈ (sigAt m v).users
    · simp only [hj, if_true, (hmod j hj).1]
    · simp only [hj, if_false]
  have hmono : ∀ j, (sigAt m j).level ≤
      (sigAt (relaxUsers (sigAt m v).users (sigAt m v).level m) j).level := by
    intro j
    rw [hlev]
    split
    · exact le_max_left _ _
    · exact le_refl _
  refine ⟨hf, ?_, ?_⟩
  · intro j
    rw [hlev]
    split
    · rename_i hj
      exact max_le (h.bound j) (hmod j hj).2
    · exact h.bound j
  · intro u w huw
    by_cases hu : u ∈ (sigAt m v).users
    · exact Or.inl (List.mem_append_right _ hu)
    · have hulev : (sigAt (relaxUsers (sigAt m v).users (sigAt m v).level m) u).level =
          (sigAt m u).level := by
        rw [hlev]; simp only [hu, if_false]
      rw [hulev]
      rcases h.edge u w huw with hq | hle | hz
      · rcases List.mem_cons.1 hq with rfl | hq
        · right; left
          have hw : w ∈ (sigAt m u).users := by
            rw [h.frame.users u]; exact huw
          rw [hlev]
          simp only [hw, if_true]
          exact le_max_right _ _
        · exact Or.inl (List.mem_append_left _ hq)
      · right; left
        exact le_trans hle (hmono w)
      · exact Or.inr (Or.inr hz)

/-- On a ranked graph the relaxation loop runs to an empty queue and keeps its
invariant. -/
theorem levelsLoop_ranked (m0 : signal_map) (inputs : List Nat) (rk : Nat → Nat)
    (hclosed : ∀ u, ∀ v ∈ (sigAt m0 u).users, v ∈ keys m0)
    (hrk : ∀ u v, v ∈ (sigAt m0 u).users → rk u < rk v)
    (hN : ∀ j, rk j < UINT32_SIZE)
    (q : List Nat) (m : signal_map) (h : LevelsInv m0 inputs rk q m) :
    ∃ fuel m1, levelsLoop fuel q m = some m1 ∧ LevelsInv m0 inputs rk [] m1 := by
  have hacc : ∀ v, Acc (IsUserOf m0) v := by
    have hwf : WellFounded (fun c b : Nat => UINT32_SIZE - rk c < UINT32_SIZE - rk b) :=
      (measure (fun c => UINT32_SIZE - rk c)).wf
    intro v
    refine Subrelation.accessible ?_ (hwf.apply v)
    intro c b hcb
    have h1 := hrk b c hcb
    have h2 := hN c
    show UINT32_SIZE - rk c < UINT32_SIZE - rk b
    omega
  exact levelsLoop_invariant m0 (LevelsInv m0 inputs rk)
    (fun _ _ _ v _ => hacc v) (fun _ _ hP => hP.frame.users)
    (levelsInv_step m0 inputs rk hclosed hrk hN) q m h

/-! ## Acyclic circuits are ranked -/

theorem gatesContains_iff (gates : gate_map) (id : Nat) :
    gatesContains gates id = true ↔ ∃ gate, (id, gate) ∈ gates := by
  unfold gatesContains
  induction gates with
  | nil => simp [gateAt]
  | cons p rest ih =>
    obtain ⟨k, g⟩ := p
    by_cases h : id = k
    · subst h
      simp [gateAt]
    · simp only [gateAt, h, if_false, ih, List.mem_cons, Prod.mk.injEq, false_and, false_or]

theorem isUserOf_buildSignals (gates : gate_map) (c b : Nat) :
    c ∈ (sigAt (buildSignals gates) b).users ↔ GateEdge gates b c := by
  rw [sigAt_buildSignals]
  exact mem_fanOut gates b c

theorem gateEdge_mem_keys (gates : gate_map) (s o : Nat) (h : GateEdge gates s o) :
    s ∈ keys (buildSignals gates) ∧ o ∈ keys (buildSignals gates) ∧
      gatesContains gates o = true := by
  obtain ⟨g, hg, hs⟩ := h
  refine ⟨?_, ?_, ?_⟩
  · exact (mem_keys_buildSignals gates s).2 ⟨(o, g), hg, Or.inr hs⟩
  · exact (mem_keys_buildSignals gates o).2 ⟨(o, g), hg, Or.inl rfl⟩
  · exact (gatesContains_iff gates o).2 ⟨g, hg⟩

theorem mem_getInputIds (signals : signal_map) (gates : gate_map) (id : Nat) :
    id ∈ getInputIds signals gates ↔ id ∈ keys signals ∧ gatesContains gates id = false := by
  simp [getInputIds]

theorem keys_buildSignals_lt (gates : gate_map) (hr : IdsInRange gates) (id : Nat)
    (h : id ∈ keys (buildSignals gates)) : id < UINT32_SIZE := by
  obtain ⟨gd, hgd, h1 | h1⟩ := (mem_keys_buildSignals gates id).1 h
  · rw [h1]; exact (hr gd hgd).1
  · exact (hr gd hgd).2 id h1

/-- An acyclic circuit has a rank that grows along every edge, and that fits `uint32_t`
when the ids do. -/
theorem exists_rank (gates : gate_map) (hac : Acyclic gates) :
    ∃ rk : Nat → Nat, (∀ s o, GateEdge gates s o → rk s < rk o) ∧
      (IdsInRange gates → ∀ j, rk j < UINT32_SIZE) := by
  classical
  let nodes : Finset Nat := (keys (buildSignals gates)).toFinset
  let anc : Nat → Finset Nat :=
    fun v => nodes.filter (fun u => Relation.TransGen (GateEdge gates) u v)
  have hnot : ∀ v, v ∉ anc v := by
    intro v hv
    exact hac ⟨v, (Finset.mem_filter.1 hv).2⟩
  have hcard : IdsInRange gates → nodes.card ≤ UINT32_SIZE := by
    intro hr
    have hsub : nodes ⊆ Finset.range UINT32_SIZE := by
      intro x hx
      exact Finset.mem_range.2 (keys_buildSignals_lt gates hr x (List.mem_toFinset.1 hx))
    simpa using Finset.card_le_card hsub
  refine ⟨fun v => (anc v).card, ?_, ?_⟩
  · intro s o hso
    apply Finset.card_lt_card
    refine ⟨?_, ?_⟩
    · intro u hu
      have := Finset.mem_filter.1 hu
      exact Finset.mem_filter.2 ⟨this.1, Relation.TransGen.tail this.2 hso⟩
    · intro hsub
      have hs : s ∈ anc o :=
        Finset.mem_filter.2 ⟨List.mem_toFinset.2 (gateEdge_mem_keys gates s o hso).1,
          Relation.TransGen.single hso⟩
      exact hnot s (hsub hs)
  · intro hr j
    have hcard := hcard hr
    by_cases hj : j ∈ nodes
    · have : anc j ⊂ nodes := by
        refine ⟨Finset.filter_subset _ _, fun hsub => hnot j (hsub hj)⟩
      have := Finset.card_lt_card this
      show (anc j).card < UINT32_SIZE
      omega
    · have : anc j = ∅ := by
        apply Finset.eq_empty_of_forall_not_mem
        intro u hu
        obtain ⟨b, _, hbj⟩ := Relation.TransGen.tail'_iff.1 (Finset.mem_filter.1 hu).2
        exact hj (List.mem_toFinset.2 (gateEdge_mem_keys gates b j hbj).2.1)
      show (anc j).card < UINT32_SIZE
      rw [this]
      simp [UINT32_SIZE]

/-- On an acyclic circuit in which every gate has an input, `setEvaluationLevels`
returns, and in the signal map it leaves every gate output lies strictly above each
of its inputs while every primary input is at level 0. -/
theorem setEvaluationLevels_acyclic (gates : gate_map) (hac : Acyclic gates)
    (hin : ∀ gateData ∈ gates, gateData.2.1 ≠ []) (hr : IdsInRange gates) :
    ∃ fuel m1,
      setEvaluationLevels fuel (buildSignals gates)
        (getInputIds (buildSignals gates) gates) = some m1 ∧
      LevelsFrame (buildSignals gates) [] m1 ∧
      (∀ s o, GateEdge gates s o → (sigAt m1 s).level < (sigAt m1 o).level) ∧
      (∀ j, gatesContains gates j = false → (sigAt m1 j).level = 0) := by
  obtain ⟨rk, hrk, hN⟩ := exists_rank gates hac
  have hN := hN hr
  have hclosed : ∀ u, ∀ v ∈ (sigAt (buildSignals gates) u).users,
      v ∈ keys (buildSignals gates) := by
    intro u v hv
    exact (gateEdge_mem_keys gates u v ((isUserOf_buildSignals gates v u).1 hv)).2.1
  have hrk' : ∀ u v, v ∈ (sigAt (buildSignals gates) u).users → rk u < rk v :=
    fun u v hv => hrk u v ((isUserOf_buildSignals gates v u).1 hv)
  have hinit : LevelsInv (buildSignals gates) (getInputIds (buildSignals gates) gates) rk
      (getInputIds (buildSignals gates) gates) (buildSignals gates) := by
    refine ⟨⟨fun _ => rfl, fun _ => rfl, keysSorted_buildSignals gates, rfl, ?_,
      fun _ _ => rfl⟩, ?_, ?_⟩
    · intro v hv
      exact ((mem_getInputIds _ _ v).1 hv).1
    · intro j
      rw [sigAt_buildSignals]
      exact Nat.zero_le _
    · intro u v _
      by_cases hu : u ∈ getInputIds (buildSignals gates) gates
      · exact Or.inl hu
      · refine Or.inr (Or.inr ⟨?_, hu⟩)
        rw [sigAt_buildSignals]
  obtain ⟨fuel, m1, hrun, hfin⟩ :=
    levelsLoop_ranked _ _ rk hclosed hrk' hN _ _ hinit
  have hedge : ∀ s o, GateEdge gates s o →
      (sigAt m1 s).level + 1 ≤ (sigAt m1 o).level ∨
        ((sigAt m1 s).level = 0 ∧ gatesContains gates s = true) := by
    intro s o hso
    rcases hfin.edge s o ((isUserOf_buildSignals gates o s).2 hso) with h | h | h
    · simp at h
    · exact Or.inl h
    · refine Or.inr ⟨h.1, ?_⟩
      have hs := (gateEdge_mem_keys gates s o hso).1
      by_contra hc
      exact h.2 ((mem_getInputIds _ _ s).2 ⟨hs, by simpa using hc⟩)
  have hpos : ∀ n o, rk o = n → gatesContains gates o = true → 0 < (sigAt m1 o).level := by
    intro n
    induction n using Nat.strong_induction_on with
    | _ n ih =>
      intro o hn ho
      obtain ⟨g, hg⟩ := (gatesContains_iff gates o).1 ho
      obtain ⟨s, hs⟩ := List.exists_mem_of_ne_nil _ (hin (o, g) hg)
      have hso : GateEdge gates s o := ⟨g, hg, hs⟩
      rcases hedge s o hso with h | h
      · omega
      · have := ih (rk s) (by rw [← hn]; exact hrk s o hso) s rfl h.2
        omega
  refine ⟨fuel, m1, hrun, hfin.frame, ?_, ?_⟩
  · intro s o hso
    rcases hedge s o hso with h | h
    · omega
    · have := hpos (rk s) s rfl h.2
      omega
  · intro j hj
    have hfresh : ∀ u, j ∉ (sigAt (buildSignals gates) u).users := by
      intro u hu
      have := (gateEdge_mem_keys gates u j ((isUserOf_buildSignals gates j u).1 hu)).2.2
      rw [hj] at this
      exact Bool.false_ne_true this
    rw [hfin.frame.fresh j hfresh, sigAt_buildSignals]

/-! ## The evaluation order -/

theorem sigAt_of_mem (m : signal_map) (hs : KeysSorted m) (k : Nat) (s : Signal)
    (h : (k, s) ∈ m) : sigAt m k = s := by
  simp [sigAt, lookup_eq_some_of_mem m hs k s h]

theorem mem_of_mem_keys (m : signal_map) (k : Nat) (h : k ∈ keys m) : (k, sigAt m k) ∈ m := by
  have := (lookup_isSome_iff_mem_keys m k).2 h
  obtain ⟨s, hs⟩ := Option.isSome_iff_exists.1 this
  have hm := mem_of_lookup_eq_some m k s hs
  simpa [sigAt, hs] using hm

theorem mem_getEvaluationLevels (m : signal_map) (hs : KeysSorted m) (k l : Nat) :
    (k, l) ∈ getEvaluationLevels m ↔ k ∈ keys m ∧ l = (sigAt m k).level ∧ 0 < l := by
  unfold getEvaluationLevels
  rw [List.mem_map]
  constructor
  · rintro ⟨p, hp, heq⟩
    obtain ⟨hpm, hpl⟩ := List.mem_filter.1 hp
    obtain ⟨k0, s0⟩ := p
    simp only [Prod.mk.injEq] at heq
    obtain ⟨rfl, rfl⟩ := heq
    have := sigAt_of_mem m hs k0 s0 hpm
    refine ⟨List.mem_map.2 ⟨(k0, s0), hpm, rfl⟩, by rw [this], by simpa using hpl⟩
  · rintro ⟨hk, hl, hpos⟩
    refine ⟨(k, sigAt m k), List.mem_filter.2 ⟨mem_of_mem_keys m k hk, ?_⟩, ?_⟩
    · simpa [← hl] using hpos
    · simp [hl]

theorem sortContract_insertionSortBy : SortContract insertionSortBy := by
  intro l
  refine ⟨List.perm_insertionSort _ l, ?_⟩
  have htot : IsTotal (Nat × Nat) (fun a b => evaluationLevelComparator b a = false) :=
    ⟨fun a b => by
      simp only [evaluationLevelComparator, decide_eq_false_iff_not, not_lt]
      exact le_total _ _⟩
  have htr : IsTrans (Nat × Nat) (fun a b => evaluationLevelComparator b a = false) :=
    ⟨fun a b c => by
      simp only [evaluationLevelComparator, decide_eq_false_iff_not, not_lt]
      exact le_trans⟩
  exact List.sorted_insertionSort (fun a b => evaluationLevelComparator b a = false) l

theorem acyclic_of_inputs_lt (gates : gate_map)
    (h : ∀ gateData ∈ gates, ∀ s ∈ gateData.2.1, s < gateData.1) : Acyclic gates := by
  rintro ⟨s, hs⟩
  have key : ∀ a b, Relation.TransGen (GateEdge gates) a b → a < b := by
    intro a b hab
    induction hab with
    | single h1 =>
      obtain ⟨g, hg, hin⟩ := h1
      exact h _ hg _ hin
    | tail _ h1 ih =>
      obtain ⟨g, hg, hin⟩ := h1
      exact lt_trans ih (h _ hg _ hin)
  exact lt_irrefl s (key s s hs)

/-- What `getEvaluationOrder` returns on a signal map with ascending keys whose
relaxation loop returns `m1`. -/
theorem getEvaluationOrder_spec (sort : sort_fn) (hsort : SortContract sort) (fuel : Nat)
    (m0 m1 : signal_map) (inputs : List Nat) (hs : KeysSorted m1)
    (hrun : setEvaluationLevels fuel m0 inputs = some m1) :
    ∃ order, getEvaluationOrder sort fuel m0 inputs = some (order, m1) ∧
      (∀ k, k ∈ order ↔ k ∈ keys m1 ∧ 0 < (sigAt m1 k).level) ∧
      (∀ (i j s o : Nat), order[i]? = some s → order[j]? = some o →
        (sigAt m1 s).level < (sigAt m1 o).level → i < j) := by
  obtain ⟨hperm, hpw⟩ := hsort (getEvaluationLevels m1)
  refine ⟨(sort evaluationLevelComparator (getEvaluationLevels m1)).map Prod.fst,
    by simp only [getEvaluationOrder, hrun], ?_, ?_⟩
  · intro k
    rw [List.mem_map]
    constructor
    · rintro ⟨⟨k0, l⟩, hp, rfl⟩
      have := (mem_getEvaluationLevels m1 hs k0 l).1 (hperm.mem_iff.1 hp)
      exact ⟨this.1, by rw [← this.2.1]; exact this.2.2⟩
    · rintro ⟨hk, hpos⟩
      exact ⟨(k, (sigAt m1 k).level),
        hperm.mem_iff.2 ((mem_getEvaluationLevels m1 hs k _).2 ⟨hk, rfl, hpos⟩), rfl⟩
  · intro i j s o hi hj hlt
    rw [List.getElem?_map] at hi hj
    obtain ⟨⟨s0, ls⟩, hi', hse⟩ := Option.map_eq_some'.1 hi
    obtain ⟨⟨o0, lo⟩, hj', hoe⟩ := Option.map_eq_some'.1 hj
    simp only at hse hoe
    subst hse hoe
    have hls := ((mem_getEvaluationLevels m1 hs s0 ls).1
      (hperm.mem_iff.1 (List.getElem?_mem hi'))).2.1
    have hlo := ((mem_getEvaluationLevels m1 hs o0 lo).1
      (hperm.mem_iff.1 (List.getElem?_mem hj'))).2.1
    by_contra hij
    rcases Nat.lt_or_eq_of_le (Nat.le_of_not_lt hij) with hji | hji
    · have := List.pairwise_iff_getElem.1 hpw j i
        (List.getElem?_eq_some.1 hj').1 (List.getElem?_eq_some.1 hi').1 hji
      rw [(List.getElem?_eq_some.1 hj').2, (List.getElem?_eq_some.1 hi').2] at this
      simp only [evaluationLevelComparator, decide_eq_false_iff_not, not_lt] at this
      omega
    · subst hji
      rw [hi'] at hj'
      simp only [Option.some.injEq, Prod.mk.injEq] at hj'
      omega

/-- C1: on every acyclic circuit (every gate has at least one input, the ids fit
`uint32_t`, the signal map is the one graph construction builds) `getEvaluationOrder`
returns, for any sort that meets the contract of `std::sort` and all large enough
fuel, and in the order it returns every gate output appears strictly after all of the
gate's inputs: the output is in the order, an input that is a gate output is in the
order and each of its positions is strictly smaller than each position of the output,
and an input that is a primary input is not in the order. -/
theorem evaluation_order_topological (sort : sort_fn) (hsort : SortContract sort)
    (gates : gate_map) (hac : Acyclic gates)
    (hin : ∀ gateData ∈ gates, gateData.2.1 ≠ []) (hr : IdsInRange gates) :
    ∃ fuel0, ∀ fuel, fuel0 ≤ fuel → ∃ order m1,
      getEvaluationOrder sort fuel (buildSignals gates)
        (getInputIds (buildSignals gates) gates) = some (order, m1) ∧
      ∀ o gate, (o, gate) ∈ gates → ∀ s ∈ gate.1,
        o ∈ order ∧
        (gatesContains gates s = true → s ∈ order) ∧
        (gatesContains gates s = false → s ∉ order) ∧
        ∀ i j : Nat, order[i]? = some s → order[j]? = some o → i < j := by
  obtain ⟨fuel0, m1, hrun, hframe, hlev, hzero⟩ :=
    setEvaluationLevels_acyclic gates hac hin hr
  refine ⟨fuel0, fun fuel hle => ?_⟩
  have hrun' := levelsLoop_mono fuel0 fuel hle _ _ _ hrun
  obtain ⟨order, hord, hmem, hpos⟩ :=
    getEvaluationOrder_spec sort hsort fuel _ m1 _ hframe.sorted hrun'
  refine ⟨order, m1, hord, ?_⟩
  intro o gate hg s hs
  have hso : GateEdge gates s o := ⟨gate, hg, hs⟩
  have hk := gateEdge_mem_keys gates s o hso
  have hlt := hlev s o hso
  refine ⟨?_, ?_, ?_, ?_⟩
  · rw [hmem, hframe.keys_eq]
    exact ⟨hk.2.1, by omega⟩
  · intro hsg
    obtain ⟨g, hg'⟩ := (gatesContains_iff gates s).1 hsg
    obtain ⟨t, ht⟩ := List.exists_mem_of_ne_nil _ (hin (s, g) hg')
    have := hlev t s ⟨g, hg', ht⟩
    rw [hmem, hframe.keys_eq]
    exact ⟨hk.1, by omega⟩
  · intro hsg hmem'
    have := ((hmem s).1 hmem').2
    rw [hzero s hsg] at this
    exact lt_irrefl 0 this
  · intro i j hi hj
    exact hpos i j s o hi hj hlt

/-- C1 on the diamond circuit, with insertion sort. -/
theorem evaluation_order_topological_witness :
    ∃ fuel0, ∀ fuel, fuel0 ≤ fuel → ∃ order m1,
      getEvaluationOrder insertionSortBy fuel (buildSignals diamondGates)
        (getInputIds (buildSignals diamondGates) diamondGates) = some (order, m1) ∧
      ∀ o gate, (o, gate) ∈ diamondGates → ∀ s ∈ gate.1,
        o ∈ order ∧
        (gatesContains diamondGates s = true → s ∈ order) ∧
        (gatesContains diamondGates s = false → s ∉ order) ∧
        ∀ i j : Nat, order[i]? = some s → order[j]? = some o → i < j :=
  evaluation_order_topological insertionSortBy sortContract_insertionSortBy diamondGates
    (acyclic_of_inputs_lt diamondGates (by decide)) (by decide)
    (by unfold IdsInRange; decide)

/-! ## The cycle finder -/

theorem unvisited_mono (U : List Nat) (v v1 : visited_map)
    (h : ∀ x, v x = true → v1 x = true) : unvisited U v1 ≤ unvisited U v := by
  unfold unvisited
  apply List.countP_mono_left
  intro x _ hx
  cases hv : v x
  · rfl
  · rw [h x hv] at hx
    exact absurd hx (by simp)

theorem unvisited_update (U : List Nat) (v : visited_map) (x : Nat) (hx : x ∈ U)
    (hv : v x = false) : unvisited U (Function.update v x true) < unvisited U v := by
  unfold unvisited
  induction U with
  | nil => simp at hx
  | cons a rest ih =>
    have hle : List.countP (fun y => !Function.update v x true y) rest
        ≤ List.countP (fun y => !v y) rest := by
      apply unvisited_mono rest v (Function.update v x true)
      intro y hy
      by_cases hyx : y = x
      · subst hyx; simp
      · simpa [Function.update, hyx] using hy
    by_cases hax : a = x
    · subst hax
      simp only [List.countP_cons, Function.update_same, hv]
      simp
      omega
    · have hx' : x ∈ rest := by
        rcases List.mem_cons.1 hx with h | h
        · exact absurd h.symm hax
        · exact h
      have := ih hx'
      simp only [List.countP_cons, Function.update_noteq hax]
      omega

theorem travFrame_refl (m0 : signal_map) (U : List Nat) (st : TraversalState)
    (h : TravPre m0 st) : TravFrame m0 U st st :=
  ⟨h.users, rfl, fun _ hx => hx, fun _ => rfl⟩

theorem travFrame_trans (m0 : signal_map) (U : List Nat) (st st1 st2 : TraversalState)
    (h1 : TravFrame m0 U st st1) (h2 : TravFrame m0 U st1 st2) : TravFrame m0 U st st2 :=
  ⟨h2.users, by rw [h2.path, h1.path], fun x hx => h2.mono x (h1.mono x hx),
    fun hU => by
      have e1 := h1.sig hU
      rw [h2.sig (by rw [e1]; exact hU), e1]⟩

/-- The loop over a list of ids, for a call that meets its contract. -/
theorem orAll_spec (m0 : signal_map) (U : List Nat) (n : Nat)
    (call : Nat → TraversalState → Option (Bool × TraversalState))
    (hcall : CallSpec m0 U n call) (ids : List Nat) (res : Bool) (st : TraversalState)
    (hU : ∀ id ∈ ids, id ∈ U) (hpre : TravPre m0 st) (hn : unvisited U st.visited < n) :
    ∃ res1 st1, orAll call ids res st = some (res1, st1) ∧ TravFrame m0 U st st1 ∧
      (∀ id ∈ ids, st1.visited id = true) ∧
      (res1 = false → res = false ∧ ∀ id ∈ ids, st.visitedInCurrentTraversal id = false) ∧
      ((∀ x, st.visitedInCurrentTraversal x = true →
          ∀ id ∈ ids, Relation.TransGen (UserEdge m0) x id) →
        res1 = true → res = true ∨ HasUserCycle m0) ∧
      (Finished m0 st → res1 = false → Finished m0 st1) := by
  induction ids generalizing res st with
  | nil =>
    exact ⟨res, st, rfl, travFrame_refl m0 U st hpre, by simp, fun h => ⟨h, by simp⟩,
      fun _ h => Or.inl h, fun h _ => h⟩
  | cons id rest ih =>
    obtain ⟨r, st1, hc, hf1, hv1, hp1, hs1, hfin1⟩ :=
      hcall id st (hU id (List.mem_cons_self _ _)) hpre hn
    have hpre1 : TravPre m0 st1 :=
      ⟨hf1.users, fun x hx => hf1.mono x (hpre.sub x (by rw [← hf1.path]; exact hx))⟩
    have hn1 : unvisited U st1.visited < n :=
      lt_of_le_of_lt (unvisited_mono U _ _ hf1.mono) hn
    obtain ⟨res2, st2, hc2, hf2, hv2, hp2, hs2, hfin2⟩ :=
      ih (res || r) st1 (fun i hi => hU i (List.mem_cons_of_mem _ hi)) hpre1 hn1
    refine ⟨res2, st2, by simp only [orAll, hc, hc2], travFrame_trans m0 U _ _ _ hf1 hf2,
      ?_, ?_, ?_, ?_⟩
    · intro i hi
      rcases List.mem_cons.1 hi with rfl | hi
      · exact hf2.mono _ hv1
      · exact hv2 i hi
    · intro h2
      obtain ⟨hor, hrest⟩ := hp2 h2
      have hres : res = false := by
        cases res
        · rfl
        · simp at hor
      have hr : r = false := by
        cases r
        · rfl
        · simp at hor
      refine ⟨hres, ?_⟩
      intro i hi
      rcases List.mem_cons.1 hi with rfl | hi
      · exact hp1 hr
      · rw [← hf1.path]; exact hrest i hi
    · intro hpath h2
      have := hs2 (fun x hx i hi => hpath x (by rw [← hf1.path]; exact hx) i
        (List.mem_cons_of_mem _ hi)) h2
      rcases this with hor | hcyc
      · cases hres : res
        · have hr : r = true := by simpa [hres] using hor
          exact Or.inr (hs1 (fun x hx => hpath x hx id (List.mem_cons_self _ _)) hr)
        · exact Or.inl rfl
      · exact Or.inr hcyc
    · intro hfin h2
      have hor := (hp2 h2).1
      have hr : r = false := by
        cases r
        · rfl
        · simp at hor
      exact hfin2 (hfin1 hfin hr) h2

/-- The traversal meets its contract on every set of ids closed under fan-out, with a
budget of one more than the number of unvisited ids. -/
theorem existsCycle_spec (m0 : signal_map) (U : List Nat)
    (hclosed : ∀ x ∈ U, ∀ y ∈ (sigAt m0 x).users, y ∈ U) (fuel : Nat) :
    CallSpec m0 U fuel (existsCycle fuel) := by
  induction fuel with
  | zero => intro cur st _ _ hn; exact absurd hn (Nat.not_lt_zero _)
  | succ n ih =>
    intro cur st hcur hpre hn
    by_cases hp : st.visitedInCurrentTraversal cur = true
    · refine ⟨true, st, by simp [existsCycle, hp], travFrame_refl m0 U st hpre,
        hpre.sub cur hp, by simp, fun hpath _ => ⟨cur, hpath cur hp⟩, by simp⟩
    · have hp' : st.visitedInCurrentTraversal cur = false := by simpa using hp
      by_cases hv : st.visited cur = true
      · exact ⟨false, st, by simp [existsCycle, hp, hv], travFrame_refl m0 U st hpre,
          hv, fun _ => hp', by simp, fun h _ => h⟩
      · have hv' : st.visited cur = false := by simpa using hv
        have hpre1 : TravPre m0
            { signals := touch st.signals cur
              visited := Function.update st.visited cur true
              visitedInCurrentTraversal :=
                Function.update st.visitedInCurrentTraversal cur true } := by
          refine ⟨fun j => by rw [sigAt_touch]; exact hpre.users j, ?_⟩
          intro x hx
          by_cases hxc : x = cur
          · subst hxc; simp
          · simp only [Function.update_noteq hxc] at hx ⊢
            exact hpre.sub x hx
        have hn1 : unvisited U (Function.update st.visited cur true) < n := by
          have := unvisited_update U st.visited cur hcur hv'
          omega
        have husers : ∀ id ∈ (sigAt st.signals cur).users, id ∈ U := by
          intro id hid
          rw [hpre.users cur] at hid
          exact hclosed cur hcur id hid
        obtain ⟨res1, st1, hc, hf, hvis, hpf, hsound, hfin⟩ :=
          orAll_spec m0 U n (existsCycle n) ih (sigAt st.signals cur).users false _
            husers hpre1 hn1
        have hpath1 : st1.visitedInCurrentTraversal =
            Function.update st.visitedInCurrentTraversal cur true := hf.path
        refine ⟨res1,
          ({ st1 with
             visitedInCurrentTraversal :=
               Function.update st1.visitedInCurrentTraversal cur false } : TraversalState),
          ?_, ?_, ?_, ?_, ?_, ?_⟩
        · simp only [existsCycle, hp, hv, hc]
          simp
        · refine ⟨hf.users, ?_, ?_, ?_⟩
          · show Function.update st1.visitedInCurrentTraversal cur false = _
            rw [hpath1]
            funext x
            by_cases hxc : x = cur
            · subst hxc; simp [hp']
            · simp [Function.update_noteq hxc]
          · intro x hx
            apply hf.mono
            by_cases hxc : x = cur
            · subst hxc; simp
            · simpa [Function.update_noteq hxc] using hx
          · intro hk
            have ht : touch st.signals cur = st.signals := touch_of_mem _ _ (hk cur hcur)
            have := hf.sig (by show ∀ x ∈ U, x ∈ keys (touch st.signals cur); rw [ht]; exact hk)
            show st1.signals = st.signals
            rw [this]
            exact ht
        · exact hf.mono cur (by simp)
        · exact fun _ => hp'
        · intro hpath hres
          have := hsound (fun x hx id hid => by
            have hedge : UserEdge m0 cur id := by
              show id ∈ (sigAt m0 cur).users
              rw [← hpre.users cur]; exact hid
            by_cases hxc : x = cur
            · subst hxc
              exact Relation.TransGen.single hedge
            · have hx' : st.visitedInCurrentTraversal x = true := by
                simpa [Function.update_noteq hxc] using hx
              exact Relation.TransGen.tail (hpath x hx') hedge) hres
          rcases this with h | h
          · exact absurd h (by simp)
          · exact h
        · intro hfin0 hres
          have hfin1 : Finished m0
              { signals := touch st.signals cur
                visited := Function.update st.visited cur true
                visitedInCurrentTraversal :=
                  Function.update st.visitedInCurrentTraversal cur true } := by
            intro x hx hxp
            have hxc : x ≠ cur := by
              rintro rfl
              simp at hxp
            simp only [Function.update_noteq hxc] at hx hxp
            exact hfin0 x hx hxp
          have hfin2 := hfin hfin1 hres
          have hoff := (hpf hres).2
          have hacc : Acc (IsUserOf m0) cur := by
            refine Acc.intro cur (fun id hid => ?_)
            have hid' : id ∈ (sigAt st.signals cur).users := by
              rw [hpre.users cur]; exact hid
            apply hfin2 id (hvis id hid')
            rw [hpath1]
            exact hoff id hid'
          intro x hx hxp
          by_cases hxc : x = cur
          · subst hxc; exact hacc
          · apply hfin2 x hx
            have : Function.update st1.visitedInCurrentTraversal cur false x = false := hxp
            simpa [Function.update_noteq hxc] using this

/-- What `hasCircuitCycle` returns on a set of ids closed under fan-out that holds the
starting ids, with more fuel than ids. -/
theorem hasCircuitCycle_spec (m0 : signal_map) (inputs U : List Nat)
    (hclosed : ∀ x ∈ U, ∀ y ∈ (sigAt m0 x).users, y ∈ U) (hin : ∀ i ∈ inputs, i ∈ U)
    (fuel : Nat) (hfuel : U.length < fuel) :
    ∃ res m1, hasCircuitCycle fuel inputs m0 = some (res, m1) ∧
      (∀ j, (sigAt m1 j).users = (sigAt m0 j).users) ∧
      ((∀ x ∈ U, x ∈ keys m0) → m1 = m0) ∧
      (res = true → (m0 ≠ [] ∧ inputs = []) ∨ HasUserCycle m0) ∧
      (res = false → ∀ i ∈ inputs, Acc (IsUserOf m0) i) := by
  by_cases hsp : (!m0.isEmpty && inputs.isEmpty) = true
  · refine ⟨true, m0, by simp [hasCircuitCycle, hsp], fun _ => rfl, fun _ => rfl, ?_, by simp⟩
    intro _
    left
    simp only [Bool.and_eq_true, Bool.not_eq_true', List.isEmpty_eq_true] at hsp
    refine ⟨?_, hsp.2⟩
    intro h
    rw [h] at hsp
    simp at hsp
  · have hpre : TravPre m0
        { signals := m0, visited := getVisitedMap m0,
          visitedInCurrentTraversal := getVisitedMap m0 } :=
      ⟨fun _ => rfl, fun x hx => by simp [getVisitedMap] at hx⟩
    have hn : unvisited U (getVisitedMap m0) < fuel := by
      have : unvisited U (getVisitedMap m0) = U.length := by
        simp [unvisited, getVisitedMap]
      omega
    obtain ⟨res1, st1, hc, hf, hvis, _, hsound, hfin⟩ :=
      orAll_spec m0 U fuel (existsCycle fuel) (existsCycle_spec m0 U hclosed fuel)
        inputs false _ hin hpre hn
    refine ⟨res1, st1.signals, ?_, hf.users, fun hk => hf.sig hk, ?_, ?_⟩
    · simp only [hasCircuitCycle, hsp, hc]
      simp
    · intro hres
      rcases hsound (fun x hx => by simp [getVisitedMap] at hx) hres with h | h
      · exact absurd h (by simp)
      · exact Or.inr h
    · intro hres i hi
      have hfin1 := hfin (fun x hx => by simp [getVisitedMap] at hx) hres
      apply hfin1 i (hvis i hi)
      rw [hf.path]
      rfl

theorem userEdge_buildSignals (gates : gate_map) (a b : Nat) :
    UserEdge (buildSignals gates) a b ↔ GateEdge gates a b :=
  isUserOf_buildSignals gates b a

theorem hasFeedback_of_hasUserCycle (gates : gate_map)
    (h : HasUserCycle (buildSignals gates)) : HasFeedback gates := by
  obtain ⟨y, hy⟩ := h
  exact ⟨y, Relation.TransGen.mono (fun a b hab => (userEdge_buildSignals gates a b).1 hab) hy⟩

/-- An acyclic circuit with a signal, in which every gate has an input, has a primary
input. -/
theorem exists_input (gates : gate_map) (hac : Acyclic gates)
    (hin : ∀ gateData ∈ gates, gateData.2.1 ≠ []) (x : Nat)
    (hx : x ∈ keys (buildSignals gates)) :
    ∃ i, i ∈ getInputIds (buildSignals gates) gates := by
  obtain ⟨rk, hrk, _⟩ := exists_rank gates hac
  have key : ∀ n x, rk x = n → x ∈ keys (buildSignals gates) →
      ∃ i, i ∈ getInputIds (buildSignals gates) gates := by
    intro n
    induction n using Nat.strong_induction_on with
    | _ n ih =>
      intro x hn hx
      by_cases hg : gatesContains gates x = true
      · obtain ⟨g, hg'⟩ := (gatesContains_iff gates x).1 hg
        obtain ⟨s, hs⟩ := List.exists_mem_of_ne_nil _ (hin (x, g) hg')
        have hso : GateEdge gates s x := ⟨g, hg', hs⟩
        exact ih (rk s) (by rw [← hn]; exact hrk s x hso) s rfl
          (gateEdge_mem_keys gates s x hso).1
      · exact ⟨x, (mem_getInputIds _ _ x).2 ⟨hx, by simpa using hg⟩⟩
  exact key (rk x) x rfl hx

theorem keys_closed_buildSignals (gates : gate_map) :
    ∀ x ∈ keys (buildSignals gates), ∀ y ∈ (sigAt (buildSignals gates) x).users,
      y ∈ keys (buildSignals gates) :=
  fun x _ y hy => (gateEdge_mem_keys gates x y ((isUserOf_buildSignals gates y x).1 hy)).2.1

theorem getInputIds_subset_keys (signals : signal_map) (gates : gate_map) :
    ∀ i ∈ getInputIds signals gates, i ∈ keys signals :=
  fun i hi => ((mem_getInputIds signals gates i).1 hi).1

/-- The cycle finder on an acyclic circuit in which every gate has an input: it returns
false and leaves the signal map as it was. -/
theorem hasCircuitCycle_acyclic (gates : gate_map) (hac : Acyclic gates)
    (hin : ∀ gateData ∈ gates, gateData.2.1 ≠ []) (fuel : Nat)
    (hfuel : (keys (buildSignals gates)).length < fuel) :
    hasCircuitCycle fuel (getInputIds (buildSignals gates) gates) (buildSignals gates)
      = some (false, buildSignals gates) := by
  obtain ⟨res, m1, hrun, _, hsame, htrue, _⟩ :=
    hasCircuitCycle_spec (buildSignals gates) (getInputIds (buildSignals gates) gates)
      (keys (buildSignals gates)) (keys_closed_buildSignals gates)
      (getInputIds_subset_keys _ gates) fuel hfuel
  rw [hrun, hsame (fun _ hx => hx)]
  cases res with
  | false => rfl
  | true =>
    exfalso
    rcases htrue rfl with ⟨hne, hemp⟩ | hcyc
    · obtain ⟨p, rest, hp⟩ := List.exists_cons_of_ne_nil hne
      have hx : p.1 ∈ keys (buildSignals gates) := by
        rw [hp]; simp [keys]
      obtain ⟨i, hi⟩ := exists_input gates hac hin p.1 hx
      rw [hemp] at hi
      simp at hi
    · exact hac (hasFeedback_of_hasUserCycle gates hcyc)

/-- C5: on every circuit whose dependency graph is acyclic and in which every gate has
at least one input, `CycleFinder::hasCircuitCycle`, called on the signal map graph
construction builds and its primary inputs, returns false and leaves the signal map as
it was, for every fuel above the number of signals. Diamonds and gates that list an
input twice are circuits like any other here. -/
theorem acyclic_not_reported (gates : gate_map) (hac : Acyclic gates)
    (hin : ∀ gateData ∈ gates, gateData.2.1 ≠ []) (fuel : Nat)
    (hfuel : (keys (buildSignals gates)).length < fuel) :
    hasCircuitCycle fuel (getInputIds (buildSignals gates) gates) (buildSignals gates)
      = some (false, buildSignals gates) :=
  hasCircuitCycle_acyclic gates hac hin fuel hfuel

/-- C5 on the diamond circuit, whose gate `5` lists the input `4` twice. -/
theorem acyclic_not_reported_witness :
    hasCircuitCycle 6 (getInputIds (buildSignals diamondGates) diamondGates)
      (buildSignals diamondGates) = some (false, buildSignals diamondGates) :=
  acyclic_not_reported diamondGates (acyclic_of_inputs_lt diamondGates (by decide))
    (by decide) 6 (by decide)

/-! ## One evaluation pass -/

theorem gateAND_snd_aux (ids : List Nat) (b : Bool) (m : signal_map)
    (h : ∀ id ∈ ids, id ∈ keys m) :
    (ids.foldl (fun st id => (st.1 && (sigAt st.2 id).value, touch st.2 id)) (b, m)).2 = m := by
  induction ids generalizing b with
  | nil => rfl
  | cons i rest ih =>
    rw [List.foldl_cons]
    simp only [touch_of_mem m i (h i (List.mem_cons_self _ _))]
    exact ih _ (fun id hid => h id (List.mem_cons_of_mem _ hid))

theorem gateOR_snd_aux (ids : List Nat) (b : Bool) (m : signal_map)
    (h : ∀ id ∈ ids, id ∈ keys m) :
    (ids.foldl (fun st id => (st.1 || (sigAt st.2 id).value, touch st.2 id)) (b, m)).2 = m := by
  induction ids generalizing b with
  | nil => rfl
  | cons i rest ih =>
    rw [List.foldl_cons]
    simp only [touch_of_mem m i (h i (List.mem_cons_self _ _))]
    exact ih _ (fun id hid => h id (List.mem_cons_of_mem _ hid))

/-- On a signal map that holds every input of the gate, `evaluate` leaves the map as it
was. -/
theorem evaluate_snd (gate : Gate) (m : signal_map) (h : ∀ id ∈ gate.1, id ∈ keys m)
    (r : Bool × signal_map) (hr : evaluate gate m = some r) : r.2 = m := by
  obtain ⟨ids, kind⟩ := gate
  cases kind <;> simp only [evaluate, gateNAND, gateNOR, Option.some.injEq] at hr
  · rw [← hr]; exact gateAND_snd_aux ids true m h
  · rw [← hr]; exact gateAND_snd_aux ids true m h
  · rw [← hr]; exact gateOR_snd_aux ids false m h
  · rw [← hr]; exact gateOR_snd_aux ids false m h
  · match ids, h, hr with
    | i0 :: i1 :: _, h, hr =>
      simp only [gateXOR, Option.some.injEq] at hr
      rw [← hr]
      have h0 : touch m i0 = m := touch_of_mem m i0 (h i0 (by simp))
      show touch (touch m i0) i1 = m
      rw [h0]
      exact touch_of_mem m i1 (h i1 (by simp))
    | [], _, hr => simp [gateXOR] at hr
    | [_], _, hr => simp [gateXOR] at hr
  · match ids, h, hr with
    | i0 :: _, h, hr =>
      simp only [gateNOT, Option.some.injEq] at hr
      rw [← hr]
      exact touch_of_mem m i0 (h i0 (by simp))
    | [], _, hr => simp [gateNOT] at hr

theorem evaluate_isSome (gate : Gate) (m : signal_map) (h : validArity gate = true) :
    ∃ r, evaluate gate m = some r := by
  obtain ⟨ids, kind⟩ := gate
  cases kind <;> simp only [evaluate] <;> try exact ⟨_, rfl⟩
  · match ids, h with
    | i0 :: i1 :: _, _ => exact ⟨_, rfl⟩
    | [], h => simp [validArity] at h
    | [_], h => simp [validArity] at h
  · match ids, h with
    | i0 :: _, _ => exact ⟨_, rfl⟩
    | [], h => simp [validArity] at h

/-- The result of `evaluate` depends on the values of the gate's inputs only. -/
theorem evaluate_congr (gate : Gate) (m m1 : signal_map)
    (h : ∀ id ∈ gate.1, (sigAt m id).value = (sigAt m1 id).value) :
    (evaluate gate m).map Prod.fst = (evaluate gate m1).map Prod.fst := by
  obtain ⟨ids, kind⟩ := gate
  have hall : ids.all (fun id => (sigAt m id).value) = ids.all (fun id => (sigAt m1 id).value) := by
    simp only at h
    induction ids with
    | nil => rfl
    | cons i rest ih =>
      simp only [List.all_cons, h i (List.mem_cons_self _ _),
        ih (fun id hid => h id (List.mem_cons_of_mem _ hid))]
  have hany : ids.any (fun id => (sigAt m id).value) = ids.any (fun id => (sigAt m1 id).value) := by
    clear hall
    simp only at h
    induction ids with
    | nil => rfl
    | cons i rest ih =>
      simp only [List.any_cons, h i (List.mem_cons_self _ _),
        ih (fun id hid => h id (List.mem_cons_of_mem _ hid))]
  cases kind
  · simp [evaluate, gateAND_fst, hall]
  · simp [evaluate, gateNAND, gateAND_fst, hall]
  · simp [evaluate, gateOR_fst, hany]
  · simp [evaluate, gateNOR, gateOR_fst, hany]
  · match ids, h with
    | i0 :: i1 :: _, h =>
      simp [evaluate, gateXOR, sigAt_touch, h i0 (by simp), h i1 (by simp)]
    | [], _ => simp [evaluate, gateXOR]
    | [_], _ => simp [evaluate, gateXOR]
  · match ids, h with
    | i0 :: _, h => simp [evaluate, gateNOT, h i0 (by simp)]
    | [], _ => simp [evaluate, gateNOT]

theorem calculateSignalValue_spec (gates : gate_map) (id : Nat) (m : signal_map) (gate : Gate)
    (hg : gateAt gates id = some gate) (ha : validArity gate = true)
    (hin : ∀ s ∈ gate.1, s ∈ keys m) (hid : id ∈ keys m) :
    ∃ b, (evaluate gate m).map Prod.fst = some b ∧
      calculateSignalValue id m gates = some (assign m id { sigAt m id with value := b }) := by
  obtain ⟨r, hr⟩ := evaluate_isSome gate m ha
  have h2 := evaluate_snd gate m hin r hr
  obtain ⟨s, hs⟩ := Option.isSome_iff_exists.1 ((lookup_isSome_iff_mem_keys m id).2 hid)
  refine ⟨r.1, by simp [hr], ?_⟩
  obtain ⟨b, m1⟩ := r
  simp only at h2
  subst h2
  simp [calculateSignalValue, hg, hr, hs, sigAt]

/-- One pass over an order of gate outputs: it returns, it changes nothing but the
values of the ids in the order, and on an order fit for evaluation every id in it ends
with the value of its gate on the final values. -/
theorem evaluateAll_spec (gates : gate_map) (K : List Nat)
    (hgin : ∀ o gate, gateAt gates o = some gate → ∀ s ∈ gate.1, s ∈ K)
    (harity : ∀ o gate, gateAt gates o = some gate → validArity gate = true)
    (order : List Nat) (m : signal_map) (hs : KeysSorted m) (hk : keys m = K)
    (hord : ∀ o ∈ order, o ∈ K ∧ gatesContains gates o = true) :
    ∃ m1, evaluateAll gates order m = some m1 ∧ KeysSorted m1 ∧ keys m1 = K ∧
      (∀ j, (sigAt m1 j).users = (sigAt m j).users) ∧
      (∀ j, (sigAt m1 j).level = (sigAt m j).level) ∧
      (∀ j, j ∉ order → (sigAt m1 j).value = (sigAt m j).value) ∧
      (EvalOrdered gates order → ∀ o ∈ order, ∀ gate, gateAt gates o = some gate →
        (evaluate gate m1).map Prod.fst = some (sigAt m1 o).value) := by
  induction order generalizing m with
  | nil =>
    exact ⟨m, rfl, hs, hk, fun _ => rfl, fun _ => rfl, fun _ _ => rfl, by simp⟩
  | cons id rest ih =>
    obtain ⟨hidK, hidG⟩ := hord id (List.mem_cons_self _ _)
    obtain ⟨gate, hg⟩ := Option.isSome_iff_exists.1 hidG
    obtain ⟨b, hb, hcalc⟩ := calculateSignalValue_spec gates id m gate hg (harity id gate hg)
      (fun s hs' => by rw [hk]; exact hgin id gate hg s hs') (by rw [hk]; exact hidK)
    have hs1 : KeysSorted (assign m id { sigAt m id with value := b }) :=
      keysSorted_assign m hs id _
    have hk1 : keys (assign m id { sigAt m id with value := b }) = K := by
      rw [keys_assign_of_mem m hs id _ (by rw [hk]; exact hidK), hk]
    have hsig : ∀ j, sigAt (assign m id { sigAt m id with value := b }) j =
        if j = id then { sigAt m id with value := b } else sigAt m j := by
      intro j
      by_cases hj : j = id
      · subst hj; simp [sigAt_assign_self]
      · simp [hj, sigAt_assign_ne m id j _ hj]
    obtain ⟨m1, hrun, hs2, hk2, hu, hl, hv, htopo⟩ :=
      ih _ hs1 hk1 (fun o ho => hord o (List.mem_cons_of_mem _ ho))
    refine ⟨m1, by simp only [evaluateAll, hcalc, hrun], hs2, hk2, ?_, ?_, ?_, ?_⟩
    · intro j
      rw [hu j, hsig j]
      split
      · rename_i h; rw [h]
      · rfl
    · intro j
      rw [hl j, hsig j]
      split
      · rename_i h; rw [h]
      · rfl
    · intro j hj
      have hj1 : j ≠ id := fun e => hj (by rw [e]; exact List.mem_cons_self _ _)
      have hj2 : j ∉ rest := fun e => hj (List.mem_cons_of_mem _ e)
      rw [hv j hj2, hsig j]
      simp [hj1]
    · intro hto o ho g hog
      obtain ⟨hfirst, hnotin, hrest⟩ := hto
      rcases List.mem_cons.1 ho with rfl | ho
      · have hgg : g = gate := by
          rw [hg] at hog; exact (Option.some.inj hog).symm
        subst hgg
        have hval : (sigAt m1 o).value = b := by
          rw [hv o hnotin, hsig o]; simp
        rw [hval, ← hb]
        apply evaluate_congr
        intro s hs'
        obtain ⟨hne, hnr⟩ := hfirst g hg s hs'
        rw [hv s hnr, hsig s]
        simp [hne]
      · exact htopo hrest o ho g hog

/-! ## The binary counter on the primary inputs -/

theorem lsbValue_lt (l : List Bool) : lsbValue l < 2 ^ l.length := by
  induction l with
  | nil => simp [lsbValue]
  | cons b rest ih =>
    simp only [lsbValue, List.length_cons, pow_succ]
    cases b <;> simp <;> omega

theorem eq_lowBits (l : List Bool) (i : Nat) (h : lsbValue l = i) :
    l = lowBits l.length i := by
  induction l generalizing i with
  | nil => rfl
  | cons b rest ih =>
    simp only [lsbValue] at h
    simp only [List.length_cons, lowBits]
    have h1 : i / 2 = lsbValue rest := by cases b <;> simp at h <;> omega
    have h2 : decide (i % 2 = 1) = b := by cases b <;> simp at h ⊢ <;> omega
    rw [h2, h1, ← ih (lsbValue rest) rfl]

theorem lsbValue_lowBits (k i : Nat) (h : i < 2 ^ k) : lsbValue (lowBits k i) = i := by
  induction k generalizing i with
  | zero => simp at h; simp [lowBits, lsbValue, h]
  | succ k ih =>
    have h1 : i / 2 < 2 ^ k := by
      rw [pow_succ] at h; omega
    simp only [lowBits, lsbValue, ih (i / 2) h1]
    by_cases hb : i % 2 = 1
    · simp [hb]; omega
    · simp [hb]; omega

theorem eq_toBits (l : List Bool) (i : Nat) (h : binaryValue l = i) :
    l = toBits l.length i := by
  have := eq_lowBits l.reverse i h
  rw [List.length_reverse] at this
  rw [toBits, ← this, List.reverse_reverse]

theorem toBits_injective (k i j : Nat) (hi : i < 2 ^ k) (hj : j < 2 ^ k)
    (h : toBits k i = toBits k j) : i = j := by
  have h1 : lowBits k i = lowBits k j := by
    have := congrArg List.reverse h
    simpa [toBits] using this
  rw [← lsbValue_lowBits k i hi, ← lsbValue_lowBits k j hj, h1]

theorem valuesOf_congr (m m1 : signal_map) (ids : List Nat)
    (h : ∀ id ∈ ids, (sigAt m1 id).value = (sigAt m id).value) :
    valuesOf m1 ids = valuesOf m ids := by
  unfold valuesOf
  exact List.map_congr_left h

theorem lsbValue_all_false (l : List Bool) (h : ∀ b ∈ l, b = false) : lsbValue l = 0 := by
  induction l with
  | nil => rfl
  | cons b rest ih =>
    simp only [lsbValue, h b (List.mem_cons_self _ _),
      ih (fun c hc => h c (List.mem_cons_of_mem _ hc))]
    simp

/-- The scan of `prepareNextCombination` is an increment of the number its ids denote,
first id least significant; the result `false` is the carry out. -/
theorem nextCombinationLoop_spec (ids : List Nat) (hnd : ids.Nodup) (m : signal_map)
    (hs : KeysSorted m) (hk : ∀ id ∈ ids, id ∈ keys m) :
    KeysSorted (nextCombinationLoop ids m).2 ∧
    keys (nextCombinationLoop ids m).2 = keys m ∧
    (∀ j, j ∉ ids → sigAt (nextCombinationLoop ids m).2 j = sigAt m j) ∧
    (∀ j, (sigAt (nextCombinationLoop ids m).2 j).users = (sigAt m j).users) ∧
    (∀ j, (sigAt (nextCombinationLoop ids m).2 j).level = (sigAt m j).level) ∧
    lsbValue (valuesOf (nextCombinationLoop ids m).2 ids) +
        (if (nextCombinationLoop ids m).1 then 0 else 2 ^ ids.length) =
      lsbValue (valuesOf m ids) + 1 := by
  induction ids generalizing m with
  | nil => simp [nextCombinationLoop, hs, valuesOf, lsbValue]
  | cons id rest ih =>
    obtain ⟨hnotin, hnd'⟩ := List.nodup_cons.1 hnd
    have hid : id ∈ keys m := hk id (List.mem_cons_self _ _)
    have hsig : ∀ (b : Bool) (j : Nat),
        sigAt (assign m id { sigAt m id with value := b }) j =
          if j = id then { sigAt m id with value := b } else sigAt m j := by
      intro b j
      by_cases hj : j = id
      · subst hj; simp [sigAt_assign_self]
      · simp [hj, sigAt_assign_ne m id j _ hj]
    have hkeys : ∀ b : Bool, keys (assign m id { sigAt m id with value := b }) = keys m :=
      fun b => keys_assign_of_mem m hs id _ hid
    have hrestv : ∀ b : Bool, valuesOf (assign m id { sigAt m id with value := b }) rest
        = valuesOf m rest := by
      intro b
      apply valuesOf_congr
      intro j hj
      have : j ≠ id := fun e => hnotin (by rw [← e]; exact hj)
      rw [hsig b j]; simp [this]
    by_cases hv : (sigAt m id).value = true
    · obtain ⟨a1, a2, a3, a4, a5, a6⟩ := ih hnd' (assign m id { sigAt m id with value := false })
        (keysSorted_assign m hs id _)
        (fun j hj => by rw [hkeys false]; exact hk j (List.mem_cons_of_mem _ hj))
      simp only [nextCombinationLoop, hv, if_true]
      refine ⟨a1, by rw [a2, hkeys false], ?_, ?_, ?_, ?_⟩
      · intro j hj
        have hj1 : j ≠ id := fun e => hj (by rw [e]; exact List.mem_cons_self _ _)
        have hj2 : j ∉ rest := fun e => hj (List.mem_cons_of_mem _ e)
        rw [a3 j hj2, hsig false j]; simp [hj1]
      · intro j
        rw [a4 j, hsig false j]
        split
        · rename_i h; rw [h]
        · rfl
      · intro j
        rw [a5 j, hsig false j]
        split
        · rename_i h; rw [h]
        · rfl
      · rw [hrestv false] at a6
        have hidv : (sigAt (nextCombinationLoop rest
            (assign m id { sigAt m id with value := false })).2 id).value = false := by
          rw [a3 id hnotin, hsig false id]; simp
        simp only [valuesOf, List.map_cons, lsbValue, hidv, hv, List.length_cons, pow_succ]
          at a6 ⊢
        split at a6 <;> rename_i hc <;> simp [hc] at a6 ⊢ <;> omega
    · have hv' : (sigAt m id).value = false := by simpa using hv
      simp only [nextCombinationLoop, hv', Bool.false_eq_true, if_false]
      refine ⟨keysSorted_assign m hs id _, hkeys true, ?_, ?_, ?_, ?_⟩
      · intro j hj
        have hj1 : j ≠ id := fun e => hj (by rw [e]; exact List.mem_cons_self _ _)
        rw [hsig true j]; simp [hj1]
      · intro j
        rw [hsig true j]
        split
        · rename_i h; rw [h]
        · rfl
      · intro j
        rw [hsig true j]
        split
        · rename_i h; rw [h]
        · rfl
      · have h1 := hrestv true
        simp only [valuesOf] at h1
        simp only [valuesOf, List.map_cons, lsbValue, h1, hv', hsig true id]
        simp
        omega

/-! ## More fuel changes no result -/

theorem orAll_congr (call1 call2 : Nat → TraversalState → Option (Bool × TraversalState))
    (h : ∀ id st r, call1 id st = some r → call2 id st = some r)
    (ids : List Nat) (res : Bool) (st : TraversalState) (r : Bool × TraversalState)
    (hr : orAll call1 ids res st = some r) : orAll call2 ids res st = some r := by
  induction ids generalizing res st with
  | nil => simpa [orAll] using hr
  | cons id rest ih =>
    simp only [orAll] at hr ⊢
    cases hc : call1 id st with
    | none => simp [hc] at hr
    | some x =>
      rw [hc] at hr
      rw [h id st x hc]
      exact ih _ _ hr

theorem existsCycle_eq (fuel : Nat) (cur : Nat) (st : TraversalState) :
    existsCycle (fuel + 1) cur st =
      if st.visitedInCurrentTraversal cur then some (true, st)
      else if st.visited cur then some (false, st)
      else
        match orAll (existsCycle fuel) (sigAt st.signals cur).users false
            { signals := touch st.signals cur
              visited := Function.update st.visited cur true
              visitedInCurrentTraversal :=
                Function.update st.visitedInCurrentTraversal cur true } with
        | none => none
        | some (res, st1) =>
          some (res, { st1 with
            visitedInCurrentTraversal :=
              Function.update st1.visitedInCurrentTraversal cur false }) := rfl

theorem existsCycle_succ (fuel : Nat) (cur : Nat) (st : TraversalState)
    (r : Bool × TraversalState) (h : existsCycle fuel cur st = some r) :
    existsCycle (fuel + 1) cur st = some r := by
  induction fuel generalizing cur st r with
  | zero => simp [existsCycle] at h
  | succ n ih =>
    rw [existsCycle_eq] at h ⊢
    by_cases hp : st.visitedInCurrentTraversal cur = true
    · simpa [hp] using h
    · by_cases hv : st.visited cur = true
      · simpa [hp, hv] using h
      · simp only [hp, hv, if_false, Bool.false_eq_true] at h ⊢
        cases hc : orAll (existsCycle n) (sigAt st.signals cur).users false
            { signals := touch st.signals cur
              visited := Function.update st.visited cur true
              visitedInCurrentTraversal :=
                Function.update st.visitedInCurrentTraversal cur true } with
        | none => simp [hc] at h
        | some x =>
          rw [hc] at h
          rw [orAll_congr (existsCycle n) (existsCycle (n + 1)) ih _ _ _ x hc]
          exact h

theorem hasCircuitCycle_succ (fuel : Nat) (inputs : List Nat)
    (m : signal_map) (r : Bool × signal_map) (h : hasCircuitCycle fuel inputs m = some r) :
    hasCircuitCycle (fuel + 1) inputs m = some r := by
  simp only [hasCircuitCycle] at h ⊢
  by_cases hsp : (!m.isEmpty && inputs.isEmpty) = true
  · simpa [hsp] using h
  · simp only [hsp, if_false, Bool.false_eq_true] at h ⊢
    cases hc : orAll (existsCycle fuel) inputs false
        { signals := m, visited := getVisitedMap m,
          visitedInCurrentTraversal := getVisitedMap m } with
    | none => simp [hc] at h
    | some x =>
      rw [hc] at h
      rw [orAll_congr (existsCycle fuel) (existsCycle (fuel + 1))
        (fun id st r hr => existsCycle_succ fuel id st r hr) _ _ _ x hc]
      exact h

theorem hasCircuitCycle_mono (fuel fuel1 : Nat) (hle : fuel ≤ fuel1) (inputs : List Nat)
    (m : signal_map) (r : Bool × signal_map) (h : hasCircuitCycle fuel inputs m = some r) :
    hasCircuitCycle fuel1 inputs m = some r := by
  obtain ⟨d, rfl⟩ := Nat.exists_eq_add_of_le hle
  induction d with
  | zero => exact h
  | succ d ih => exact hasCircuitCycle_succ _ _ _ _ (ih (Nat.le_add_right _ _))

/-! ## The relaxation loop after the cycle finder -/

/-- From a queue of accessible signals the relaxation loop runs to an empty queue and
keeps the frame. -/
theorem levelsLoop_acc (m0 : signal_map) (hs : KeysSorted m0)
    (hclosed : ∀ u, ∀ v ∈ (sigAt m0 u).users, v ∈ keys m0) (q : List Nat)
    (hq : ∀ v ∈ q, v ∈ keys m0 ∧ Acc (IsUserOf m0) v) :
    ∃ fuel m1, levelsLoop fuel q m0 = some m1 ∧ LevelsFrame m0 [] m1 := by
  obtain ⟨fuel, m1, hrun, hP⟩ := levelsLoop_invariant m0
    (fun q m => LevelsFrame m0 q m ∧ ∀ v ∈ q, Acc (IsUserOf m0) v)
    (fun _ _ hP => hP.2) (fun _ _ hP => hP.1.users)
    (fun v q m hP => by
      refine ⟨levelsFrame_step m0 hclosed v q m hP.1, ?_⟩
      intro w hw
      rcases List.mem_append.1 hw with hw | hw
      · exact hP.2 w (List.mem_cons_of_mem _ hw)
      · rw [hP.1.users v] at hw
        exact (hP.2 v (List.mem_cons_self _ _)).inv hw)
    q m0 ⟨⟨fun _ => rfl, fun _ => rfl, hs, rfl, fun v hv => (hq v hv).1, fun _ _ => rfl⟩,
      fun v hv => (hq v hv).2⟩
  exact ⟨fuel, m1, hrun, hP.1⟩

/-! ## Rows -/

theorem rowDigit_print (m m1 : signal_map) (hs : KeysSorted m1) (hk : keys m1 = keys m)
    (id : Nat) (hid : id ∈ keys m) :
    rowDigit m (printCurrentSignalValues m1) id = some (digit (sigAt m1 id).value) := by
  unfold rowDigit printCurrentSignalValues
  rw [← hk] at hid ⊢
  have h1 : (keys m1)[(keys m1).indexOf id]? = some id := List.getElem?_indexOf hid
  simp only [keys] at h1 ⊢
  rw [List.getElem?_map] at h1 ⊢
  obtain ⟨p, hp, hpid⟩ := Option.map_eq_some'.1 h1
  rw [hp]
  have hmem : p ∈ m1 := List.getElem?_mem hp
  obtain ⟨k, s⟩ := p
  simp only at hpid
  subst hpid
  rw [sigAt_of_mem m1 hs k s hmem]
  rfl

/-! ## The enumeration loop -/

theorem gateAt_mem (gates : gate_map) (o : Nat) (gate : Gate)
    (h : gateAt gates o = some gate) : (o, gate) ∈ gates := by
  induction gates with
  | nil => simp [gateAt] at h
  | cons p rest ih =>
    obtain ⟨k, g⟩ := p
    by_cases hk : o = k
    · subst hk
      simp only [gateAt, if_true, Option.some.injEq] at h
      rw [h]; exact List.mem_cons_self _ _
    · simp only [gateAt, hk, if_false] at h
      exact List.mem_cons_of_mem _ (ih h)

theorem gateAt_of_mem (gates : gate_map) (hnd : (gates.map Prod.fst).Nodup) (o : Nat)
    (gate : Gate) (h : (o, gate) ∈ gates) : gateAt gates o = some gate := by
  induction gates with
  | nil => simp at h
  | cons p rest ih =>
    obtain ⟨k, g⟩ := p
    simp only [List.map_cons, List.nodup_cons] at hnd
    rcases List.mem_cons.1 h with heq | hmem
    · cases heq
      simp [gateAt]
    · have hne : o ≠ k := by
        rintro rfl
        exact hnd.1 (List.mem_map.2 ⟨(o, gate), hmem, rfl⟩)
      simp only [gateAt, hne, if_false]
      exact ih hnd.2 hmem

theorem binaryValue_valuesOf (m : signal_map) (ins : List Nat) :
    binaryValue (valuesOf m ins) = lsbValue (valuesOf m ins.reverse) := by
  simp [binaryValue, valuesOf, List.map_reverse]

/-- The loop of `execute`, started on a state whose primary inputs denote `2 ^ k - 1 - d`,
runs `d + 1` passes with any fuel of at least `d + 1`; pass `i` starts from a state
whose inputs denote `i` more than at the start and its row prints the state the pass
ends in. -/
theorem executeLoop_spec (gates : gate_map) (K : List Nat)
    (hgin : ∀ o gate, gateAt gates o = some gate → ∀ s ∈ gate.1, s ∈ K)
    (harity : ∀ o gate, gateAt gates o = some gate → validArity gate = true)
    (order ins : List Nat)
    (hord : ∀ o ∈ order, o ∈ K ∧ gatesContains gates o = true)
    (hnd : ins.Nodup) (hinsK : ∀ i ∈ ins, i ∈ K) (hdisj : ∀ i ∈ ins, i ∉ order)
    (d : Nat) (m : signal_map) (hs : KeysSorted m) (hk : keys m = K)
    (hd : binaryValue (valuesOf m ins) + d + 1 = 2 ^ ins.length)
    (fuel : Nat) (hfuel : d + 1 ≤ fuel) :
    ∃ rows mfin, executeLoop gates order ins fuel m = some (rows, mfin) ∧
      rows.length = d + 1 ∧
      ∀ i, i ≤ d → ∃ mpre mi, rows[i]? = some (printCurrentSignalValues mi) ∧
        evaluateAll gates order mpre = some mi ∧ KeysSorted mpre ∧ keys mpre = K ∧
        binaryValue (valuesOf mpre ins) = binaryValue (valuesOf m ins) + i := by
  induction d generalizing m fuel with
  | zero =>
    obtain ⟨f, rfl⟩ : ∃ f, fuel = f + 1 := ⟨fuel - 1, by omega⟩
    obtain ⟨m1, hrun, hs1, hk1, _, _, hv, _⟩ :=
      evaluateAll_spec gates K hgin harity order m hs hk hord
    have hvals : valuesOf m1 ins.reverse = valuesOf m ins.reverse :=
      valuesOf_congr m m1 _ (fun i hi => hv i (hdisj i (List.mem_reverse.1 hi)))
    obtain ⟨_, _, _, _, _, a6⟩ := nextCombinationLoop_spec ins.reverse
      (List.nodup_reverse.2 hnd) m1 hs1
      (fun i hi => by rw [hk1]; exact hinsK i (List.mem_reverse.1 hi))
    rw [hvals, ← binaryValue_valuesOf m ins, List.length_reverse] at a6
    have hlt := lsbValue_lt (valuesOf (nextCombinationLoop ins.reverse m1).2 ins.reverse)
    have hlen : (valuesOf (nextCombinationLoop ins.reverse m1).2 ins.reverse).length
        = ins.length := by simp [valuesOf]
    rw [hlen] at hlt
    have hfalse : (prepareNextCombination m1 ins).1 = false := by
      unfold prepareNextCombination
      cases hc : (nextCombinationLoop ins.reverse m1).1
      · rfl
      · rw [hc] at a6
        simp only [if_true] at a6
        omega
    refine ⟨[printCurrentSignalValues m1], (prepareNextCombination m1 ins).2, ?_, rfl, ?_⟩
    · simp [executeLoop, evaluateSignals, hrun, hfalse]
    · intro i hi
      have : i = 0 := by omega
      subst this
      exact ⟨m, m1, by simp, hrun, hs, hk, rfl⟩
  | succ d ih =>
    obtain ⟨f, rfl⟩ : ∃ f, fuel = f + 1 := ⟨fuel - 1, by omega⟩
    obtain ⟨m1, hrun, hs1, hk1, _, _, hv, _⟩ :=
      evaluateAll_spec gates K hgin harity order m hs hk hord
    have hvals : valuesOf m1 ins.reverse = valuesOf m ins.reverse :=
      valuesOf_congr m m1 _ (fun i hi => hv i (hdisj i (List.mem_reverse.1 hi)))
    obtain ⟨a1, a2, _, _, _, a6⟩ := nextCombinationLoop_spec ins.reverse
      (List.nodup_reverse.2 hnd) m1 hs1
      (fun i hi => by rw [hk1]; exact hinsK i (List.mem_reverse.1 hi))
    rw [hvals, ← binaryValue_valuesOf m ins,
      ← binaryValue_valuesOf (nextCombinationLoop ins.reverse m1).2 ins,
      List.length_reverse] at a6
    have htrue : (prepareNextCombination m1 ins).1 = true := by
      unfold prepareNextCombination
      cases hc : (nextCombinationLoop ins.reverse m1).1
      · rw [hc] at a6
        simp only [Bool.false_eq_true, if_false] at a6
        omega
      · rfl
    have hnext : binaryValue (valuesOf (prepareNextCombination m1 ins).2 ins) =
        binaryValue (valuesOf m ins) + 1 := by
      have hc : (nextCombinationLoop ins.reverse m1).1 = true := htrue
      rw [hc] at a6
      simpa [prepareNextCombination] using a6
    obtain ⟨rows, mfin, hloop, hlen, hrows⟩ := ih (prepareNextCombination m1 ins).2 a1
      (by rw [show keys (prepareNextCombination m1 ins).2 = keys m1 from a2, hk1])
      (by rw [hnext]; omega) f (by omega)
    refine ⟨printCurrentSignalValues m1 :: rows, mfin, ?_, by simp [hlen], ?_⟩
    · simp [executeLoop, evaluateSignals, hrun, htrue, hloop]
    · intro i hi
      cases i with
      | zero => exact ⟨m, m1, by simp, hrun, hs, hk, rfl⟩
      | succ i =>
        obtain ⟨mpre, mi, h1, h2, h3, h4, h5⟩ := hrows i (by omega)
        refine ⟨mpre, mi, by simpa using h1, h2, h3, h4, ?_⟩
        rw [h5, hnext]; omega

/-! ## A run of `execute` -/

theorem nodup_of_keysSorted (m : signal_map) (hs : KeysSorted m) : (keys m).Nodup :=
  List.Pairwise.imp (fun h => Nat.ne_of_lt h) hs

theorem nodup_getInputIds (m : signal_map) (hs : KeysSorted m) (gates : gate_map) :
    (getInputIds m gates).Nodup :=
  (nodup_of_keysSorted m hs).filter _

/-- A run on a circuit that the cycle finder reports acyclic: with enough fuel
`execute` returns, writes no diagnostic and `2 ^ k` rows, and row `i` prints the state
that one pass over the evaluation order leaves when started from a state whose primary
inputs denote `i`. -/
theorem execute_reported_acyclic (sort : sort_fn) (hsort : SortContract sort)
    (gates : gate_map) (hvalid : ∀ gateData ∈ gates, validArity gateData.2 = true)
    (fuel1 : Nat) (m1 : signal_map)
    (hrep : hasCircuitCycle fuel1 (getInputIds (buildSignals gates) gates)
      (buildSignals gates) = some (false, m1)) :
    ∃ fuel0, ∀ fuel, fuel0 ≤ fuel → ∃ order m2 rows mfin,
      setEvaluationLevels fuel (buildSignals gates)
        (getInputIds (buildSignals gates) gates) = some m2 ∧
      getEvaluationOrder sort fuel (buildSignals gates)
        (getInputIds (buildSignals gates) gates) = some (order, m2) ∧
      LevelsFrame (buildSignals gates) [] m2 ∧
      (∀ o ∈ order, o ∈ keys (buildSignals gates) ∧ gatesContains gates o = true) ∧
      (∀ i ∈ getInputIds (buildSignals gates) gates, i ∉ order) ∧
      execute sort fuel gates (buildSignals gates)
        = some { rows := rows, diagnostics := [], signals := mfin } ∧
      rows.length = 2 ^ (getInputIds (buildSignals gates) gates).length ∧
      ∀ i, i < 2 ^ (getInputIds (buildSignals gates) gates).length →
        ∃ mpre mi, rows[i]? = some (printCurrentSignalValues mi) ∧
          evaluateAll gates order mpre = some mi ∧ KeysSorted mpre ∧
          keys mpre = keys (buildSignals gates) ∧
          binaryValue (valuesOf mpre (getInputIds (buildSignals gates) gates)) = i := by
  have hsorted := keysSorted_buildSignals gates
  have hclosed : ∀ u, ∀ v ∈ (sigAt (buildSignals gates) u).users,
      v ∈ keys (buildSignals gates) :=
    fun u v hv => (gateEdge_mem_keys gates u v ((isUserOf_buildSignals gates v u).1 hv)).2.1
  -- the cycle finder
  obtain ⟨res, m1', hrunA, _, hsame, _, hacc⟩ :=
    hasCircuitCycle_spec (buildSignals gates) (getInputIds (buildSignals gates) gates)
      (keys (buildSignals gates)) (keys_closed_buildSignals gates)
      (getInputIds_subset_keys _ gates)
      (max fuel1 ((keys (buildSignals gates)).length + 1))
      (lt_of_lt_of_le (Nat.lt_succ_self _) (le_max_right _ _))
  have hrunA' := hasCircuitCycle_mono fuel1
    (max fuel1 ((keys (buildSignals gates)).length + 1)) (le_max_left _ _) _ _ _ hrep
  rw [hrunA] at hrunA'
  have hres : res = false := by
    have := congrArg Prod.fst (Option.some.inj hrunA')
    exact this
  have hm1 : m1' = buildSignals gates := hsame (fun _ hx => hx)
  rw [hres, hm1] at hrunA
  -- the levels
  obtain ⟨fuelB, m2, hrunB, hframe⟩ := levelsLoop_acc (buildSignals gates) hsorted hclosed
    (getInputIds (buildSignals gates) gates)
    (fun v hv => ⟨getInputIds_subset_keys _ gates v hv, hacc hres v hv⟩)
  refine ⟨max (max fuel1 ((keys (buildSignals gates)).length + 1))
    (max fuelB (2 ^ (getInputIds (buildSignals gates) gates).length)), fun fuel hfuel => ?_⟩
  have hfA : max fuel1 ((keys (buildSignals gates)).length + 1) ≤ fuel :=
    le_trans (le_max_left _ _) hfuel
  have hfB : fuelB ≤ fuel := le_trans (le_trans (le_max_left _ _) (le_max_right _ _)) hfuel
  have hfC : 2 ^ (getInputIds (buildSignals gates) gates).length ≤ fuel :=
    le_trans (le_trans (le_max_right _ _) (le_max_right _ _)) hfuel
  have hcyc := hasCircuitCycle_mono _ fuel hfA _ _ _ hrunA
  have hlev := levelsLoop_mono fuelB fuel hfB _ _ _ hrunB
  obtain ⟨order, hord, hmem, _⟩ :=
    getEvaluationOrder_spec sort hsort fuel _ m2 _ hframe.sorted hlev
  have hgate_of_pos : ∀ o, 0 < (sigAt m2 o).level → gatesContains gates o = true := by
    intro o ho
    by_contra hc
    have hfresh : ∀ u, o ∉ (sigAt (buildSignals gates) u).users := by
      intro u hu
      exact hc (gateEdge_mem_keys gates u o ((isUserOf_buildSignals gates o u).1 hu)).2.2
    rw [hframe.fresh o hfresh, sigAt_buildSignals] at ho
    exact lt_irrefl 0 ho
  have hpow : 0 < 2 ^ (getInputIds (buildSignals gates) gates).length := Nat.two_pow_pos _
  have hzero : binaryValue (valuesOf m2 (getInputIds (buildSignals gates) gates)) = 0 := by
    unfold binaryValue
    apply lsbValue_all_false
    intro b hb
    rw [List.mem_reverse] at hb
    obtain ⟨j, _, rfl⟩ := List.mem_map.1 hb
    rw [hframe.value j, sigAt_buildSignals]
  have hordK : ∀ o ∈ order, o ∈ keys (buildSignals gates) ∧ gatesContains gates o = true := by
    intro o ho
    have := (hmem o).1 ho
    exact ⟨by rw [← hframe.keys_eq]; exact this.1, hgate_of_pos o this.2⟩
  have hdisj : ∀ i ∈ getInputIds (buildSignals gates) gates, i ∉ order := by
    intro i hi ho
    have h1 := ((mem_getInputIds _ _ i).1 hi).2
    have h2 := hgate_of_pos i ((hmem i).1 ho).2
    rw [h1] at h2
    exact Bool.false_ne_true h2
  obtain ⟨rows, mfin, hloop, hlen, hrows⟩ := executeLoop_spec gates (keys (buildSignals gates))
    (fun o gate hg s hs =>
      (mem_keys_buildSignals gates s).2 ⟨(o, gate), gateAt_mem gates o gate hg, Or.inr hs⟩)
    (fun o gate hg => hvalid (o, gate) (gateAt_mem gates o gate hg))
    order (getInputIds (buildSignals gates) gates) hordK
    (nodup_getInputIds _ hsorted gates) (getInputIds_subset_keys _ gates) hdisj
    (2 ^ (getInputIds (buildSignals gates) gates).length - 1) m2 hframe.sorted hframe.keys_eq
    (by rw [hzero]; omega) fuel (by omega)
  refine ⟨order, m2, rows, mfin, hlev, hord, hframe, hordK, hdisj, ?_, by rw [hlen]; omega, ?_⟩
  · simp only [execute, hcyc, hord, hloop]
  · intro i hi
    obtain ⟨mpre, mi, h1, h2, h3, h4, h5⟩ := hrows i (by omega)
    exact ⟨mpre, mi, h1, h2, h3, h4, by rw [h5, hzero, Nat.zero_add]⟩

theorem digit_injective : Function.Injective (fun b : Bool => some (digit b)) := by
  intro a b h
  cases a <;> cases b <;> simp [digit] at h ⊢

/-- A row written by a pass: the digits of the primary inputs are the values the pass
started from. -/
theorem row_inputs (gates : gate_map) (K : List Nat) (m0 : signal_map) (hK : keys m0 = K)
    (hgin : ∀ o gate, gateAt gates o = some gate → ∀ s ∈ gate.1, s ∈ K)
    (harity : ∀ o gate, gateAt gates o = some gate → validArity gate = true)
    (order ins : List Nat)
    (hord : ∀ o ∈ order, o ∈ K ∧ gatesContains gates o = true)
    (hinsK : ∀ i ∈ ins, i ∈ K) (hdisj : ∀ i ∈ ins, i ∉ order)
    (mpre mi : signal_map) (hs : KeysSorted mpre) (hk : keys mpre = K)
    (hrun : evaluateAll gates order mpre = some mi) :
    ins.map (rowDigit m0 (printCurrentSignalValues mi)) =
      (valuesOf mpre ins).map (fun b => some (digit b)) := by
  obtain ⟨m1, hrun1, hs1, hk1, _, _, hv, _⟩ :=
    evaluateAll_spec gates K hgin harity order mpre hs hk hord
  rw [hrun] at hrun1
  have : mi = m1 := Option.some.inj hrun1
  subst this
  simp only [valuesOf, List.map_map]
  apply List.map_congr_left
  intro i hi
  rw [rowDigit_print m0 mi hs1 (by rw [hk1, hK]) i (by rw [hK]; exact hinsK i hi)]
  simp only [Function.comp]
  rw [hv i (hdisj i hi)]

/-- C3: on every circuit with gates of the grammar's arities that the cycle finder
reports acyclic, with `k` primary inputs and the signal map of graph construction (all
values false), `execute` returns for all large enough fuel and writes exactly `2 ^ k`
rows; in row `i` the digits of the primary inputs, read in ascending id order, are the
`k`-bit binary representation of `i`, most significant bit first; and the primary-input
digits of two different rows differ. -/
theorem execute_enumerates (sort : sort_fn) (hsort : SortContract sort)
    (gates : gate_map) (hvalid : ∀ gateData ∈ gates, validArity gateData.2 = true)
    (fuel1 : Nat) (m1 : signal_map)
    (hrep : hasCircuitCycle fuel1 (getInputIds (buildSignals gates) gates)
      (buildSignals gates) = some (false, m1)) :
    ∃ fuel0, ∀ fuel, fuel0 ≤ fuel → ∃ out,
      execute sort fuel gates (buildSignals gates) = some out ∧
      out.rows.length = 2 ^ (getInputIds (buildSignals gates) gates).length ∧
      (∀ (i : Nat) (row : List Char), out.rows[i]? = some row →
        (getInputIds (buildSignals gates) gates).map (rowDigit (buildSignals gates) row) =
          (toBits (getInputIds (buildSignals gates) gates).length i).map
            (fun b => some (digit b))) ∧
      (∀ (i j : Nat) (rowi rowj : List Char), out.rows[i]? = some rowi →
        out.rows[j]? = some rowj → i ≠ j →
        (getInputIds (buildSignals gates) gates).map (rowDigit (buildSignals gates) rowi) ≠
          (getInputIds (buildSignals gates) gates).map
            (rowDigit (buildSignals gates) rowj)) := by
  obtain ⟨fuel0, h⟩ := execute_reported_acyclic sort hsort gates hvalid fuel1 m1 hrep
  refine ⟨fuel0, fun fuel hfuel => ?_⟩
  obtain ⟨order, m2, rows, mfin, _, _, _, hordK, hdisj, hexec, hlen, hrows⟩ := h fuel hfuel
  have hbits : ∀ (i : Nat) (row : List Char), rows[i]? = some row →
      (getInputIds (buildSignals gates) gates).map (rowDigit (buildSignals gates) row) =
        (toBits (getInputIds (buildSignals gates) gates).length i).map
          (fun b => some (digit b)) := by
    intro i row hrow
    have hi : i < rows.length := (List.getElem?_eq_some.1 hrow).1
    obtain ⟨mpre, mi, h1, h2, h3, h4, h5⟩ := hrows i (by rw [← hlen]; exact hi)
    rw [hrow] at h1
    rw [Option.some.inj h1]
    rw [row_inputs gates (keys (buildSignals gates)) (buildSignals gates) rfl
      (fun o gate hg s hs =>
        (mem_keys_buildSignals gates s).2 ⟨(o, gate), gateAt_mem gates o gate hg, Or.inr hs⟩)
      (fun o gate hg => hvalid (o, gate) (gateAt_mem gates o gate hg))
      order _ hordK (getInputIds_subset_keys _ gates) hdisj mpre mi h3 h4 h2]
    have := eq_toBits (valuesOf mpre (getInputIds (buildSignals gates) gates)) i h5
    rw [this]
    simp [valuesOf]
  refine ⟨_, hexec, hlen, hbits, ?_⟩
  intro i j rowi rowj hi hj hij heq
  have hi' : i < rows.length := (List.getElem?_eq_some.1 hi).1
  have hj' : j < rows.length := (List.getElem?_eq_some.1 hj).1
  have hi2 : rows[i]? = some rowi := hi
  have hj2 : rows[j]? = some rowj := hj
  rw [hbits i rowi hi2, hbits j rowj hj2] at heq
  have := List.map_injective_iff.2 digit_injective heq
  exact hij (toBits_injective _ i j (by rw [← hlen]; exact hi') (by rw [← hlen]; exact hj') this)

/-- C3 on the sample circuit, with insertion sort. -/
theorem execute_enumerates_witness :
    ∃ fuel0, ∀ fuel, fuel0 ≤ fuel → ∃ out,
      execute insertionSortBy fuel sampleGates (buildSignals sampleGates) = some out ∧
      out.rows.length = 2 ^ (getInputIds (buildSignals sampleGates) sampleGates).length ∧
      (∀ (i : Nat) (row : List Char), out.rows[i]? = some row →
        (getInputIds (buildSignals sampleGates) sampleGates).map
            (rowDigit (buildSignals sampleGates) row) =
          (toBits (getInputIds (buildSignals sampleGates) sampleGates).length i).map
            (fun b => some (digit b))) ∧
      (∀ (i j : Nat) (rowi rowj : List Char), out.rows[i]? = some rowi →
        out.rows[j]? = some rowj → i ≠ j →
        (getInputIds (buildSignals sampleGates) sampleGates).map
            (rowDigit (buildSignals sampleGates) rowi) ≠
          (getInputIds (buildSignals sampleGates) sampleGates).map
            (rowDigit (buildSignals sampleGates) rowj)) :=
  execute_enumerates insertionSortBy sortContract_insertionSortBy sampleGates (by decide) 6
    (buildSignals sampleGates)
    (hasCircuitCycle_acyclic sampleGates (acyclic_of_inputs_lt sampleGates (by decide))
      (by decide) 6 (by decide))

theorem inputs_ne_nil_of_validArity (gate : Gate) (h : validArity gate = true) :
    gate.1 ≠ [] := by
  obtain ⟨ids, kind⟩ := gate
  rintro rfl
  cases kind <;> simp [validArity] at h

/-- C10: on every acyclic circuit with gates of the grammar's arities and no primary
input, `execute` returns for all large enough fuel and writes exactly one row; and
`prepareNextCombination` on an empty primary-input set returns false and leaves the
signal map as it was. -/
theorem execute_no_inputs (sort : sort_fn) (hsort : SortContract sort)
    (gates : gate_map) (hvalid : ∀ gateData ∈ gates, validArity gateData.2 = true)
    (hac : Acyclic gates) (hk : getInputIds (buildSignals gates) gates = []) :
    (∀ m, prepareNextCombination m [] = (false, m)) ∧
    ∃ fuel0, ∀ fuel, fuel0 ≤ fuel → ∃ out,
      execute sort fuel gates (buildSignals gates) = some out ∧ out.rows.length = 1 := by
  refine ⟨fun m => rfl, ?_⟩
  have hrep := hasCircuitCycle_acyclic gates hac
    (fun gd hgd => inputs_ne_nil_of_validArity gd.2 (hvalid gd hgd))
    ((keys (buildSignals gates)).length + 1) (Nat.lt_succ_self _)
  obtain ⟨fuel0, h⟩ := execute_reported_acyclic sort hsort gates hvalid _ _ hrep
  refine ⟨fuel0, fun fuel hfuel => ?_⟩
  obtain ⟨order, m2, rows, mfin, _, _, _, _, _, hexec, hlen, _⟩ := h fuel hfuel
  exact ⟨_, hexec, by rw [hlen, hk]; rfl⟩

/-- C10 on the circuit without gates. -/
theorem execute_no_inputs_witness :
    (∀ m, prepareNextCombination m [] = (false, m)) ∧
    ∃ fuel0, ∀ fuel, fuel0 ≤ fuel → ∃ out,
      execute insertionSortBy fuel [] (buildSignals []) = some out ∧ out.rows.length = 1 :=
  execute_no_inputs insertionSortBy sortContract_insertionSortBy [] (by decide)
    (acyclic_of_inputs_lt [] (by decide)) (by decide)

/-! ## Rows of an acyclic circuit -/

theorem getEvaluationOrder_nodup (sort : sort_fn) (hsort : SortContract sort) (fuel : Nat)
    (m0 m1 : signal_map) (inputs order : List Nat) (hs : KeysSorted m1)
    (h : getEvaluationOrder sort fuel m0 inputs = some (order, m1)) : order.Nodup := by
  unfold getEvaluationOrder at h
  cases hl : setEvaluationLevels fuel m0 inputs with
  | none => simp [hl] at h
  | some m2 =>
    simp only [hl, Option.some.injEq, Prod.mk.injEq] at h
    obtain ⟨h1, h2⟩ := h
    subst h2
    rw [← h1]
    have hperm := ((hsort (getEvaluationLevels m2)).1).map Prod.fst
    rw [hperm.nodup_iff]
    have hsub : ((getEvaluationLevels m2).map Prod.fst).Sublist (keys m2) := by
      unfold getEvaluationLevels keys
      rw [List.map_map]
      exact (List.filter_sublist _).map Prod.fst
    exact (nodup_of_keysSorted m2 hs).sublist hsub

theorem evalOrdered_of_levels (gates : gate_map) (lev : Nat → Nat)
    (hlev : ∀ s o, GateEdge gates s o → lev s < lev o) (order : List Nat)
    (hnd : order.Nodup)
    (hpos : ∀ (i j s o : Nat), order[i]? = some s → order[j]? = some o →
      lev s < lev o → i < j) : EvalOrdered gates order := by
  induction order with
  | nil => trivial
  | cons id rest ih =>
    obtain ⟨hnotin, hnd'⟩ := List.nodup_cons.1 hnd
    refine ⟨?_, hnotin, ih hnd' ?_⟩
    · intro gate hg s hs
      have hedge : GateEdge gates s id := ⟨gate, gateAt_mem gates id gate hg, hs⟩
      have hlt := hlev s id hedge
      refine ⟨fun e => ?_, fun hin => ?_⟩
      · rw [e] at hlt; exact lt_irrefl _ hlt
      · obtain ⟨j, hj⟩ := List.getElem?_of_mem hin
        have := hpos (j + 1) 0 s id (by simpa using hj) (by simp) hlt
        exact Nat.not_lt_zero _ this
    · intro i j s o hi hj hlt
      have := hpos (i + 1) (j + 1) s o (by simpa using hi) (by simpa using hj) hlt
      omega

/-- C2: on every acyclic circuit (gates of the grammar's arities, no two gates with the
same output, ids that fit `uint32_t`, the signal map of graph construction with all
values false) `execute` returns for all large enough fuel, and every row it writes
holds the resulting value of every signal: for every gate, each input of the gate has a
digit in the row, and the digit of the gate's output is the result of
`GateExecutor::evaluate` of the gate on any signal map whose values at the gate's inputs
are the digits of the row. -/
theorem execute_rows_consistent (sort : sort_fn) (hsort : SortContract sort)
    (gates : gate_map) (hac : Acyclic gates)
    (hvalid : ∀ gateData ∈ gates, validArity gateData.2 = true)
    (hnd : (gates.map Prod.fst).Nodup) (hr : IdsInRange gates) :
    ∃ fuel0, ∀ fuel, fuel0 ≤ fuel → ∃ out,
      execute sort fuel gates (buildSignals gates) = some out ∧
      ∀ row ∈ out.rows, ∀ o gate, (o, gate) ∈ gates →
        (∀ s ∈ gate.1, ∃ c, rowDigit (buildSignals gates) row s = some (digit c)) ∧
        ∃ b, rowDigit (buildSignals gates) row o = some (digit b) ∧
          ∀ m, (∀ s ∈ gate.1,
              rowDigit (buildSignals gates) row s = some (digit (sigAt m s).value)) →
            (evaluate gate m).map Prod.fst = some b := by
  have hin : ∀ gd ∈ gates, gd.2.1 ≠ [] :=
    fun gd hgd => inputs_ne_nil_of_validArity gd.2 (hvalid gd hgd)
  have hrep := hasCircuitCycle_acyclic gates hac hin
    ((keys (buildSignals gates)).length + 1) (Nat.lt_succ_self _)
  obtain ⟨fuelA, hA⟩ := execute_reported_acyclic sort hsort gates hvalid _ _ hrep
  obtain ⟨fuelB, m2', hrunB, _, hlev, _⟩ := setEvaluationLevels_acyclic gates hac hin hr
  refine ⟨max fuelA fuelB, fun fuel hfuel => ?_⟩
  obtain ⟨order, m2, rows, mfin, hrun, hord, hframe, hordK, hdisj, hexec, hlen, hrows⟩ :=
    hA fuel (le_trans (le_max_left _ _) hfuel)
  have hrunB' := levelsLoop_mono fuelB fuel (le_trans (le_max_right _ _) hfuel) _ _ _ hrunB
  have hm2 : m2' = m2 := by
    have : setEvaluationLevels fuel (buildSignals gates)
        (getInputIds (buildSignals gates) gates) = some m2' := hrunB'
    rw [hrun] at this
    exact (Option.some.inj this).symm
  subst hm2
  obtain ⟨order', hord', hmem, hpos⟩ :=
    getEvaluationOrder_spec sort hsort fuel _ m2' _ hframe.sorted hrun
  have hoo : order' = order := by
    rw [hord] at hord'
    exact (congrArg Prod.fst (Option.some.inj hord')).symm
  subst hoo
  have hnodup := getEvaluationOrder_nodup sort hsort fuel _ m2' _ order' hframe.sorted hord
  have htopo : EvalOrdered gates order' :=
    evalOrdered_of_levels gates (fun j => (sigAt m2' j).level) hlev order' hnodup hpos
  have hgin : ∀ o gate, gateAt gates o = some gate → ∀ s ∈ gate.1,
      s ∈ keys (buildSignals gates) :=
    fun o gate hg s hs =>
      (mem_keys_buildSignals gates s).2 ⟨(o, gate), gateAt_mem gates o gate hg, Or.inr hs⟩
  have harity : ∀ o gate, gateAt gates o = some gate → validArity gate = true :=
    fun o gate hg => hvalid (o, gate) (gateAt_mem gates o gate hg)
  refine ⟨_, hexec, ?_⟩
  intro row hrow o gate hg
  obtain ⟨i, hi⟩ := List.getElem?_of_mem hrow
  have hi' : i < rows.length := (List.getElem?_eq_some.1 hi).1
  obtain ⟨mpre, mi, h1, h2, h3, h4, _⟩ := hrows i (by rw [← hlen]; exact hi')
  have hi2 : rows[i]? = some row := hi
  rw [hi2] at h1
  have hrowe : row = printCurrentSignalValues mi := Option.some.inj h1
  obtain ⟨m1, hrun1, hs1, hk1, _, _, _, hgate⟩ :=
    evaluateAll_spec gates (keys (buildSignals gates)) hgin harity order' mpre h3 h4 hordK
  rw [h2] at hrun1
  have hmi : mi = m1 := Option.some.inj hrun1
  subst hmi
  obtain ⟨s0, hs0⟩ := List.exists_mem_of_ne_nil _ (hin (o, gate) hg)
  have hedge0 : GateEdge gates s0 o := ⟨gate, hg, hs0⟩
  have hoK : o ∈ keys (buildSignals gates) := (gateEdge_mem_keys gates s0 o hedge0).2.1
  have hoord : o ∈ order' := by
    rw [hmem, hframe.keys_eq]
    have := hlev s0 o hedge0
    exact ⟨hoK, by omega⟩
  have hdig : ∀ s, s ∈ keys (buildSignals gates) →
      rowDigit (buildSignals gates) row s = some (digit (sigAt mi s).value) := by
    intro s hs
    rw [hrowe]
    exact rowDigit_print (buildSignals gates) mi hs1 hk1 s hs
  have hsK : ∀ s ∈ gate.1, s ∈ keys (buildSignals gates) :=
    fun s hs => (gateEdge_mem_keys gates s o ⟨gate, hg, hs⟩).1
  refine ⟨fun s hs => ⟨_, hdig s (hsK s hs)⟩, (sigAt mi o).value, hdig o hoK, ?_⟩
  intro m hm
  rw [← hgate htopo o hoord gate (gateAt_of_mem gates hnd o gate hg)]
  apply evaluate_congr
  intro s hs
  have := hm s hs
  rw [hdig s (hsK s hs)] at this
  exact (digit_injective this).symm

/-- C2 on the sample circuit, with insertion sort. -/
theorem execute_rows_consistent_witness :
    ∃ fuel0, ∀ fuel, fuel0 ≤ fuel → ∃ out,
      execute insertionSortBy fuel sampleGates (buildSignals sampleGates) = some out ∧
      ∀ row ∈ out.rows, ∀ o gate, (o, gate) ∈ sampleGates →
        (∀ s ∈ gate.1, ∃ c, rowDigit (buildSignals sampleGates) row s = some (digit c)) ∧
        ∃ b, rowDigit (buildSignals sampleGates) row o = some (digit b) ∧
          ∀ m, (∀ s ∈ gate.1,
              rowDigit (buildSignals sampleGates) row s = some (digit (sigAt m s).value)) →
            (evaluate gate m).map Prod.fst = some b :=
  execute_rows_consistent insertionSortBy sortContract_insertionSortBy sampleGates
    (acyclic_of_inputs_lt sampleGates (by decide)) (by decide) (by decide)
    (by unfold IdsInRange; decide)

/-! ## A run on a circuit reported cyclic -/

theorem orAll_sigAt (call : Nat → TraversalState → Option (Bool × TraversalState))
    (h : ∀ id st r, call id st = some r → ∀ j, sigAt r.2.signals j = sigAt st.signals j)
    (ids : List Nat) (res : Bool) (st : TraversalState) (r : Bool × TraversalState)
    (hr : orAll call ids res st = some r) (j : Nat) :
    sigAt r.2.signals j = sigAt st.signals j := by
  induction ids generalizing res st with
  | nil =>
    simp only [orAll, Option.some.injEq] at hr
    rw [← hr]
  | cons id rest ih =>
    simp only [orAll] at hr
    cases hc : call id st with
    | none => simp [hc] at hr
    | some x =>
      rw [hc] at hr
      rw [ih _ _ hr, h id st x hc j]

/-- The traversal changes no signal: it can only create signals that `signals[id]`
would read as fresh anyway. -/
theorem existsCycle_sigAt (fuel : Nat) (cur : Nat) (st : TraversalState)
    (r : Bool × TraversalState) (h : existsCycle fuel cur st = some r) (j : Nat) :
    sigAt r.2.signals j = sigAt st.signals j := by
  induction fuel generalizing cur st r j with
  | zero => simp [existsCycle] at h
  | succ n ih =>
    rw [existsCycle_eq] at h
    by_cases hp : st.visitedInCurrentTraversal cur = true
    · simp only [hp, if_true, Option.some.injEq] at h
      rw [← h]
    · by_cases hv : st.visited cur = true
      · simp only [hp, hv, if_true, if_false, Bool.false_eq_true, Option.some.injEq] at h
        rw [← h]
      · simp only [hp, hv, if_false, Bool.false_eq_true] at h
        cases hc : orAll (existsCycle n) (sigAt st.signals cur).users false
            { signals := touch st.signals cur
              visited := Function.update st.visited cur true
              visitedInCurrentTraversal :=
                Function.update st.visitedInCurrentTraversal cur true } with
        | none => simp [hc] at h
        | some x =>
          rw [hc] at h
          simp only [Option.some.injEq] at h
          rw [← h]
          have := orAll_sigAt (existsCycle n) (fun id st r hr j => ih id st r hr j) _ _ _ x hc j
          simp only at this ⊢
          rw [this, sigAt_touch]

theorem hasCircuitCycle_sigAt (fuel : Nat) (inputs : List Nat) (m : signal_map)
    (r : Bool × signal_map) (h : hasCircuitCycle fuel inputs m = some r) (j : Nat) :
    sigAt r.2 j = sigAt m j := by
  simp only [hasCircuitCycle] at h
  by_cases hsp : (!m.isEmpty && inputs.isEmpty) = true
  · simp only [hsp, if_true, Option.some.injEq] at h
    rw [← h]
  · simp only [hsp, if_false, Bool.false_eq_true] at h
    cases hc : orAll (existsCycle fuel) inputs false
        { signals := m, visited := getVisitedMap m,
          visitedInCurrentTraversal := getVisitedMap m } with
    | none => simp [hc] at h
    | some x =>
      rw [hc] at h
      simp only [Option.some.injEq] at h
      rw [← h]
      exact orAll_sigAt (existsCycle fuel)
        (fun id st r hr j => existsCycle_sigAt fuel id st r hr j) _ _ _ x hc j

/-- C11: on every circuit for which `CycleFinder::hasCircuitCycle` returns true,
`Nysa::execute` returns having written exactly one diagnostic line and no row, and
having run no evaluation pass: every signal reads as before the call, value, fan-out
and level. -/
theorem execute_cyclic (sort : sort_fn) (fuel : Nat) (gates : gate_map)
    (signals signals1 : signal_map)
    (h : hasCircuitCycle fuel (getInputIds signals gates) signals = some (true, signals1)) :
    ∃ out, execute sort fuel gates signals = some out ∧
      out.rows = [] ∧
      out.diagnostics = ["Error: sequential logic analysis has not yet been implemented."] ∧
      ∀ j, sigAt out.signals j = sigAt signals j := by
  refine ⟨{ rows := []
            diagnostics := ["Error: sequential logic analysis has not yet been implemented."]
            signals := signals1 }, by simp only [execute, h], rfl, rfl, ?_⟩
  intro j
  exact hasCircuitCycle_sigAt fuel _ signals _ h j

/-- C11 on two AND gates that feed each other. -/
theorem execute_cyclic_witness :
    ∃ out, execute insertionSortBy 4 loopGates (buildSignals loopGates) = some out ∧
      out.rows = [] ∧
      out.diagnostics = ["Error: sequential logic analysis has not yet been implemented."] ∧
      ∀ j, sigAt out.signals j = sigAt (buildSignals loopGates) j :=
  execute_cyclic insertionSortBy 4 loopGates (buildSignals loopGates)
    (buildSignals loopGates) (by decide)

/-! ## Parsing a gate line -/

theorem gateAt_gatesAssign_self (gates : gate_map) (id : Nat) (gate : Gate) :
    gateAt (gatesAssign gates id gate) id = some gate := by
  induction gates with
  | nil => simp [gatesAssign, gateAt]
  | cons p rest ih =>
    obtain ⟨k, g0⟩ := p
    by_cases h : id = k
    · subst h; simp [gatesAssign, gateAt]
    · simp [gatesAssign, gateAt, h, ih]

theorem gateAt_gatesAssign_ne (gates : gate_map) (id j : Nat) (gate : Gate) (h : j ≠ id) :
    gateAt (gatesAssign gates id gate) j = gateAt gates j := by
  induction gates with
  | nil => simp [gatesAssign, gateAt, h]
  | cons p rest ih =>
    obtain ⟨k, g0⟩ := p
    by_cases hk : id = k
    · subst hk; simp [gatesAssign, gateAt, h]
    · by_cases hj : j = k
      · simp [gatesAssign, gateAt, hk, hj]
      · simp [gatesAssign, gateAt, hk, hj, ih]

/-! ## What graph construction builds -/

theorem count_fanOut_of_not_mem (gates : gate_map) (s o : Nat)
    (h : o ∉ gates.map Prod.fst) : (fanOut gates s).count o = 0 := by
  rw [List.count_eq_zero]
  intro hmem
  obtain ⟨gate, hg, _⟩ := (mem_fanOut gates s o).1 hmem
  exact h (List.mem_map.2 ⟨(o, gate), hg, rfl⟩)

theorem count_fanOut (gates : gate_map) (hnd : (gates.map Prod.fst).Nodup) (s o : Nat)
    (gate : Gate) (hg : (o, gate) ∈ gates) : (fanOut gates s).count o = gate.1.count s := by
  induction gates with
  | nil => simp at hg
  | cons gd rest ih =>
    simp only [List.map_cons, List.nodup_cons] at hnd
    simp only [fanOut, List.count_append, List.count_replicate]
    rcases List.mem_cons.1 hg with heq | hmem
    · subst heq
      simp only [beq_self_eq_true, if_true]
      rw [count_fanOut_of_not_mem rest s o hnd.1, Nat.add_zero]
    · have hne : gd.1 ≠ o := by
        intro e
        exact hnd.1 (List.mem_map.2 ⟨(o, gate), hmem, e.symm⟩)
      have hb : (gd.1 == o) = false := by simpa using hne
      simp only [hb, Bool.false_eq_true, if_false, Nat.zero_add]
      exact ih hnd.2 hmem

/-- C13: for every gate table, after graph construction (`addAllSignals`, then
`setAllSignalsUsers`, from an empty signal map) the signal ids are exactly the output
ids and the input ids of the gates, every signal has value false and level 0, and for
every signal `s` and gate output `o` the users list of `s` holds `o` as many times as
the input list of gate `o` holds `s`; so `o` is a user of `s` exactly when `s` is an
input of gate `o`. -/
theorem graph_construction (gates : gate_map) (hnd : (gates.map Prod.fst).Nodup) :
    buildSignals gates = setAllSignalsUsers (addAllSignals [] gates) gates ∧
    (∀ id, id ∈ keys (buildSignals gates) ↔
      ∃ gateData ∈ gates, id = gateData.1 ∨ id ∈ gateData.2.1) ∧
    (∀ p ∈ buildSignals gates, p.2.value = false ∧ p.2.level = 0) ∧
    (∀ s o gate, (o, gate) ∈ gates →
      (sigAt (buildSignals gates) s).users.count o = gate.1.count s) ∧
    (∀ s o, o ∈ (sigAt (buildSignals gates) s).users ↔
      ∃ gate, (o, gate) ∈ gates ∧ s ∈ gate.1) := by
  refine ⟨rfl, mem_keys_buildSignals gates, ?_, ?_, ?_⟩
  · intro p hp
    obtain ⟨k, sgn⟩ := p
    have := sigAt_of_mem _ (keysSorted_buildSignals gates) k sgn hp
    rw [sigAt_buildSignals] at this
    rw [← this]
    exact ⟨rfl, rfl⟩
  · intro s o gate hg
    rw [sigAt_buildSignals]
    exact count_fanOut gates hnd s o gate hg
  · intro s o
    exact isUserOf_buildSignals gates o s

/-- C13 on the diamond circuit, whose gate `5` lists the input `4` twice. -/
theorem graph_construction_witness :
    buildSignals diamondGates = setAllSignalsUsers (addAllSignals [] diamondGates) diamondGates ∧
    (∀ id, id ∈ keys (buildSignals diamondGates) ↔
      ∃ gateData ∈ diamondGates, id = gateData.1 ∨ id ∈ gateData.2.1) ∧
    (∀ p ∈ buildSignals diamondGates, p.2.value = false ∧ p.2.level = 0) ∧
    (∀ s o gate, (o, gate) ∈ diamondGates →
      (sigAt (buildSignals diamondGates) s).users.count o = gate.1.count s) ∧
    (∀ s o, o ∈ (sigAt (buildSignals diamondGates) s).users ↔
      ∃ gate, (o, gate) ∈ diamondGates ∧ s ∈ gate.1) :=
  graph_construction diamondGates (by decide)

/-! ## The layout of a row -/

theorem indexOf_eq_countP_lt (l : List Nat) (hs : l.Pairwise (fun a b => a < b)) (id : Nat)
    (hid : id ∈ l) : l.indexOf id = l.countP (fun k => decide (k < id)) := by
  induction l with
  | nil => simp at hid
  | cons a rest ih =>
    rw [List.pairwise_cons] at hs
    by_cases ha : a = id
    · subst ha
      rw [List.indexOf_cons_self]
      symm
      rw [List.countP_eq_zero]
      intro k hk
      rcases List.mem_cons.1 hk with rfl | hk
      · simp
      · have := hs.1 k hk
        simp only [decide_eq_true_eq, not_lt]
        omega
    · have hid' : id ∈ rest := by
        rcases List.mem_cons.1 hid with h | h
        · exact absurd h.symm ha
        · exact h
      have hlt := hs.1 id hid'
      rw [List.indexOf_cons_ne _ ha, ih hs.2 hid', List.countP_cons]
      simp [hlt]

theorem length_printCurrentSignalValues (m : signal_map) :
    (printCurrentSignalValues m).length = m.length := by
  simp [printCurrentSignalValues]

/-- With enough fuel `execute` returns on every circuit with the grammar's arities, and
each row it writes prints a signal map with the keys of the circuit. -/
theorem execute_rows_print (sort : sort_fn) (hsort : SortContract sort)
    (gates : gate_map) (hvalid : ∀ gateData ∈ gates, validArity gateData.2 = true) :
    ∃ fuel0, ∀ fuel, fuel0 ≤ fuel → ∃ out,
      execute sort fuel gates (buildSignals gates) = some out ∧
      ∀ row ∈ out.rows, ∃ mi, row = printCurrentSignalValues mi ∧ KeysSorted mi ∧
        keys mi = keys (buildSignals gates) := by
  obtain ⟨res, m1, hrun, _, hsame, _, _⟩ :=
    hasCircuitCycle_spec (buildSignals gates) (getInputIds (buildSignals gates) gates)
      (keys (buildSignals gates)) (keys_closed_buildSignals gates)
      (getInputIds_subset_keys _ gates) ((keys (buildSignals gates)).length + 1)
      (Nat.lt_succ_self _)
  cases res with
  | true =>
    refine ⟨(keys (buildSignals gates)).length + 1, fun fuel hfuel => ?_⟩
    have h := hasCircuitCycle_mono _ fuel hfuel _ _ _ hrun
    refine ⟨{ rows := []
              diagnostics := ["Error: sequential logic analysis has not yet been implemented."]
              signals := m1 }, by simp only [execute, h], ?_⟩
    intro row hrow
    simp at hrow
  | false =>
    obtain ⟨fuel0, h⟩ := execute_reported_acyclic sort hsort gates hvalid _ _ hrun
    refine ⟨fuel0, fun fuel hfuel => ?_⟩
    obtain ⟨order, m2, rows, mfin, _, _, _, hordK, _, hexec, hlen, hrows⟩ := h fuel hfuel
    refine ⟨_, hexec, ?_⟩
    intro row hrow
    obtain ⟨i, hi⟩ := List.getElem?_of_mem hrow
    have hi' : i < rows.length := (List.getElem?_eq_some.1 hi).1
    obtain ⟨mpre, mi, h1, h2, h3, h4, _⟩ := hrows i (by rw [← hlen]; exact hi')
    have hi2 : rows[i]? = some row := hi
    rw [hi2] at h1
    obtain ⟨m1', hrun1, hs1, hk1, _⟩ :=
      evaluateAll_spec gates (keys (buildSignals gates))
        (fun o gate hg s hs =>
          (mem_keys_buildSignals gates s).2 ⟨(o, gate), gateAt_mem gates o gate hg, Or.inr hs⟩)
        (fun o gate hg => hvalid (o, gate) (gateAt_mem gates o gate hg))
        order mpre h3 h4 hordK
    rw [h2] at hrun1
    have hmi : mi = m1' := Option.some.inj hrun1
    subst hmi
    exact ⟨mi, Option.some.inj h1, hs1, hk1⟩

/-- C14: for every signal map (its keys ascend) the row `printCurrentSignalValues`
writes has exactly one digit per signal, and the digit of a signal stands at the
position that is the number of signals with a smaller id, so the `j`-th digit is the
current value of the signal with the `j`-th smallest id; and with enough fuel `execute`
returns on every circuit with the grammar's arities, each row it writes having as many
digits as the circuit has signals and being such a print of a signal map with the
signal ids of the circuit. -/
theorem rows_layout (sort : sort_fn) (hsort : SortContract sort)
    (gates : gate_map) (hvalid : ∀ gateData ∈ gates, validArity gateData.2 = true) :
    (∀ signals : signal_map, KeysSorted signals →
      (printCurrentSignalValues signals).length = signals.length ∧
      ∀ id ∈ keys signals,
        (printCurrentSignalValues signals)[(keys signals).countP (fun k => decide (k < id))]?
          = some (digit (sigAt signals id).value)) ∧
    ∃ fuel0, ∀ fuel, fuel0 ≤ fuel → ∃ out,
      execute sort fuel gates (buildSignals gates) = some out ∧
      ∀ row ∈ out.rows, row.length = (buildSignals gates).length ∧
        ∃ mi, row = printCurrentSignalValues mi ∧ keys mi = keys (buildSignals gates) := by
  refine ⟨?_, ?_⟩
  · intro signals hs
    refine ⟨length_printCurrentSignalValues signals, fun id hid => ?_⟩
    rw [← indexOf_eq_countP_lt (keys signals) hs id hid]
    exact rowDigit_print signals signals hs rfl id hid
  · obtain ⟨fuel0, h⟩ := execute_rows_print sort hsort gates hvalid
    refine ⟨fuel0, fun fuel hfuel => ?_⟩
    obtain ⟨out, hexec, hrows⟩ := h fuel hfuel
    refine ⟨out, hexec, fun row hrow => ?_⟩
    obtain ⟨mi, hrow', _, hk⟩ := hrows row hrow
    refine ⟨?_, mi, hrow', hk⟩
    rw [hrow', length_printCurrentSignalValues]
    have := congrArg List.length hk
    simpa [keys] using this

/-- C14 on the sample circuit, with insertion sort: the print of its initial signal map,
and the rows of its run. -/
theorem rows_layout_witness :
    ((printCurrentSignalValues (buildSignals sampleGates)).length
        = (buildSignals sampleGates).length ∧
      ∀ id ∈ keys (buildSignals sampleGates),
        (printCurrentSignalValues (buildSignals sampleGates))[
            (keys (buildSignals sampleGates)).countP (fun k => decide (k < id))]?
          = some (digit (sigAt (buildSignals sampleGates) id).value)) ∧
    ∃ fuel0, ∀ fuel, fuel0 ≤ fuel → ∃ out,
      execute insertionSortBy fuel sampleGates (buildSignals sampleGates) = some out ∧
      ∀ row ∈ out.rows, row.length = (buildSignals sampleGates).length ∧
        ∃ mi, row = printCurrentSignalValues mi ∧ keys mi = keys (buildSignals sampleGates) :=
  ⟨(rows_layout insertionSortBy sortContract_insertionSortBy sampleGates (by decide)).1
      (buildSignals sampleGates) (keysSorted_buildSignals sampleGates),
   (rows_layout insertionSortBy sortContract_insertionSortBy sampleGates (by decide)).2⟩

/-! ## What enumeration leaves unchanged -/

theorem calculateSignalValue_inv (gates : gate_map) (id : Nat) (m m1 : signal_map)
    (hgin : ∀ o gate, gateAt gates o = some gate → ∀ s ∈ gate.1, s ∈ keys m)
    (h : calculateSignalValue id m gates = some m1) :
    gatesContains gates id = true ∧ id ∈ keys m ∧
      ∃ b, m1 = assign m id { sigAt m id with value := b } := by
  unfold calculateSignalValue at h
  cases hg : gateAt gates id with
  | none => simp [hg] at h
  | some gate =>
    simp only [hg] at h
    cases he : evaluate gate m with
    | none => simp [he] at h
    | some r =>
      obtain ⟨b, mx⟩ := r
      have hmx : mx = m := evaluate_snd gate m (hgin id gate hg) (b, mx) he
      subst hmx
      simp only [he] at h
      cases hl : lookup mx id with
      | none => simp [hl] at h
      | some s =>
        simp only [hl, Option.some.injEq] at h
        refine ⟨by simp [gatesContains, hg],
          (lookup_isSome_iff_mem_keys mx id).1 (by simp [hl]), b, ?_⟩
        rw [← h]
        simp [sigAt, hl]

/-- A pass that returns changed nothing but values of gate outputs. -/
theorem evaluateAll_frame (gates : gate_map) (order : List Nat) (m m1 : signal_map)
    (hs : KeysSorted m)
    (hgin : ∀ o gate, gateAt gates o = some gate → ∀ s ∈ gate.1, s ∈ keys m)
    (h : evaluateAll gates order m = some m1) :
    KeysSorted m1 ∧ keys m1 = keys m ∧
      (∀ j, (sigAt m1 j).users = (sigAt m j).users) ∧
      (∀ j, (sigAt m1 j).level = (sigAt m j).level) ∧
      (∀ j, gatesContains gates j = false → (sigAt m1 j).value = (sigAt m j).value) := by
  induction order generalizing m with
  | nil =>
    simp only [evaluateAll, Option.some.injEq] at h
    subst h
    exact ⟨hs, rfl, fun _ => rfl, fun _ => rfl, fun _ _ => rfl⟩
  | cons id rest ih =>
    simp only [evaluateAll] at h
    cases hc : calculateSignalValue id m gates with
    | none => simp [hc] at h
    | some mx =>
      simp only [hc] at h
      obtain ⟨hidg, hidk, b, hmx⟩ := calculateSignalValue_inv gates id m mx hgin hc
      subst hmx
      have hk : keys (assign m id { sigAt m id with value := b }) = keys m :=
        keys_assign_of_mem m hs id _ hidk
      have hsig : ∀ j, sigAt (assign m id { sigAt m id with value := b }) j =
          if j = id then { sigAt m id with value := b } else sigAt m j := by
        intro j
        by_cases hj : j = id
        · subst hj; simp [sigAt_assign_self]
        · simp [hj, sigAt_assign_ne m id j _ hj]
      obtain ⟨a1, a2, a3, a4, a5⟩ := ih _ (keysSorted_assign m hs id _)
        (fun o gate hg s hs' => by rw [hk]; exact hgin o gate hg s hs') h
      refine ⟨a1, by rw [a2, hk], ?_, ?_, ?_⟩
      · intro j
        rw [a3 j, hsig j]
        split
        · rename_i e; rw [e]
        · rfl
      · intro j
        rw [a4 j, hsig j]
        split
        · rename_i e; rw [e]
        · rfl
      · intro j hj
        have hne : j ≠ id := by
          rintro rfl
          rw [hidg] at hj
          exact Bool.noConfusion hj
        rw [a5 j hj, hsig j]
        simp [hne]

/-- C15: during enumeration only current values change. In every state of a circuit
built by graph construction (a signal map with ascending keys that holds every gate
input id), an evaluation pass `evaluateSignals` that returns and an increment step
`prepareNextCombination` leave the signal ids, every fan-out list and every evaluation
level as they were; the evaluation pass leaves the value of every primary input as it
was, and the increment step the value of every signal that is not a primary input. -/
theorem enumeration_frame (gates : gate_map) (signals : signal_map)
    (hs : KeysSorted signals)
    (hgin : ∀ gateData ∈ gates, ∀ s ∈ gateData.2.1, s ∈ keys signals) :
    (∀ order row signals1, evaluateSignals gates order signals = some (row, signals1) →
      keys signals1 = keys signals ∧
      (∀ j, (sigAt signals1 j).users = (sigAt signals j).users ∧
        (sigAt signals1 j).level = (sigAt signals j).level) ∧
      ∀ j ∈ getInputIds signals gates, (sigAt signals1 j).value = (sigAt signals j).value) ∧
    (keys (prepareNextCombination signals (getInputIds signals gates)).2 = keys signals ∧
      (∀ j, (sigAt (prepareNextCombination signals (getInputIds signals gates)).2 j).users
            = (sigAt signals j).users ∧
        (sigAt (prepareNextCombination signals (getInputIds signals gates)).2 j).level
            = (sigAt signals j).level) ∧
      ∀ j, j ∉ getInputIds signals gates →
        (sigAt (prepareNextCombination signals (getInputIds signals gates)).2 j).value
          = (sigAt signals j).value) := by
  refine ⟨?_, ?_⟩
  · intro order row signals1 h
    unfold evaluateSignals at h
    cases he : evaluateAll gates order signals with
    | none => simp [he] at h
    | some mx =>
      simp only [he, Option.some.injEq, Prod.mk.injEq] at h
      obtain ⟨_, rfl⟩ := h
      obtain ⟨_, a2, a3, a4, a5⟩ := evaluateAll_frame gates order signals mx hs
        (fun o gate hg s hs' => hgin (o, gate) (gateAt_mem gates o gate hg) s hs') he
      exact ⟨a2, fun j => ⟨a3 j, a4 j⟩,
        fun j hj => a5 j ((mem_getInputIds signals gates j).1 hj).2⟩
  · obtain ⟨_, a2, a3, a4, a5, _⟩ := nextCombinationLoop_spec
      (getInputIds signals gates).reverse
      (List.nodup_reverse.2 (nodup_getInputIds signals hs gates)) signals hs
      (fun i hi => getInputIds_subset_keys signals gates i (List.mem_reverse.1 hi))
    refine ⟨a2, fun j => ⟨a4 j, a5 j⟩, fun j hj => ?_⟩
    have := a3 j (fun e => hj (List.mem_reverse.1 e))
    unfold prepareNextCombination
    rw [this]

/-- C15 in the initial state of the sample circuit, for the pass over `3, 4, 5`. -/
theorem enumeration_frame_witness :
    (keys [(1, ⟨[3, 4], false, 0⟩), (2, ⟨[3], false, 0⟩), (3, ⟨[4], false, 0⟩),
        (4, ⟨[5], false, 0⟩), (5, ⟨[], true, 0⟩)] = keys (buildSignals sampleGates) ∧
      (∀ j, (sigAt [(1, ⟨[3, 4], false, 0⟩), (2, ⟨[3], false, 0⟩), (3, ⟨[4], false, 0⟩),
              (4, ⟨[5], false, 0⟩), (5, ⟨[], true, 0⟩)] j).users
            = (sigAt (buildSignals sampleGates) j).users ∧
        (sigAt [(1, ⟨[3, 4], false, 0⟩), (2, ⟨[3], false, 0⟩), (3, ⟨[4], false, 0⟩),
              (4, ⟨[5], false, 0⟩), (5, ⟨[], true, 0⟩)] j).level
            = (sigAt (buildSignals sampleGates) j).level) ∧
      ∀ j ∈ getInputIds (buildSignals sampleGates) sampleGates,
        (sigAt [(1, ⟨[3, 4], false, 0⟩), (2, ⟨[3], false, 0⟩), (3, ⟨[4], false, 0⟩),
              (4, ⟨[5], false, 0⟩), (5, ⟨[], true, 0⟩)] j).value
          = (sigAt (buildSignals sampleGates) j).value) ∧
    (keys (prepareNextCombination (buildSignals sampleGates)
        (getInputIds (buildSignals sampleGates) sampleGates)).2
        = keys (buildSignals sampleGates) ∧
      (∀ j, (sigAt (prepareNextCombination (buildSignals sampleGates)
              (getInputIds (buildSignals sampleGates) sampleGates)).2 j).users
            = (sigAt (buildSignals sampleGates) j).users ∧
        (sigAt (prepareNextCombination (buildSignals sampleGates)
              (getInputIds (buildSignals sampleGates) sampleGates)).2 j).level
            = (sigAt (buildSignals sampleGates) j).level) ∧
      ∀ j, j ∉ getInputIds (buildSignals sampleGates) sampleGates →
        (sigAt (prepareNextCombination (buildSignals sampleGates)
            (getInputIds (buildSignals sampleGates) sampleGates)).2 j).value
          = (sigAt (buildSignals sampleGates) j).value) :=
  ⟨(enumeration_frame sampleGates (buildSignals sampleGates)
      (keysSorted_buildSignals sampleGates) (by decide)).1 [3, 4, 5]
      ['0', '0', '0', '0', '1']
      [(1, ⟨[3, 4], false, 0⟩), (2, ⟨[3], false, 0⟩), (3, ⟨[4], false, 0⟩),
        (4, ⟨[5], false, 0⟩), (5, ⟨[], true, 0⟩)] (by decide),
   (enumeration_frame sampleGates (buildSignals sampleGates)
      (keysSorted_buildSignals sampleGates) (by decide)).2⟩

/-! ## The increment step -/

theorem lsbValue_succ_eq_pow_iff (l : List Bool) :
    lsbValue l + 1 = 2 ^ l.length ↔ ∀ b ∈ l, b = true := by
  induction l with
  | nil => simp [lsbValue]
  | cons b rest ih =>
    have hlt := lsbValue_lt rest
    simp only [lsbValue, List.length_cons, pow_succ, List.mem_cons, forall_eq_or_imp]
    rw [← ih]
    cases b <;> simp <;> omega

theorem lsbValue_eq_zero_iff (l : List Bool) : lsbValue l = 0 ↔ ∀ b ∈ l, b = false := by
  induction l with
  | nil => simp [lsbValue]
  | cons b rest ih =>
    simp only [lsbValue, List.mem_cons, forall_eq_or_imp]
    rw [← ih]
    cases b <;> simp

/-- The scan of `prepareNextCombination` on any signal map: an increment of the number
its ids denote, first id least significant, with the carry out as the result
`false`. -/
theorem nextCombinationLoop_counter (ids : List Nat) (hnd : ids.Nodup) (m : signal_map) :
    (∀ j, j ∉ ids → sigAt (nextCombinationLoop ids m).2 j = sigAt m j) ∧
    lsbValue (valuesOf (nextCombinationLoop ids m).2 ids) +
        (if (nextCombinationLoop ids m).1 then 0 else 2 ^ ids.length) =
      lsbValue (valuesOf m ids) + 1 := by
  induction ids generalizing m with
  | nil => simp [nextCombinationLoop, valuesOf, lsbValue]
  | cons id rest ih =>
    obtain ⟨hnotin, hnd'⟩ := List.nodup_cons.1 hnd
    have hsig : ∀ (b : Bool) (j : Nat),
        sigAt (assign m id { sigAt m id with value := b }) j =
          if j = id then { sigAt m id with value := b } else sigAt m j := by
      intro b j
      by_cases hj : j = id
      · subst hj; simp [sigAt_assign_self]
      · simp [hj, sigAt_assign_ne m id j _ hj]
    have hrestv : ∀ b : Bool, valuesOf (assign m id { sigAt m id with value := b }) rest
        = valuesOf m rest := by
      intro b
      apply valuesOf_congr
      intro j hj
      have : j ≠ id := fun e => hnotin (by rw [← e]; exact hj)
      rw [hsig b j]; simp [this]
    by_cases hv : (sigAt m id).value = true
    · obtain ⟨a3, a6⟩ := ih hnd' (assign m id { sigAt m id with value := false })
      simp only [nextCombinationLoop, hv, if_true]
      refine ⟨?_, ?_⟩
      · intro j hj
        have hj1 : j ≠ id := fun e => hj (by rw [e]; exact List.mem_cons_self _ _)
        have hj2 : j ∉ rest := fun e => hj (List.mem_cons_of_mem _ e)
        rw [a3 j hj2, hsig false j]; simp [hj1]
      · rw [hrestv false] at a6
        have hidv : (sigAt (nextCombinationLoop rest
            (assign m id { sigAt m id with value := false })).2 id).value = false := by
          rw [a3 id hnotin, hsig false id]; simp
        simp only [valuesOf, List.map_cons, lsbValue, hidv, hv, List.length_cons, pow_succ]
          at a6 ⊢
        split at a6 <;> rename_i hc <;> simp [hc] at a6 ⊢ <;> omega
    · have hv' : (sigAt m id).value = false := by simpa using hv
      simp only [nextCombinationLoop, hv', Bool.false_eq_true, if_false]
      refine ⟨?_, ?_⟩
      · intro j hj
        have hj1 : j ≠ id := fun e => hj (by rw [e]; exact List.mem_cons_self _ _)
        rw [hsig true j]; simp [hj1]
      · have h1 := hrestv true
        simp only [valuesOf] at h1
        simp only [valuesOf, List.map_cons, lsbValue, h1, hv', hsig true id]
        simp
        omega

/-- C19: `prepareNextCombination` is a binary increment. For every signal map and
every primary-input set (a list without repetition, the largest id of an ascending set
last), with the values of the primary inputs read as a binary number whose least
significant bit is the last id: if some primary input is false the call returns true
and the number afterwards is the number before plus 1; if every primary input is true,
which includes the empty set, the call returns false and afterwards every primary
input is false. -/
theorem prepareNextCombination_increment (signals : signal_map) (inputIds : List Nat)
    (hnd : inputIds.Nodup) :
    ((∃ id ∈ inputIds, (sigAt signals id).value = false) →
      (prepareNextCombination signals inputIds).1 = true ∧
      binaryValue (valuesOf (prepareNextCombination signals inputIds).2 inputIds)
        = binaryValue (valuesOf signals inputIds) + 1) ∧
    ((∀ id ∈ inputIds, (sigAt signals id).value = true) →
      (prepareNextCombination signals inputIds).1 = false ∧
      ∀ id ∈ inputIds, (sigAt (prepareNextCombination signals inputIds).2 id).value = false) := by
  obtain ⟨_, heq⟩ := nextCombinationLoop_counter inputIds.reverse
    (List.nodup_reverse.2 hnd) signals
  rw [← binaryValue_valuesOf signals inputIds,
    ← binaryValue_valuesOf (nextCombinationLoop inputIds.reverse signals).2 inputIds,
    List.length_reverse] at heq
  have hlt1 : binaryValue (valuesOf signals inputIds) < 2 ^ inputIds.length := by
    have := lsbValue_lt (valuesOf signals inputIds).reverse
    simpa [binaryValue, valuesOf] using this
  have hlt2 : binaryValue (valuesOf (nextCombinationLoop inputIds.reverse signals).2 inputIds)
      < 2 ^ inputIds.length := by
    have := lsbValue_lt (valuesOf (nextCombinationLoop inputIds.reverse signals).2 inputIds).reverse
    simpa [binaryValue, valuesOf] using this
  have hall : binaryValue (valuesOf signals inputIds) + 1 = 2 ^ inputIds.length ↔
      ∀ id ∈ inputIds, (sigAt signals id).value = true := by
    have := lsbValue_succ_eq_pow_iff (valuesOf signals inputIds).reverse
    simpa [binaryValue, valuesOf] using this
  have hzero : binaryValue (valuesOf (nextCombinationLoop inputIds.reverse signals).2 inputIds)
      = 0 ↔ ∀ id ∈ inputIds,
        (sigAt (nextCombinationLoop inputIds.reverse signals).2 id).value = false := by
    have := lsbValue_eq_zero_iff
      (valuesOf (nextCombinationLoop inputIds.reverse signals).2 inputIds).reverse
    simpa [binaryValue, valuesOf] using this
  unfold prepareNextCombination
  refine ⟨?_, ?_⟩
  · rintro ⟨id, hid, hfalse⟩
    have hnot : ¬ binaryValue (valuesOf signals inputIds) + 1 = 2 ^ inputIds.length := by
      intro e
      have := hall.1 e id hid
      rw [hfalse] at this
      exact Bool.noConfusion this
    cases hc : (nextCombinationLoop inputIds.reverse signals).1
    · rw [hc] at heq
      simp only [Bool.false_eq_true, if_false] at heq
      omega
    · rw [hc] at heq
      simp only [if_true, Nat.add_zero] at heq
      exact ⟨rfl, heq⟩
  · intro htrue
    have he := hall.2 htrue
    cases hc : (nextCombinationLoop inputIds.reverse signals).1
    · rw [hc] at heq
      simp only [Bool.false_eq_true, if_false] at heq
      refine ⟨rfl, hzero.1 (by omega)⟩
    · rw [hc] at heq
      simp only [if_true, Nat.add_zero] at heq
      omega

/-- C19 on two primary inputs: from `01` the call returns true and leaves `10`; from
`11` it returns false and leaves `00`. -/
theorem prepareNextCombination_increment_witness :
    ((prepareNextCombination [(1, ⟨[], false, 0⟩), (2, ⟨[], true, 0⟩)] [1, 2]).1 = true ∧
      binaryValue (valuesOf
          (prepareNextCombination [(1, ⟨[], false, 0⟩), (2, ⟨[], true, 0⟩)] [1, 2]).2 [1, 2])
        = binaryValue (valuesOf [(1, ⟨[], false, 0⟩), (2, ⟨[], true, 0⟩)] [1, 2]) + 1) ∧
    ((prepareNextCombination [(1, ⟨[], true, 0⟩), (2, ⟨[], true, 0⟩)] [1, 2]).1 = false ∧
      ∀ id ∈ [1, 2],
        (sigAt (prepareNextCombination
          [(1, ⟨[], true, 0⟩), (2, ⟨[], true, 0⟩)] [1, 2]).2 id).value = false) :=
  ⟨(prepareNextCombination_increment [(1, ⟨[], false, 0⟩), (2, ⟨[], true, 0⟩)] [1, 2]
      (by decide)).1 ⟨1, by decide, by decide⟩,
   (prepareNextCombination_increment [(1, ⟨[], true, 0⟩), (2, ⟨[], true, 0⟩)] [1, 2]
      (by decide)).2 (by decide)⟩

/-! ## Levels are longest paths -/

theorem levelsTight_step (m0 : signal_map) (inputs : List Nat) (rk : Nat → Nat)
    (hrk : ∀ u v, v ∈ (sigAt m0 u).users → rk u < rk v)
    (hN : ∀ j, rk j < UINT32_SIZE)
    (v : Nat) (q : List Nat) (m : signal_map) (h : LevelsInv m0 inputs rk (v :: q) m)
    (ht : LevelsTight m0 m) :
    LevelsTight m0 (relaxUsers (sigAt m v).users (sigAt m v).level (touch m v)) := by
  have hv : v ∈ keys m := by
    rw [h.frame.keys_eq]; exact h.frame.queue v (List.mem_cons_self _ _)
  rw [touch_of_mem m v hv]
  have hmod : ∀ j ∈ (sigAt m v).users,
      ((sigAt m v).level + 1) % UINT32_SIZE = (sigAt m v).level + 1 := by
    intro j hj
    rw [h.frame.users v] at hj
    have h1 := hrk v j hj
    have h2 := h.bound v
    have h3 := hN j
    exact Nat.mod_eq_of_lt (by omega)
  have hlev : ∀ j, (sigAt (relaxUsers (sigAt m v).users (sigAt m v).level m) j).level =
      if j ∈ (sigAt m v).users then max (sigAt m j).level ((sigAt m v).level + 1)
      else (sigAt m j).level := by
    intro j
    rw [sigAt_relaxUsers]
    by_cases hj : j ∈ (sigAt m v).users
    · simp only [hj, if_true, hmod j hj]
    · simp only [hj, if_false]
  have hmono : ∀ j, (sigAt m j).level ≤
      (sigAt (relaxUsers (sigAt m v).users (sigAt m v).level m) j).level := by
    intro j
    rw [hlev]
    split
    · exact le_max_left _ _
    · exact le_refl _
  intro w
  by_cases hw : w ∈ (sigAt m v).users
  · by_cases hbig : (sigAt m w).level ≤ (sigAt m v).level + 1
    · right
      refine ⟨v, by rw [← h.frame.users v]; exact hw, ?_⟩
      rw [hlev w]
      simp only [hw, if_true]
      have := hmono v
      rw [max_eq_right hbig]
      omega
    · have hkeep : (sigAt (relaxUsers (sigAt m v).users (sigAt m v).level m) w).level
          = (sigAt m w).level := by
        rw [hlev w]
        simp only [hw, if_true]
        exact max_eq_left (by omega)
      rcases ht w with h0 | ⟨u, hu, hle⟩
      · omega
      · right
        exact ⟨u, hu, by rw [hkeep]; exact le_trans hle (Nat.succ_le_succ (hmono u))⟩
  · have hkeep : (sigAt (relaxUsers (sigAt m v).users (sigAt m v).level m) w).level
        = (sigAt m w).level := by
      rw [hlev w]
      simp only [hw, if_false]
    rcases ht w with h0 | ⟨u, hu, hle⟩
    · left; rw [hkeep]; exact h0
    · right
      exact ⟨u, hu, by rw [hkeep]; exact le_trans hle (Nat.succ_le_succ (hmono u))⟩

theorem le_foldr_max (l : List Nat) (x : Nat) (hx : x ∈ l) : x ≤ l.foldr max 0 := by
  induction l with
  | nil => simp at hx
  | cons a rest ih =>
    simp only [List.foldr_cons]
    rcases List.mem_cons.1 hx with rfl | h
    · exact le_max_left _ _
    · exact le_trans (ih h) (le_max_right _ _)

theorem foldr_max_mem (l : List Nat) (hl : l ≠ []) : l.foldr max 0 ∈ l := by
  induction l with
  | nil => exact absurd rfl hl
  | cons a rest ih =>
    simp only [List.foldr_cons]
    by_cases hr : rest = []
    · subst hr
      simp
    · rcases le_total a (rest.foldr max 0) with h | h
      · rw [max_eq_right h]
        exact List.mem_cons_of_mem _ (ih hr)
      · rw [max_eq_left h]
        exact List.mem_cons_self _ _

/-- The levels `setEvaluationLevels` leaves on an acyclic circuit: each gate output is
one above some input of its gate and above all of them. -/
theorem setEvaluationLevels_tight (gates : gate_map) (hac : Acyclic gates)
    (hin : ∀ gateData ∈ gates, gateData.2.1 ≠ []) (hr : IdsInRange gates) :
    ∃ fuel m1,
      setEvaluationLevels fuel (buildSignals gates)
        (getInputIds (buildSignals gates) gates) = some m1 ∧
      (∀ s o, GateEdge gates s o → (sigAt m1 s).level < (sigAt m1 o).level) ∧
      (∀ j, gatesContains gates j = false → (sigAt m1 j).level = 0) ∧
      (∀ o, gatesContains gates o = true →
        ∃ s, GateEdge gates s o ∧ (sigAt m1 o).level = (sigAt m1 s).level + 1) := by
  obtain ⟨fuelA, mA, hrunA, _, hlev, hzero⟩ := setEvaluationLevels_acyclic gates hac hin hr
  obtain ⟨rk, hrk, hN⟩ := exists_rank gates hac
  have hN := hN hr
  have hclosed : ∀ u, ∀ v ∈ (sigAt (buildSignals gates) u).users,
      v ∈ keys (buildSignals gates) := by
    intro u v hv
    exact (gateEdge_mem_keys gates u v ((isUserOf_buildSignals gates v u).1 hv)).2.1
  have hrk' : ∀ u v, v ∈ (sigAt (buildSignals gates) u).users → rk u < rk v :=
    fun u v hv => hrk u v ((isUserOf_buildSignals gates v u).1 hv)
  have hacc : ∀ v, Acc (IsUserOf (buildSignals gates)) v := by
    have hwf : WellFounded (fun c b : Nat => UINT32_SIZE - rk c < UINT32_SIZE - rk b) :=
      (measure (fun c => UINT32_SIZE - rk c)).wf
    intro v
    refine Subrelation.accessible ?_ (hwf.apply v)
    intro c b hcb
    have h1 := hrk' b c hcb
    have h2 := hN c
    show UINT32_SIZE - rk c < UINT32_SIZE - rk b
    omega
  have hinit : LevelsInv (buildSignals gates) (getInputIds (buildSignals gates) gates) rk
      (getInputIds (buildSignals gates) gates) (buildSignals gates) ∧
      LevelsTight (buildSignals gates) (buildSignals gates) := by
    refine ⟨⟨⟨fun _ => rfl, fun _ => rfl, keysSorted_buildSignals gates, rfl, ?_,
      fun _ _ => rfl⟩, ?_, ?_⟩, ?_⟩
    · intro v hv
      exact ((mem_getInputIds _ _ v).1 hv).1
    · intro j
      rw [sigAt_buildSignals]
      exact Nat.zero_le _
    · intro u v _
      by_cases hu : u ∈ getInputIds (buildSignals gates) gates
      · exact Or.inl hu
      · refine Or.inr (Or.inr ⟨?_, hu⟩)
        rw [sigAt_buildSignals]
    · intro v
      left
      rw [sigAt_buildSignals]
  obtain ⟨fuelB, mB, hrunB, _, htight⟩ := levelsLoop_invariant (buildSignals gates)
    (fun q m => LevelsInv (buildSignals gates) (getInputIds (buildSignals gates) gates) rk q m
      ∧ LevelsTight (buildSignals gates) m)
    (fun _ _ _ v _ => hacc v) (fun _ _ hP => hP.1.frame.users)
    (fun v q m hP => ⟨levelsInv_step _ _ rk hclosed hrk' hN v q m hP.1,
      levelsTight_step _ _ rk hrk' hN v q m hP.1 hP.2⟩)
    _ _ hinit
  have hA := levelsLoop_mono fuelA (max fuelA fuelB) (le_max_left _ _) _ _ _ hrunA
  have hB := levelsLoop_mono fuelB (max fuelA fuelB) (le_max_right _ _) _ _ _ hrunB
  have hAB : mA = mB := by
    have : levelsLoop (max fuelA fuelB) (getInputIds (buildSignals gates) gates)
        (buildSignals gates) = some mA := hA
    rw [hB] at this
    exact (Option.some.inj this).symm
  subst hAB
  refine ⟨max fuelA fuelB, mA, hA, hlev, hzero, ?_⟩
  intro o ho
  obtain ⟨g, hg⟩ := (gatesContains_iff gates o).1 ho
  obtain ⟨s0, hs0⟩ := List.exists_mem_of_ne_nil _ (hin (o, g) hg)
  have hpos := hlev s0 o ⟨g, hg, hs0⟩
  rcases htight o with h0 | ⟨u, hu, hle⟩
  · omega
  · have hedge : GateEdge gates u o := (isUserOf_buildSignals gates o u).1 hu
    have := hlev u o hedge
    exact ⟨u, hedge, by omega⟩

/-- C16: on every acyclic circuit in which every gate has at least one input (no two
gates with the same output, ids that fit `uint32_t`, the signal map of graph
construction) `setEvaluationLevels` returns for all large enough fuel, and it leaves
every primary input at level 0 and every gate output at exactly 1 + the maximum of the
levels of the inputs of its gate, so strictly above each of them; the level of a
signal is the length of the longest path from a primary input to it. -/
theorem evaluation_levels_exact (gates : gate_map) (hac : Acyclic gates)
    (hin : ∀ gateData ∈ gates, gateData.2.1 ≠ [])
    (hnd : (gates.map Prod.fst).Nodup) (hr : IdsInRange gates) :
    ∃ fuel0, ∀ fuel, fuel0 ≤ fuel → ∃ m1,
      setEvaluationLevels fuel (buildSignals gates)
        (getInputIds (buildSignals gates) gates) = some m1 ∧
      (∀ i ∈ getInputIds (buildSignals gates) gates, (sigAt m1 i).level = 0) ∧
      (∀ o gate, (o, gate) ∈ gates →
        (sigAt m1 o).level = 1 + (gate.1.map (fun s => (sigAt m1 s).level)).foldr max 0 ∧
        ∀ s ∈ gate.1, (sigAt m1 s).level < (sigAt m1 o).level) ∧
      (∀ v, PathFromInput gates v (sigAt m1 v).level ∧
        ∀ n, PathFromInput gates v n → n ≤ (sigAt m1 v).level) := by
  obtain ⟨fuel0, m1, hrun, hlev, hzero, htight⟩ := setEvaluationLevels_tight gates hac hin hr
  refine ⟨fuel0, fun fuel hfuel => ⟨m1, levelsLoop_mono fuel0 fuel hfuel _ _ _ hrun, ?_, ?_, ?_⟩⟩
  · intro i hi
    exact hzero i ((mem_getInputIds _ _ i).1 hi).2
  · intro o gate hg
    refine ⟨?_, fun s hs => hlev s o ⟨gate, hg, hs⟩⟩
    obtain ⟨u, ⟨g', hg', hu⟩, hle⟩ := htight o ((gatesContains_iff gates o).2 ⟨gate, hg⟩)
    have hgg : g' = gate := by
      have h1 := gateAt_of_mem gates hnd o g' hg'
      have h2 := gateAt_of_mem gates hnd o gate hg
      rw [h1] at h2
      exact Option.some.inj h2
    subst hgg
    have hne : g'.1.map (fun s => (sigAt m1 s).level) ≠ [] := by
      intro e
      rw [List.map_eq_nil_iff] at e
      rw [e] at hu
      simp at hu
    have hmem := foldr_max_mem _ hne
    obtain ⟨s, hs, hse⟩ := List.mem_map.1 hmem
    have h1 := hlev s o ⟨g', hg, hs⟩
    have h2 : (sigAt m1 u).level ≤ (g'.1.map (fun s => (sigAt m1 s).level)).foldr max 0 :=
      le_foldr_max _ _ (List.mem_map.2 ⟨u, hu, rfl⟩)
    rw [← hse] at h2 ⊢
    omega
  · intro v
    refine ⟨?_, ?_⟩
    · have key : ∀ n v, (sigAt m1 v).level = n → PathFromInput gates v n := by
        intro n
        induction n using Nat.strong_induction_on with
        | _ n ih =>
          intro v hn
          by_cases hg : gatesContains gates v = true
          · obtain ⟨s, hs, hle⟩ := htight v hg
            have := ih (sigAt m1 s).level (by omega) s rfl
            rw [← hn, hle]
            exact PathFromInput.step s v _ hs this
          · have hg' : gatesContains gates v = false := by simpa using hg
            rw [← hn, hzero v hg']
            exact PathFromInput.input v hg'
      exact key _ v rfl
    · intro n hp
      induction hp with
      | input v _ => exact Nat.zero_le _
      | step u v n hedge _ ih =>
        have := hlev u v hedge
        omega

/-- C16 on the diamond circuit. -/
theorem evaluation_levels_exact_witness :
    ∃ fuel0, ∀ fuel, fuel0 ≤ fuel → ∃ m1,
      setEvaluationLevels fuel (buildSignals diamondGates)
        (getInputIds (buildSignals diamondGates) diamondGates) = some m1 ∧
      (∀ i ∈ getInputIds (buildSignals diamondGates) diamondGates, (sigAt m1 i).level = 0) ∧
      (∀ o gate, (o, gate) ∈ diamondGates →
        (sigAt m1 o).level = 1 + (gate.1.map (fun s => (sigAt m1 s).level)).foldr max 0 ∧
        ∀ s ∈ gate.1, (sigAt m1 s).level < (sigAt m1 o).level) ∧
      (∀ v, PathFromInput diamondGates v (sigAt m1 v).level ∧
        ∀ n, PathFromInput diamondGates v n → n ≤ (sigAt m1 v).level) :=
  evaluation_levels_exact diamondGates (acyclic_of_inputs_lt diamondGates (by decide))
    (by decide) (by decide) (by unfold IdsInRange; decide)

/-! ## The evaluation order and the derived signals -/

/-- The levels along the order `getEvaluationOrder` returns never fall. -/
theorem getEvaluationOrder_sorted (sort : sort_fn) (hsort : SortContract sort) (fuel : Nat)
    (m0 m1 : signal_map) (inputs order : List Nat) (hs : KeysSorted m1)
    (h : getEvaluationOrder sort fuel m0 inputs = some (order, m1)) :
    order.Pairwise (fun a b => (sigAt m1 a).level ≤ (sigAt m1 b).level) := by
  unfold getEvaluationOrder at h
  cases hl : setEvaluationLevels fuel m0 inputs with
  | none => simp [hl] at h
  | some m2 =>
    simp only [hl, Option.some.injEq, Prod.mk.injEq] at h
    obtain ⟨h1, h2⟩ := h
    subst h2
    rw [← h1, List.pairwise_map]
    obtain ⟨hperm, hpw⟩ := hsort (getEvaluationLevels m2)
    refine List.Pairwise.imp_of_mem ?_ hpw
    intro a b ha hb hab
    obtain ⟨a1, a2⟩ := a
    obtain ⟨b1, b2⟩ := b
    have hla := ((mem_getEvaluationLevels m2 hs a1 a2).1 (hperm.mem_iff.1 ha)).2.1
    have hlb := ((mem_getEvaluationLevels m2 hs b1 b2).1 (hperm.mem_iff.1 hb)).2.1
    simp only [evaluationLevelComparator, decide_eq_false_iff_not, not_lt] at hab
    simp only
    omega

/-- On an acyclic circuit the evaluation order is a sequence of exactly the gate
outputs, each once, with levels that never fall. -/
theorem getEvaluationOrder_acyclic (sort : sort_fn) (hsort : SortContract sort)
    (gates : gate_map) (hac : Acyclic gates)
    (hin : ∀ gateData ∈ gates, gateData.2.1 ≠ []) (hr : IdsInRange gates) :
    ∃ fuel0, ∀ fuel, fuel0 ≤ fuel → ∃ order m1,
      getEvaluationOrder sort fuel (buildSignals gates)
        (getInputIds (buildSignals gates) gates) = some (order, m1) ∧
      order.Nodup ∧ (∀ k, k ∈ order ↔ gatesContains gates k = true) ∧
      order.Pairwise (fun a b => (sigAt m1 a).level ≤ (sigAt m1 b).level) := by
  obtain ⟨fuel0, m1, hrun, hframe, hlev, hzero⟩ :=
    setEvaluationLevels_acyclic gates hac hin hr
  refine ⟨fuel0, fun fuel hle => ?_⟩
  have hrun' := levelsLoop_mono fuel0 fuel hle _ _ _ hrun
  obtain ⟨order, hord, hmem, _⟩ :=
    getEvaluationOrder_spec sort hsort fuel _ m1 _ hframe.sorted hrun'
  refine ⟨order, m1, hord,
    getEvaluationOrder_nodup sort hsort fuel _ m1 _ order hframe.sorted hord, ?_,
    getEvaluationOrder_sorted sort hsort fuel _ m1 _ order hframe.sorted hord⟩
  intro k
  rw [hmem, hframe.keys_eq]
  constructor
  · rintro ⟨_, hpos⟩
    by_contra hc
    rw [hzero k (by simpa using hc)] at hpos
    exact lt_irrefl 0 hpos
  · intro hk
    obtain ⟨g, hg⟩ := (gatesContains_iff gates k).1 hk
    obtain ⟨s, hs⟩ := List.exists_mem_of_ne_nil _ (hin (k, g) hg)
    have hedge : GateEdge gates s k := ⟨g, hg, hs⟩
    have := hlev s k hedge
    exact ⟨(gateEdge_mem_keys gates s k hedge).2.1, by omega⟩

/-- C17, the code at the failing input: on the gates `NOT 1 2`, `NOT 2 1`, `NOT 3 4` the
cycle finder returns false, `1` and `2` are gate outputs, and the evaluation order is
`3` alone: the gate outputs `1` and `2` do not occur in it. -/
theorem order_misses_feedback :
    (∀ fuel,
      (hasCircuitCycle (fuel + 3) (getInputIds (buildSignals feedbackGates) feedbackGates)
        (buildSignals feedbackGates)).map Prod.fst = some false) ∧
    gatesContains feedbackGates 1 = true ∧ gatesContains feedbackGates 2 = true ∧
    ∀ fuel,
      (getEvaluationOrder insertionSortBy (fuel + 2) (buildSignals feedbackGates)
        (getInputIds (buildSignals feedbackGates) feedbackGates)).map Prod.fst = some [3] := by
  have h1 : getInputIds (buildSignals feedbackGates) feedbackGates = [4] := by decide
  have h2 : buildSignals feedbackGates =
      [(1, ⟨[2], false, 0⟩), (2, ⟨[1], false, 0⟩), (3, ⟨[], false, 0⟩),
        (4, ⟨[3], false, 0⟩)] := by decide
  refine ⟨?_, by decide, by decide, ?_⟩
  · intro fuel
    rw [h1, h2]
    simp [hasCircuitCycle, orAll, existsCycle, getVisitedMap, sigAt, lookup, touch, contains,
      Function.update]
  · intro fuel
    rw [h1, h2]
    have hl : levelsLoop (fuel + 2) [4]
        [(1, ⟨[2], false, 0⟩), (2, ⟨[1], false, 0⟩), (3, ⟨[], false, 0⟩),
          (4, ⟨[3], false, 0⟩)] =
        some [(1, ⟨[2], false, 0⟩), (2, ⟨[1], false, 0⟩), (3, ⟨[], false, 1⟩),
          (4, ⟨[3], false, 0⟩)] := by
      simp [levelsLoop, relaxUsers, setEvaluationLevel, sigAt, lookup, touch, contains,
        assign, UINT32_SIZE]
    simp only [getEvaluationOrder, setEvaluationLevels, hl]
    decide

/-! ## Cycles a primary input reaches -/

theorem acc_of_reachable (m : signal_map) (a b : Nat)
    (h : Relation.ReflTransGen (UserEdge m) a b) (ha : Acc (IsUserOf m) a) :
    Acc (IsUserOf m) b := by
  induction h with
  | refl => exact ha
  | tail _ hbc ih => exact ih.inv hbc

theorem not_cycle_of_acc (m : signal_map) (y : Nat) (h : Acc (IsUserOf m) y) :
    ¬ Relation.TransGen (UserEdge m) y y := by
  induction h with
  | intro x _ ih =>
    intro hcyc
    obtain ⟨z, hxz, hzx⟩ := Relation.TransGen.head'_iff.1 hcyc
    have hz : Relation.TransGen (UserEdge m) z z := by
      rcases Relation.reflTransGen_iff_eq_or_transGen.1 hzx with e | ht
      · subst e; exact Relation.TransGen.single hxz
      · exact Relation.TransGen.tail ht hxz
    exact ih z hxz hz

/-- The ids a traversal of the signal map can meet: the starting ids, the keys and
every listed user. -/
theorem exists_closed_universe (m : signal_map) (inputs : List Nat) :
    ∃ U : List Nat, (∀ x ∈ U, ∀ y ∈ (sigAt m x).users, y ∈ U) ∧ ∀ i ∈ inputs, i ∈ U := by
  refine ⟨inputs ++ (m.map (fun p => p.2.users)).flatten, ?_, ?_⟩
  · intro x _ y hy
    apply List.mem_append_right
    rw [List.mem_flatten]
    refine ⟨(sigAt m x).users, ?_, hy⟩
    cases hl : lookup m x with
    | none =>
      rw [sigAt, hl] at hy
      simp [getNewSignal] at hy
    | some s =>
      have hm := mem_of_lookup_eq_some m x s hl
      have hs : sigAt m x = s := by simp [sigAt, hl]
      rw [hs]
      exact List.mem_map.2 ⟨(x, s), hm, rfl⟩
  · intro i hi
    exact List.mem_append_left _ hi

/-- C18: for every signal graph and primary-input set, given in any order, if a
directed cycle of the is-used-by relation is reachable from one of the primary inputs,
then `CycleFinder::hasCircuitCycle` returns true for all large enough fuel, whatever
the earlier starting traversals marked visited. -/
theorem reachable_cycle_reported (signals : signal_map) (inputIds : List Nat) (i y : Nat)
    (hi : i ∈ inputIds) (hreach : Relation.ReflTransGen (UserEdge signals) i y)
    (hcyc : Relation.TransGen (UserEdge signals) y y) :
    ∃ fuel0, ∀ fuel, fuel0 ≤ fuel →
      (hasCircuitCycle fuel inputIds signals).map Prod.fst = some true := by
  obtain ⟨U, hclosed, hin⟩ := exists_closed_universe signals inputIds
  obtain ⟨res, m1, hrun, _, _, _, hacc⟩ :=
    hasCircuitCycle_spec signals inputIds U hclosed hin (U.length + 1) (Nat.lt_succ_self _)
  refine ⟨U.length + 1, fun fuel hfuel => ?_⟩
  rw [hasCircuitCycle_mono _ fuel hfuel _ _ _ hrun]
  cases res with
  | true => rfl
  | false =>
    exfalso
    exact not_cycle_of_acc signals y (acc_of_reachable signals i y hreach (hacc rfl i hi)) hcyc

/-- C18 on two AND gates that feed each other: the primary input `3` reaches the cycle
`1 → 2 → 1`. -/
theorem reachable_cycle_reported_witness :
    ∃ fuel0, ∀ fuel, fuel0 ≤ fuel →
      (hasCircuitCycle fuel [3] (buildSignals loopGates)).map Prod.fst = some true :=
  reachable_cycle_reported (buildSignals loopGates) [3] 3 1 (by decide)
    (Relation.ReflTransGen.single (show 1 ∈ (sigAt (buildSignals loopGates) 3).users by decide))
    (Relation.TransGen.tail
      (Relation.TransGen.single (show 2 ∈ (sigAt (buildSignals loopGates) 1).users by decide))
      (show 1 ∈ (sigAt (buildSignals loopGates) 2).users by decide))

/-! ## The relaxation loop terminates -/

/-- C20: for every signal graph, finite as every signal map is, on which the cycle
finder reports no cycle, the relaxation loop of `setEvaluationLevels` on the signal map
the finder leaves returns for all large enough fuel: its queue becomes empty after
finitely many dequeues, although the loop enqueues every user at each visit, whether or
not its level changed. -/
theorem relaxation_terminates (signals signals1 : signal_map) (inputIds : List Nat)
    (fuel1 : Nat)
    (hrep : hasCircuitCycle fuel1 inputIds signals = some (false, signals1)) :
    ∃ fuel0, ∀ fuel, fuel0 ≤ fuel → ∃ signals2,
      setEvaluationLevels fuel signals1 inputIds = some signals2 := by
  obtain ⟨U, hclosed, hin⟩ := exists_closed_universe signals inputIds
  obtain ⟨res, m1, hrun, _, _, _, hacc⟩ :=
    hasCircuitCycle_spec signals inputIds U hclosed hin (max fuel1 (U.length + 1))
      (lt_of_lt_of_le (Nat.lt_succ_self _) (le_max_right _ _))
  have hrun' := hasCircuitCycle_mono fuel1 (max fuel1 (U.length + 1)) (le_max_left _ _)
    _ _ _ hrep
  rw [hrun] at hrun'
  have hres : res = false := congrArg Prod.fst (Option.some.inj hrun')
  have husers : ∀ j, (sigAt signals1 j).users = (sigAt signals j).users := by
    intro j
    rw [hasCircuitCycle_sigAt fuel1 inputIds signals _ hrep j]
  have hrel : IsUserOf signals1 = IsUserOf signals := by
    funext c b
    simp only [IsUserOf, husers b]
  obtain ⟨fuel0, m2, hloop, _⟩ := levelsLoop_invariant signals1
    (fun q m => (∀ j, (sigAt m j).users = (sigAt signals1 j).users) ∧
      ∀ v ∈ q, Acc (IsUserOf signals1) v)
    (fun _ _ hP => hP.2) (fun _ _ hP => hP.1)
    (fun v q m hP => by
      refine ⟨fun j => ?_, fun w hw => ?_⟩
      · rw [sigAt_relaxUsers, sigAt_touch]
        exact hP.1 j
      · rcases List.mem_append.1 hw with hw | hw
        · exact hP.2 w (List.mem_cons_of_mem _ hw)
        · rw [hP.1 v] at hw
          exact (hP.2 v (List.mem_cons_self _ _)).inv hw)
    inputIds signals1
    ⟨fun _ => rfl, fun v hv => by rw [hrel]; exact hacc hres v hv⟩
  exact ⟨fuel0, fun fuel hfuel => ⟨m2, levelsLoop_mono fuel0 fuel hfuel _ _ _ hloop⟩⟩

/-- C20 on the diamond circuit, in which the loop queues `3`, `4` and `5` more than
once. -/
theorem relaxation_terminates_witness :
    ∃ fuel0, ∀ fuel, fuel0 ≤ fuel → ∃ signals2,
      setEvaluationLevels fuel (buildSignals diamondGates)
        (getInputIds (buildSignals diamondGates) diamondGates) = some signals2 :=
  relaxation_terminates (buildSignals diamondGates) (buildSignals diamondGates)
    (getInputIds (buildSignals diamondGates) diamondGates) 6
    (hasCircuitCycle_acyclic diamondGates (acyclic_of_inputs_lt diamondGates (by decide))
      (by decide) 6 (by decide))

/-! ## The words of a line -/

theorem words_cons_space (c : Char) (hc : isSpace c = true) (l : List Char)
    (ws : List (List Char)) (h : Words l ws) : Words (c :: l) ws := by
  cases h with
  | nil sp hsp =>
    exact Words.nil (c :: l) (fun x hx => by
      rcases List.mem_cons.1 hx with rfl | hx
      · exact hc
      · exact hsp x hx)
  | cons sp w rest ws hsp hw hns hrest hws =>
    have := Words.cons (c :: sp) w rest ws (fun x hx => by
      rcases List.mem_cons.1 hx with rfl | hx
      · exact hc
      · exact hsp x hx) hw hns hrest hws
    simpa using this

theorem tokens_cons_space (c : Char) (hc : isSpace c = true) (l : List Char) :
    tokens (c :: l) = tokens l := by
  simp [tokens, List.splitOnP_cons, hc]

/-- The first segment of `splitOnP` is the run of non-space characters the line starts
with, and the other segments are those of what follows. -/
theorem splitOnP_head (l : List Char) :
    ∃ h t rest, l.splitOnP isSpace = h :: t ∧ (∀ x ∈ h, isSpace x = false) ∧
      l = h ++ rest ∧ (rest = [] ∨ ∃ c r, rest = c :: r ∧ isSpace c = true) ∧
      Words rest (t.filter (fun w => !w.isEmpty)) := by
  induction l with
  | nil =>
    exact ⟨[], [], [], by simp, by simp, rfl, Or.inl rfl, Words.nil [] (by simp)⟩
  | cons c l ih =>
    obtain ⟨h, t, rest, hsplit, hh, hl, hrest, hw⟩ := ih
    by_cases hc : isSpace c = true
    · refine ⟨[], h :: t, c :: l, by simp [List.splitOnP_cons, hc, hsplit], by simp, rfl,
        Or.inr ⟨c, l, rfl, hc⟩, ?_⟩
      apply words_cons_space c hc
      by_cases hne : h = []
      · subst hne
        simp only [List.nil_append] at hl
        subst hl
        simpa using hw
      · have hf : (h :: t).filter (fun w => !w.isEmpty) = h :: t.filter (fun w => !w.isEmpty) := by
          cases h with
          | nil => exact absurd rfl hne
          | cons a b => simp
        rw [hf, hl]
        have := Words.cons [] h rest _ (by simp) hne hh hrest hw
        simpa using this
    · have hc' : isSpace c = false := by simpa using hc
      refine ⟨c :: h, t, rest, by simp [List.splitOnP_cons, hc', hsplit], ?_, by rw [hl]; rfl,
        hrest, hw⟩
      intro x hx
      rcases List.mem_cons.1 hx with rfl | hx
      · exact hc'
      · exact hh x hx

/-- The words of a line are what `tokens` computes. -/
theorem words_tokens (line : List Char) : Words line (tokens line) := by
  obtain ⟨h, t, rest, hsplit, hh, hl, hrest, hw⟩ := splitOnP_head line
  unfold tokens
  rw [hsplit]
  by_cases hne : h = []
  · subst hne
    simp only [List.nil_append] at hl
    subst hl
    simpa using hw
  · have hf : (h :: t).filter (fun w => !w.isEmpty) = h :: t.filter (fun w => !w.isEmpty) := by
      cases h with
      | nil => exact absurd rfl hne
      | cons a b => simp
    rw [hf, hl]
    have := Words.cons [] h rest _ (by simp) hne hh hrest hw
    simpa using this

theorem tokens_spaces_append (sp l : List Char) (hsp : ∀ c ∈ sp, isSpace c = true) :
    tokens (sp ++ l) = tokens l := by
  induction sp with
  | nil => rfl
  | cons c sp ih =>
    rw [List.cons_append, tokens_cons_space c (hsp c (List.mem_cons_self _ _)),
      ih (fun x hx => hsp x (List.mem_cons_of_mem _ hx))]

/-- A line has no other words than those `tokens` computes. -/
theorem tokens_eq_of_words (line : List Char) (ws : List (List Char)) (h : Words line ws) :
    tokens line = ws := by
  induction h with
  | nil sp hsp =>
    have := tokens_spaces_append sp [] hsp
    rw [List.append_nil] at this
    rw [this]
    rfl
  | cons sp w rest ws hsp hw hns hrest _ ih =>
    rw [List.append_assoc, tokens_spaces_append sp _ hsp]
    have hns' : ∀ x ∈ w, ¬ (isSpace x = true) := fun x hx => by simp [hns x hx]
    have hwf : (w :: tokens rest) = w :: ws := by rw [ih]
    cases w with
    | nil => exact absurd rfl hw
    | cons a b =>
      rcases hrest with rfl | ⟨c, r, rfl, hc⟩
      · rw [List.append_nil]
        unfold tokens
        rw [List.splitOnP_eq_single isSpace _ hns']
        cases ws with
        | nil => simp
        | cons x xs => simp [tokens] at ih
      · unfold tokens
        rw [List.splitOnP_first isSpace _ hns' c hc r]
        rw [← ih, tokens_cons_space c hc r]
        simp [tokens]

/-! ## The number of a word -/

theorem readNat_aux (w : List Char) (acc : Nat) :
    w.foldl (fun acc c => 10 * acc + (c.toNat - 48)) acc =
      acc * 10 ^ w.length + Nat.ofDigits 10 ((w.map (fun c => c.toNat - 48)).reverse) := by
  induction w generalizing acc with
  | nil => simp
  | cons c r ih =>
    rw [List.foldl_cons, ih]
    simp only [List.map_cons, List.reverse_cons, List.length_cons, Nat.ofDigits_append,
      Nat.ofDigits_singleton, List.length_reverse, List.length_map, pow_succ]
    ring

theorem readNat_eq_wordValue (w : List Char) : readNat w = wordValue w := by
  unfold readNat wordValue
  rw [readNat_aux]
  simp

theorem readNat_aux_lt (w : List Char) (hw : w.all isDigit = true) (acc : Nat) :
    w.foldl (fun acc c => 10 * acc + (c.toNat - 48)) acc + 1 ≤ (acc + 1) * 10 ^ w.length := by
  induction w generalizing acc with
  | nil => simp
  | cons c r ih =>
    simp only [List.all_cons, Bool.and_eq_true] at hw
    have hd : c.toNat - 48 ≤ 9 := by
      have := hw.1
      simp only [isDigit, Bool.and_eq_true, decide_eq_true_eq] at this
      omega
    have h1 := ih hw.2 (10 * acc + (c.toNat - 48))
    rw [List.foldl_cons, List.length_cons, pow_succ]
    calc _ ≤ (10 * acc + (c.toNat - 48) + 1) * 10 ^ r.length := h1
      _ ≤ ((acc + 1) * 10) * 10 ^ r.length := Nat.mul_le_mul_right _ (by omega)
      _ = (acc + 1) * (10 ^ r.length * 10) := by ring

/-- On a word that matches `[1-9][[:digit:]]{0,8}` the extraction succeeds and yields
the number the word denotes. -/
theorem extractId_of_isIdToken (w : List Char) (h : isIdToken w = true) :
    extractId w = some (wordValue w) := by
  cases w with
  | nil => simp [isIdToken] at h
  | cons c r =>
    simp only [isIdToken, Bool.and_eq_true, decide_eq_true_eq] at h
    obtain ⟨⟨⟨h1, h2⟩, hall⟩, hlen⟩ := h
    have hdig : (c :: r).all isDigit = true := by
      simp only [List.all_cons, Bool.and_eq_true]
      refine ⟨?_, hall⟩
      simp only [isDigit, Bool.and_eq_true, decide_eq_true_eq]
      omega
    have hlt : readNat (c :: r) < UINT32_SIZE := by
      have := readNat_aux_lt (c :: r) hdig 0
      have hp : (10 : Nat) ^ (c :: r).length ≤ 10 ^ 9 :=
        Nat.pow_le_pow_right (by norm_num) (by simp; omega)
      have h9 : (10 : Nat) ^ 9 < UINT32_SIZE := by norm_num [UINT32_SIZE]
      unfold readNat
      omega
    unfold extractId
    rw [hdig, ← readNat_eq_wordValue]
    simp [hlt]

theorem parseGateInputIds_of_ids (ws : List (List Char))
    (h : ∀ w ∈ ws, isIdToken w = true) : parseGateInputIds ws = ws.map wordValue := by
  induction ws with
  | nil => rfl
  | cons w rest ih =>
    simp only [parseGateInputIds, extractId_of_isIdToken w (h w (List.mem_cons_self _ _)),
      List.map_cons, ih (fun x hx => h x (List.mem_cons_of_mem _ hx))]

/-! ## Parsing a gate line: words and table -/

theorem matchesGate_tokens (names : List (List Char)) (count : Nat → Bool) (line : List Char)
    (h : matchesGate names count line = true) :
    ∃ name ids, tokens line = name :: ids ∧ name ∈ names ∧
      (∀ w ∈ ids, isIdToken w = true) ∧ count ids.length = true := by
  unfold matchesGate at h
  cases ht : tokens line with
  | nil => simp [ht] at h
  | cons name ids =>
    simp only [ht, Bool.and_eq_true, List.all_eq_true] at h
    exact ⟨name, ids, rfl, by simpa using h.1.1, h.1.2, h.2⟩

/-- A line that `isLineValid` accepts is the name of a gate kind followed by ids, one
for the output and then as many for the inputs as the kind takes. -/
theorem isLineValid_tokens (line : List Char) (h : isLineValid line = true) :
    ∃ name outWord inWords gateType, tokens line = name :: outWord :: inWords ∧
      getGateType name = some gateType ∧ isIdToken outWord = true ∧
      (∀ w ∈ inWords, isIdToken w = true) ∧
      validArity (inWords.map wordValue, gateType) = true := by
  unfold isLineValid at h
  simp only [Bool.or_eq_true] at h
  rcases h with (h | h) | h
  · obtain ⟨name, ids, ht, hn, hids, hc⟩ := matchesGate_tokens _ _ line h
    simp only [List.mem_singleton] at hn
    subst hn
    match ids, hids, hc, ht with
    | [o, a, b], hids, _, ht =>
      exact ⟨_, o, [a, b], GateType.XOR, ht, by decide, hids o (by simp),
        fun w hw => hids w (List.mem_cons_of_mem _ hw), by simp [validArity]⟩
  · obtain ⟨name, ids, ht, hn, hids, hc⟩ := matchesGate_tokens _ _ line h
    simp only [List.mem_singleton] at hn
    subst hn
    match ids, hids, hc, ht with
    | [o, a], hids, _, ht =>
      exact ⟨_, o, [a], GateType.NOT, ht, by decide, hids o (by simp),
        fun w hw => hids w (List.mem_cons_of_mem _ hw), by simp [validArity]⟩
  · obtain ⟨name, ids, ht, hn, hids, hc⟩ := matchesGate_tokens _ _ line h
    simp only [decide_eq_true_eq] at hc
    match ids, hids, hc, ht with
    | o :: ins, hids, hc, ht =>
      have hlen : 2 ≤ ins.length := by simp at hc; omega
      simp only [List.mem_cons, List.mem_singleton, List.not_mem_nil, or_false] at hn
      rcases hn with e | e | e | e <;> subst e
      · exact ⟨_, o, ins, GateType.AND, ht, by decide, hids o (by simp),
          fun w hw => hids w (List.mem_cons_of_mem _ hw), by simp [validArity, hlen]⟩
      · exact ⟨_, o, ins, GateType.NAND, ht, by decide, hids o (by simp),
          fun w hw => hids w (List.mem_cons_of_mem _ hw), by simp [validArity, hlen]⟩
      · exact ⟨_, o, ins, GateType.OR, ht, by decide, hids o (by simp),
          fun w hw => hids w (List.mem_cons_of_mem _ hw), by simp [validArity, hlen]⟩
      · exact ⟨_, o, ins, GateType.NOR, ht, by decide, hids o (by simp),
          fun w hw => hids w (List.mem_cons_of_mem _ hw), by simp [validArity, hlen]⟩

/-- C12: every line that `isLineValid` accepts consists of at least two words, and with
its first word naming the kind, its second word denoting the output id and its further
words denoting the input ids, in order, `Parser::parseGate` returns on every gate table
and fails (returns false) if and only if the output id is already a key of the table;
on failure the table is left as it was, so the first declaration is kept, and on
success the table maps the output id to the input ids and the kind of the line, which
has the arity of the grammar, and every other id to what it mapped to before. -/
theorem parseGate_duplicate (gates : gate_map) (line : List Char) (line_id : Nat)
    (hvalid : isLineValid line = true) :
    (∃ name outWord inWords, Words line (name :: outWord :: inWords)) ∧
    ∀ name outWord inWords, Words line (name :: outWord :: inWords) →
      ∃ gateType ok gates1 err,
        getGateType name = some gateType ∧
        validArity (inWords.map wordValue, gateType) = true ∧
        parseGate line line_id gates = some (ok, gates1, err) ∧
        (ok = false ↔ gatesContains gates (wordValue outWord) = true) ∧
        (ok = false → gates1 = gates) ∧
        (ok = true →
          gateAt gates1 (wordValue outWord) = some (inWords.map wordValue, gateType) ∧
          ∀ id, id ≠ wordValue outWord → gateAt gates1 id = gateAt gates id) := by
  obtain ⟨name0, out0, ins0, gateType, ht, hty, hout, hins, har⟩ := isLineValid_tokens line hvalid
  refine ⟨⟨name0, out0, ins0, by rw [← ht]; exact words_tokens line⟩, ?_⟩
  intro name outWord inWords hw
  have ht' := tokens_eq_of_words line _ hw
  rw [ht] at ht'
  simp only [List.cons.injEq] at ht'
  obtain ⟨rfl, rfl, rfl⟩ := ht'
  have hpt : parseGateType (tokens line) = some gateType := by
    rw [ht]; exact hty
  have hpo : parseGateOutputId (tokens line).tail = wordValue out0 := by
    rw [ht]
    simp [parseGateOutputId, extractId_of_isIdToken out0 hout]
  have hpi : parseGateInputIds (tokens line).tail.tail = ins0.map wordValue := by
    rw [ht]
    exact parseGateInputIds_of_ids ins0 hins
  by_cases hc : gatesContains gates (wordValue out0) = true
  · refine ⟨gateType, false, gates,
      ["Error in line " ++ toString line_id ++ ": signal " ++
        toString (wordValue out0) ++ " is assigned to multiple outputs."],
      hty, har, ?_, by simp [hc], fun _ => rfl, by simp⟩
    simp only [parseGate, hvalid, hpt, hpo, hc]
    rfl
  · refine ⟨gateType, true,
      gatesAssign gates (wordValue out0) (ins0.map wordValue, gateType),
      [], hty, har, ?_, by simp [hc], by simp, fun _ => ?_⟩
    · simp only [parseGate, hvalid, hpt, hpo, hpi, hc]
      rfl
    · exact ⟨gateAt_gatesAssign_self _ _ _, fun id hid => gateAt_gatesAssign_ne _ _ _ _ hid⟩
/-- The line `AND 3 1 2` read against a table that already has a gate for signal 3 fails
and leaves that gate in place; read against a table without signal 3 it succeeds, and
the table then maps 3 to the inputs 1, 2 of an AND gate and still maps 5 as before. -/
theorem parseGate_duplicate_witness :
    isLineValid (String.toList "AND 3 1 2") = true ∧
    Words (String.toList "AND 3 1 2")
      [String.toList "AND", String.toList "3", String.toList "1", String.toList "2"] ∧
    (∃ err, parseGate (String.toList "AND 3 1 2") 2 [(3, ([1, 2], GateType.OR))] =
      some (false, [(3, ([1, 2], GateType.OR))], err)) ∧
    (∃ gates1 err, parseGate (String.toList "AND 3 1 2") 2 [(5, ([4], GateType.NOT))] =
        some (true, gates1, err) ∧
      gateAt gates1 3 = some ([1, 2], GateType.AND) ∧
      gateAt gates1 5 = some ([4], GateType.NOT)) := by
  have hw : Words (String.toList "AND 3 1 2")
      [String.toList "AND", String.toList "3", String.toList "1", String.toList "2"] := by
    have h := words_tokens (String.toList "AND 3 1 2")
    have ht : tokens (String.toList "AND 3 1 2") =
        [String.toList "AND", String.toList "3", String.toList "1", String.toList "2"] := by
      decide
    rwa [ht] at h
  have hv : wordValue (String.toList "3") = 3 := by decide
  have hins : [String.toList "1", String.toList "2"].map wordValue = [1, 2] := by decide
  have hname : getGateType (String.toList "AND") = some GateType.AND := by decide
  refine ⟨by decide, hw, ?_, ?_⟩
  · obtain ⟨gateType, ok, gates1, err, _, _, hrun, hiff, hfail, _⟩ :=
      (parseGate_duplicate [(3, ([1, 2], GateType.OR))] (String.toList "AND 3 1 2") 2
        (by decide)).2 _ _ _ hw
    have hok : ok = false := hiff.2 (by rw [hv]; decide)
    subst hok
    rw [hfail rfl] at hrun
    exact ⟨err, hrun⟩
  · obtain ⟨gateType, ok, gates1, err, hty, _, hrun, hiff, _, hsucc⟩ :=
      (parseGate_duplicate [(5, ([4], GateType.NOT))] (String.toList "AND 3 1 2") 2
        (by decide)).2 _ _ _ hw
    have hok : ok = true := by
      cases ok with
      | true => rfl
      | false =>
        have h := hiff.1 rfl
        rw [hv] at h
        exact absurd h (by decide)
    subst hok
    obtain ⟨hself, hother⟩ := hsucc rfl
    rw [hname] at hty
    cases hty
    rw [hv, hins] at hself
    refine ⟨gates1, err, hrun, hself, ?_⟩
    rw [hother 5 (by rw [hv]; decide)]
    decide

end Nysa

